import Mathlib

/-!
# Cryptographic-Implementations: RSA key derivation, CRT decryption, primality oracles

A shallow embedding of `rsa512.c` and of the GMP programs collected in `Chacha20.c`
(Miller-Rabin, Solovay-Strassen, prime generation), followed by theorems about them.

Conventions of the embedding.

* `mpz_t` values that the programs keep non-negative are natural numbers; the arguments of
  the two oracles and the differences formed by `mpz_sub` are integers.
* The GMP primitives are modelled by executable functions that follow the GMP manual
  (`mpz_powm`, `mpz_invert`, `mpz_jacobi`, `mpz_nextprime`, `mpz_urandomb`, `mpz_urandomm`,
  `mpz_setbit`); each is related to its mathematical meaning by a lemma below.
* A random generator state is the stream of raw values it will still deliver; a draw takes
  the head of the stream, reduces it below the requested bound and leaves the tail.
* Loops without a bound in the source (`while`, `do ... while`, `for (;;)`) take a `fuel`
  argument that bounds the number of iterations; running out of it is reported as
  `Run.out_of_fuel`, never as a verdict.
-/

namespace Crypto

/-! ## GMP primitives -/

/-- Square-and-multiply loop behind `mpz_powm`: the result is `acc * b ^ e` modulo `m`. -/
def powm_loop : Nat → Nat → Nat → Nat → Nat → Nat
  | 0, acc, _, _, _ => acc
  | fuel + 1, acc, b, e, m =>
    if e = 0 then acc
    else powm_loop fuel (if e % 2 = 1 then acc * b % m else acc) (b * b % m) (e / 2) m

/-- GMP `mpz_powm(rop, base, exp, mod)` for a non-negative exponent: `base ^ exp mod m`. -/
def mpz_powm (b e m : Nat) : Nat := powm_loop e (1 % m) (b % m) e m

/-- GMP `mpz_setbit(rop, i)`: set bit `i`. -/
def mpz_setbit (n i : Nat) : Nat := n ||| 2 ^ i

/-- GMP `mpz_divisible_ui_p(n, d)`: non-zero exactly when `d` divides `n`. -/
def mpz_divisible_ui_p (n d : Nat) : Bool := n % d == 0

/-- Extended Euclid behind `mpz_invert`: from remainders `r0, r1` with coefficients `t0, t1`
to the last non-zero remainder and its coefficient. -/
def invert_loop : Nat → Nat → Nat → Int → Int → Nat × Int
  | 0, r0, _, t0, _ => (r0, t0)
  | fuel + 1, r0, r1, t0, t1 =>
    if r1 = 0 then (r0, t0)
    else invert_loop fuel r1 (r0 % r1) t1 (t0 - ((r0 / r1 : Nat) : Int) * t1)

/-- GMP `mpz_invert(rop, a, m)`: `none` is the return value 0 (no inverse), `some x` is the
inverse with `0 <= x < m`. The manual leaves `m = 0` undefined; it is reported as `none`. -/
def mpz_invert (a m : Nat) : Option Nat :=
  if m = 0 then none
  else
    let r := invert_loop m m (a % m) 0 1
    if r.1 = 1 then some (r.2 % (m : Int)).toNat else none

/-- Search loop behind `mpz_nextprime`: the first prime among `c, c + 1, ...`. -/
def nextprime_loop : Nat → Nat → Nat
  | 0, c => c
  | fuel + 1, c => if Nat.Prime c then c else nextprime_loop fuel (c + 1)

/-- GMP `mpz_nextprime(rop, n)`: the next prime greater than `n`. The search is given
`n + 2` steps, which by Bertrand's postulate always reach a prime. -/
def mpz_nextprime (n : Nat) : Nat := nextprime_loop (n + 2) (n + 1)

/-- A `gmp_randstate_t`: the raw values the generator will deliver, next one first. -/
abbrev gmp_randstate_t := Nat → Nat

/-- The generator after one draw. -/
def rand_advance (st : gmp_randstate_t) : gmp_randstate_t := fun i => st (i + 1)

/-- GMP `mpz_urandomb(rop, state, bits)`: a value in `[0, 2^bits)` and the new state. -/
def mpz_urandomb (st : gmp_randstate_t) (bits : Nat) : Nat × gmp_randstate_t :=
  (st 0 % 2 ^ bits, rand_advance st)

/-- How a modelled run ends: with a value, in GMP's division-by-zero trap, or without
having finished within the fuel. -/
inductive Run (α : Type) where
  | done (a : α) : Run α
  | divide_by_zero : Run α
  | out_of_fuel : Run α

/-- GMP `mpz_urandomm(rop, state, n)`: a value in `[0, n)` and the new state; GMP raises
its division-by-zero trap when `n = 0`. -/
def mpz_urandomm (st : gmp_randstate_t) (n : Nat) : Run (Nat × gmp_randstate_t) :=
  if n = 0 then Run.divide_by_zero else Run.done (st 0 % n, rand_advance st)

/-- The generator after `k` draws. -/
def rand_skip (k : Nat) (st : gmp_randstate_t) : gmp_randstate_t := fun i => st (i + k)

/-- Binary algorithm behind `mpz_jacobi`: `s` times the Jacobi symbol of `a` over the odd
number `n`. Factors of two are taken out of `a` with the rule for `(2/n)`; an odd `a` is
swapped with `n` by quadratic reciprocity. -/
def jacobi_loop : Nat → Nat → Nat → Int → Int
  | 0, _, _, _ => 0
  | fuel + 1, a, n, s =>
    if a = 0 then (if n = 1 then s else 0)
    else if a % 2 = 0 then
      jacobi_loop fuel (a / 2) n (if n % 8 = 3 ∨ n % 8 = 5 then -s else s)
    else jacobi_loop fuel (n % a) a (if a % 4 = 3 ∧ n % 4 = 3 then -s else s)

/-- GMP `mpz_jacobi(a, n)` for `a >= 0` and odd `n > 0` (the manual defines the symbol only
for odd `n`): the Jacobi symbol, one of -1, 0, 1. -/
def mpz_jacobi (a n : Nat) : Int := jacobi_loop (2 * a + n + 1) a n 1

/-! ## rsa512.c -/

namespace Rsa512

/-- The macro `PRIME_BITS` of rsa512.c. -/
def PRIME_BITS : Nat := 512

/-- The public exponent set by `mpz_set_ui(e, 65537)`. -/
def RSA_E : Nat := 65537

/-- Body of the generation loops (lines 85-88): draw, force the top and the bottom bit,
move to the next prime. -/
def draw_prime (st : gmp_randstate_t) : Nat × gmp_randstate_t :=
  let r := mpz_urandomb st PRIME_BITS
  let tmp := mpz_setbit (mpz_setbit r.1 (PRIME_BITS - 1)) 0
  (mpz_nextprime tmp, r.2)

/-- The loop `do { ... } while (mpz_divisible_ui_p(p - 1, 65537))` that produces `p`. -/
def generate_p : Nat → gmp_randstate_t → Run (Nat × gmp_randstate_t)
  | 0, _ => Run.out_of_fuel
  | fuel + 1, st =>
    let r := draw_prime st
    if mpz_divisible_ui_p (r.1 - 1) RSA_E then generate_p fuel r.2 else Run.done r

/-- The loop `do { ... } while (mpz_cmp(p, q) == 0 || mpz_divisible_ui_p(q - 1, 65537))`
that produces `q`. -/
def generate_q (p : Nat) : Nat → gmp_randstate_t → Run (Nat × gmp_randstate_t)
  | 0, _ => Run.out_of_fuel
  | fuel + 1, st =>
    let r := draw_prime st
    if p == r.1 || mpz_divisible_ui_p (r.1 - 1) RSA_E then generate_q p fuel r.2
    else Run.done r

/-- The values `main` holds once the example key is derived and a message is processed. -/
structure RsaExample where
  n : Nat
  phi : Nat
  d : Nat
  encrypted : Nat
  dP : Nat
  dQ : Nat
  qInv : Nat
  rec_msg : Int

/-- The two error exits of `main` (both `return 1`). -/
inductive RsaError where
  | invert_d_failed : RsaError
  | invert_qInv_failed : RsaError

/-- Lines 228-238: CRT recombination of the ciphertext `c`. The difference `m1 - m2` is an
integer; `mpz_mod` brings it into `[0, p)`. -/
def crt_decrypt (c p q dP dQ qInv : Nat) : Int :=
  let m1 := mpz_powm c dP p
  let m2 := mpz_powm c dQ q
  let h : Int := ((m1 : Int) - (m2 : Int)) % (p : Int)
  let h : Int := (h * (qInv : Int)) % (p : Int)
  h * (q : Int) + (m2 : Int)

/-- Lines 185-238 of `main` for primes `p`, `q` and a message `msg`: modulus, phi, private
exponent, encryption, CRT parameters and CRT decryption. -/
def rsa_example (p q msg : Nat) : Except RsaError RsaExample :=
  let n := p * q
  let phi := (p - 1) * (q - 1)
  match mpz_invert RSA_E phi with
  | none => Except.error RsaError.invert_d_failed
  | some d =>
    let encrypted := mpz_powm msg RSA_E n
    let dP := d % (p - 1)
    let dQ := d % (q - 1)
    match mpz_invert q p with
    | none => Except.error RsaError.invert_qInv_failed
    | some qInv =>
      Except.ok
        (RsaExample.mk n phi d encrypted dP dQ qInv (crt_decrypt encrypted p q dP dQ qInv))

/-- One iteration of the timing loop (lines 77-132): generate `p` and `q`, compute `n` and
`phi`, and try to invert `e`. The result tells whether the iteration reached its end
(`true`) or took the `mpz_invert failed` branch (`false`). -/
def rsa_trial (fuel : Nat) (st : gmp_randstate_t) : Run (Bool × gmp_randstate_t) :=
  match generate_p fuel st with
  | Run.done (p, st1) =>
    match generate_q p fuel st1 with
    | Run.done (q, st2) =>
      let phi := (p - 1) * (q - 1)
      Run.done ((mpz_invert RSA_E phi).isSome, st2)
    | Run.divide_by_zero => Run.divide_by_zero
    | Run.out_of_fuel => Run.out_of_fuel
  | Run.divide_by_zero => Run.divide_by_zero
  | Run.out_of_fuel => Run.out_of_fuel

end Rsa512

/-! ## Chacha20.c, part "Miller-Rabin (gmp).c" -/

namespace MillerRabin

/-- The loop `while (mpz_even_p(d)) mpz_divexact_ui(d, d, 2);` of `isPrime` and `main`. -/
def odd_part_loop : Nat → Nat → Run Nat
  | 0, d => if d % 2 = 0 then Run.out_of_fuel else Run.done d
  | fuel + 1, d => if d % 2 = 0 then odd_part_loop fuel (d / 2) else Run.done d

/-- The squaring loop of `millerTest` (lines 285-298), started with `x` and `temp`; the
value is the `int` that `millerTest` returns. -/
def miller_loop : Nat → Nat → Nat → Nat → Run Int
  | 0, _, temp, n => if temp = n - 1 then Run.done 0 else Run.out_of_fuel
  | fuel + 1, x, temp, n =>
    if temp = n - 1 then Run.done 0
    else
      let x2 := x * x % n
      if x2 = 1 then Run.done 0
      else if x2 = n - 1 then Run.done 1
      else miller_loop fuel x2 (temp * 2) n

/-- The base that `millerTest` uses for the draw `r` (line 276). -/
def miller_base (r : Nat) : Nat := if r < 2 then r + 2 else r

/-- The verdict of one `millerTest(d, n, state)` round whose draw was `r`. -/
def miller_round (fuel d n r : Nat) : Run Int :=
  let x := mpz_powm (miller_base r) d n
  if x = 1 ∨ x = n - 1 then Run.done 1 else miller_loop fuel x d n

/-- `millerTest(d, n, state)`: one Miller-Rabin round; the `int` result and the state. -/
def millerTest (fuel d n : Nat) (st : gmp_randstate_t) : Run (Int × gmp_randstate_t) :=
  match mpz_urandomm st (n - 1) with
  | Run.done (r, st1) =>
    match miller_round fuel d n r with
    | Run.done v => Run.done (v, st1)
    | Run.divide_by_zero => Run.divide_by_zero
    | Run.out_of_fuel => Run.out_of_fuel
  | Run.divide_by_zero => Run.divide_by_zero
  | Run.out_of_fuel => Run.out_of_fuel

/-- The loop `for (int i = 0; i < k; i++) if (!millerTest(d, n, state)) return 0;` followed
by `return 1`, with `k` rounds left. -/
def isPrime_rounds (fuel d n : Nat) : Nat → gmp_randstate_t → Run (Int × gmp_randstate_t)
  | 0, st => Run.done (1, st)
  | k + 1, st =>
    match millerTest fuel d n st with
    | Run.done (v, st1) => if v = 0 then Run.done (0, st1) else isPrime_rounds fuel d n k st1
    | Run.divide_by_zero => Run.divide_by_zero
    | Run.out_of_fuel => Run.out_of_fuel

/-- `isPrime(n, k, state)`: the Miller-Rabin oracle. -/
def isPrime (fuel : Nat) (n : Int) (k : Int) (st : gmp_randstate_t) :
    Run (Int × gmp_randstate_t) :=
  if n ≤ 1 then Run.done (0, st)
  else if n ≤ 3 then Run.done (1, st)
  else
    match odd_part_loop fuel (n.toNat - 1) with
    | Run.done d => isPrime_rounds fuel d n.toNat k.toNat st
    | Run.divide_by_zero => Run.divide_by_zero
    | Run.out_of_fuel => Run.out_of_fuel

/-- The loop of `generate_prime` with `inner` as the bound of the loops inside `isPrime`. -/
def generate_prime_loop (inner bits : Nat) : Nat → gmp_randstate_t →
    Run (Nat × gmp_randstate_t)
  | 0, _ => Run.out_of_fuel
  | fuel + 1, st =>
    let r := mpz_urandomb st bits
    let prime := mpz_setbit (mpz_setbit r.1 (bits - 1)) 0
    match isPrime inner (prime : Int) 1 r.2 with
    | Run.done (v, st1) =>
      if v = 0 then generate_prime_loop inner bits fuel st1 else Run.done (prime, st1)
    | Run.divide_by_zero => Run.divide_by_zero
    | Run.out_of_fuel => Run.out_of_fuel

/-- `generate_prime(prime, bits, state)`: draw candidates until `isPrime(prime, 1, state)`
accepts one. -/
def generate_prime (fuel bits : Nat) (st : gmp_randstate_t) : Run (Nat × gmp_randstate_t) :=
  generate_prime_loop fuel bits fuel st

end MillerRabin

/-! ## Chacha20.c, part "Solovay-Strassen (gmp).c" -/

namespace SolovayStrassen

/-- The macro `SS_ROUNDS`. -/
def SS_ROUNDS : Int := 64

/-- The macro `PRIME_BITS` of this program. -/
def PRIME_BITS : Nat := 512

/-- The table `small_primes`. -/
def small_primes : List Nat :=
  [3, 5, 7, 11, 13, 17, 19, 23, 29, 31,
   37, 41, 43, 47, 53, 59, 61, 67, 71, 73,
   79, 83, 89, 97, 101, 103, 107, 109, 113]

/-- `random_odd_candidate_512(n, st)`: a draw of `PRIME_BITS` bits with the top and the
bottom bit forced. -/
def random_odd_candidate_512 (st : gmp_randstate_t) : Nat × gmp_randstate_t :=
  let r := mpz_urandomb st PRIME_BITS
  (mpz_setbit (mpz_setbit r.1 (PRIME_BITS - 1)) 0, r.2)

/-- The `for` loop of `divisible_by_small_prime` over the rest of the table. -/
def small_prime_loop (n : Int) : List Nat → Int
  | [] => 0
  | p :: rest => if n % (p : Int) = 0 then 1 else small_prime_loop n rest

/-- `divisible_by_small_prime(n)`. -/
def divisible_by_small_prime (n : Int) : Int :=
  if n < 2 then 1
  else if n = 2 then 0
  else if n % 2 = 0 then 1
  else small_prime_loop n small_primes

/-- The witness `a` of a Solovay-Strassen round whose draw was `r` (line 621). -/
def ss_base (r : Nat) : Nat := r + 2

/-- The body of one round of `is_probable_prime_ss` after the draw, for the witness `a`:
`true` when the round lets the loop continue, `false` when it returns 0. -/
def ss_round (n a : Nat) : Bool :=
  if Nat.gcd a n ≠ 1 then false
  else
    let jac := mpz_jacobi a n
    if jac = 0 then false
    else
      let p := mpz_powm a ((n - 1) / 2) n
      let jac_mod := if jac = -1 then n - 1 else 1
      if p ≠ jac_mod then false else true

/-- The loop `for (int i = 0; i < k; ++i) { ... }` of `is_probable_prime_ss` followed by
`return 1`, with `k` rounds left. -/
def ss_rounds (n : Nat) : Nat → gmp_randstate_t → Run (Int × gmp_randstate_t)
  | 0, st => Run.done (1, st)
  | k + 1, st =>
    match mpz_urandomm st (n - 3) with
    | Run.done (r, st1) =>
      if ss_round n (ss_base r) then ss_rounds n k st1 else Run.done (0, st1)
    | Run.divide_by_zero => Run.divide_by_zero
    | Run.out_of_fuel => Run.out_of_fuel

/-- `is_probable_prime_ss(n, k, st)`: the Solovay-Strassen oracle. -/
def is_probable_prime_ss (n : Int) (k : Int) (st : gmp_randstate_t) :
    Run (Int × gmp_randstate_t) :=
  if n < 2 then Run.done (0, st)
  else if n = 2 then Run.done (1, st)
  else if n % 2 = 0 then Run.done (0, st)
  else ss_rounds n.toNat k.toNat st

/-- `generate_prime_512(prime, st)`: the loop `for (;;)`. -/
def generate_prime_512 : Nat → gmp_randstate_t → Run (Nat × gmp_randstate_t)
  | 0, _ => Run.out_of_fuel
  | fuel + 1, st =>
    let c := random_odd_candidate_512 st
    if divisible_by_small_prime (c.1 : Int) ≠ 0 then generate_prime_512 fuel c.2
    else
      match is_probable_prime_ss (c.1 : Int) SS_ROUNDS c.2 with
      | Run.done (v, st1) => if v ≠ 0 then Run.done (c.1, st1) else generate_prime_512 fuel st1
      | Run.divide_by_zero => Run.divide_by_zero
      | Run.out_of_fuel => Run.out_of_fuel

end SolovayStrassen

/-! ## Chacha20.c, part "ChaCha20" -/

namespace ChaCha20

/-- The macro `ROTL32(v, n)` on a `uint32_t`: the left shift is cut to 32 bits. -/
def ROTL32 (v n : Nat) : Nat := ((v <<< n) % 2 ^ 32) ||| (v >>> (32 - n))

/-- The macro `QUARTERROUND(a, b, c, d)` on four `uint32_t` values; additions wrap. -/
def QUARTERROUND (a b c d : Nat) : Nat × Nat × Nat × Nat :=
  let a := (a + b) % 2 ^ 32
  let d := ROTL32 (d ^^^ a) 16
  let c := (c + d) % 2 ^ 32
  let b := ROTL32 (b ^^^ c) 12
  let a := (a + b) % 2 ^ 32
  let d := ROTL32 (d ^^^ a) 8
  let c := (c + d) % 2 ^ 32
  let b := ROTL32 (b ^^^ c) 7
  (a, b, c, d)

/-- `QUARTERROUND(state[i], state[j], state[k], state[l])` on the 16-word state. -/
def quarterround_at (state : List Nat) (i j k l : Nat) : List Nat :=
  let r := QUARTERROUND (state.getD i 0) (state.getD j 0) (state.getD k 0) (state.getD l 0)
  (((state.set i r.1).set j r.2.1).set k r.2.2.1).set l r.2.2.2

/-- One iteration of the round loop of `chacha20_block`: four column rounds, then four
diagonal rounds. -/
def double_round (state : List Nat) : List Nat :=
  let s := quarterround_at state 0 4 8 12
  let s := quarterround_at s 1 5 9 13
  let s := quarterround_at s 2 6 10 14
  let s := quarterround_at s 3 7 11 15
  let s := quarterround_at s 0 5 10 15
  let s := quarterround_at s 1 6 11 12
  let s := quarterround_at s 2 7 8 13
  quarterround_at s 3 4 9 14

/-- The loop `for (i = 0; i < 10; i++) { ... }` of `chacha20_block`, with `i` iterations
left. -/
def round_loop : Nat → List Nat → List Nat
  | 0, state => state
  | i + 1, state => round_loop i (double_round state)

/-- `chacha20_block(output, input)`: 20 rounds on a copy, then the input is added back. The
`printf` calls are not modelled. -/
def chacha20_block (input : List Nat) : List Nat :=
  let state := round_loop 10 input
  (List.range 16).map (fun i => (state.getD i 0 + input.getD i 0) % 2 ^ 32)

/-- The little-endian load `key[4i] | key[4i+1] << 8 | key[4i+2] << 16 | key[4i+3] << 24`. -/
def load32 (bytes : List Nat) (i : Nat) : Nat :=
  bytes.getD (4 * i) 0 ||| (bytes.getD (4 * i + 1) 0 <<< 8) |||
    (bytes.getD (4 * i + 2) 0 <<< 16) ||| (bytes.getD (4 * i + 3) 0 <<< 24)

/-- `initialize_state(state, key, nonce, counter)`. -/
def initialize_state (key nonce : List Nat) (counter : Nat) : List Nat :=
  [0x61707865, 0x3320646e, 0x79622d32, 0x6b206574] ++
    (List.range 8).map (fun i => load32 key i) ++ [counter] ++
    (List.range 3).map (fun i => load32 nonce i)

/-- The 64 bytes `((uint8_t *)keystream)[i]` of the keystream words, in the little-endian
byte order of the x86 targets the program is written for. -/
def keystream_bytes (keystream : List Nat) : List Nat :=
  (List.range 64).map (fun i => (keystream.getD (i / 4) 0 >>> (8 * (i % 4))) % 256)

/-- The inner loop `ciphertext[offset + i] = plaintext[offset + i] ^ keystream[i]` over one
block of at most 64 bytes. -/
def xor_block (block keystream : List Nat) : List Nat :=
  List.zipWith (fun p k => (p ^^^ k) % 256) block keystream

/-- `chacha20_encrypt(plaintext, ciphertext, len, key, nonce, counter)`: the list is the `len`
bytes of `plaintext`, the result the `len` bytes written to `ciphertext`. -/
def chacha20_encrypt (plaintext key nonce : List Nat) (counter : Nat) : List Nat :=
  match plaintext with
  | [] => []
  | b :: rest =>
    let keystream := chacha20_block (initialize_state key nonce counter)
    xor_block ((b :: rest).take 64) (keystream_bytes keystream) ++
      chacha20_encrypt ((b :: rest).drop 64) key nonce ((counter + 1) % 2 ^ 32)
termination_by plaintext.length
decreasing_by
  simp only [List.length_drop, List.length_cons]
  omega

/-- The array `key` of `main`. -/
def main_key : List Nat :=
  [0x00, 0x01, 0x02, 0x03, 0x04, 0x05, 0x06, 0x07,
   0x08, 0x09, 0x0a, 0x0b, 0x0c, 0x0d, 0x0e, 0x0f,
   0x10, 0x11, 0x12, 0x13, 0x14, 0x15, 0x16, 0x17,
   0x18, 0x19, 0x1a, 0x1b, 0x1c, 0x1d, 0x1e, 0x1f]

/-- The array `nonce` of `main`. -/
def main_nonce : List Nat :=
  [0x00, 0x00, 0x00, 0x09, 0x00, 0x00, 0x00, 0x4a,
   0x00, 0x00, 0x00, 0x00]

/-- The array `plaintext` of `main` (114 bytes). -/
def main_plaintext : List Nat :=
  [0x4c, 0x61, 0x64, 0x69, 0x65, 0x73, 0x20, 0x61, 0x6e, 0x64, 0x20, 0x47, 0x65, 0x6e, 0x74, 0x6c,
   0x65, 0x6d, 0x65, 0x6e, 0x20, 0x6f, 0x66, 0x20, 0x74, 0x68, 0x65, 0x20, 0x63, 0x6c, 0x61, 0x73,
   0x73, 0x20, 0x6f, 0x66, 0x20, 0x27, 0x39, 0x39, 0x3a, 0x20, 0x49, 0x66, 0x20, 0x49, 0x20, 0x63,
   0x6f, 0x75, 0x6c, 0x64, 0x20, 0x6f, 0x66, 0x66, 0x65, 0x72, 0x20, 0x79, 0x6f, 0x75, 0x20, 0x6f,
   0x6e, 0x6c, 0x79, 0x20, 0x6f, 0x6e, 0x65, 0x20, 0x74, 0x69, 0x70, 0x20, 0x66, 0x6f, 0x72, 0x20,
   0x74, 0x68, 0x65, 0x20, 0x66, 0x75, 0x74, 0x75, 0x72, 0x65, 0x2c, 0x20, 0x73, 0x75, 0x6e, 0x73,
   0x63, 0x72, 0x65, 0x65, 0x6e, 0x20, 0x77, 0x6f, 0x75, 0x6c, 0x64, 0x20, 0x62, 0x65, 0x20, 0x69,
   0x74, 0x2e]

end ChaCha20

/-! ## bubblesort.c

An `int arr[]` is modelled by its contents as a function of the index; a function that
writes to the array returns the new contents. -/

namespace BubbleSort

/-- `swap(&arr[i], &arr[j])`: exchange two cells. -/
def swap (arr : Nat → Int) (i j : Nat) : Nat → Int :=
  fun k => if k = i then arr j else if k = j then arr i else arr k

/-- The inner loop `for (j = 0; j < n - i - 1; j++)`, at index `j` with `steps` iterations
left; the result is the array and the flag `swapped`. -/
def inner_loop : Nat → Nat → (Nat → Int) → Bool → (Nat → Int) × Bool
  | 0, _, arr, swapped => (arr, swapped)
  | steps + 1, j, arr, swapped =>
    if arr j > arr (j + 1) then inner_loop steps (j + 1) (swap arr j (j + 1)) true
    else inner_loop steps (j + 1) arr swapped

/-- The outer loop `for (i = 0; i < n - 1; i++)`, at index `i` with `steps` iterations left,
with its `break` when a pass made no swap. -/
def outer_loop (n : Nat) : Nat → Nat → (Nat → Int) → (Nat → Int)
  | 0, _, arr => arr
  | steps + 1, i, arr =>
    let r := inner_loop (n - i - 1) 0 arr false
    if r.2 = false then r.1 else outer_loop n steps (i + 1) r.1

/-- `bubbleSort(arr, n)`. -/
def bubbleSort (arr : Nat → Int) (n : Int) : Nat → Int :=
  outer_loop n.toNat (n.toNat - 1) 0 arr

end BubbleSort

/-! ## Sorting_benchmarked.c: the counting bubble sort -/

namespace SortingBenchmarked

/-- `swap_bubble(&arr[i], &arr[j])`. -/
def swap_bubble (arr : Nat → Int) (i j : Nat) : Nat → Int :=
  fun k => if k = i then arr j else if k = j then arr i else arr k

/-- What the counting `bubbleSort` leaves behind: the array and the two counters. -/
structure Counted where
  arr : Nat → Int
  comparisons : Int
  swaps : Int

/-- The inner loop of the counting `bubbleSort`; the flag `swapped` is returned with the
state. -/
def inner_loop : Nat → Nat → Counted → Bool → Counted × Bool
  | 0, _, c, swapped => (c, swapped)
  | steps + 1, j, c, swapped =>
    if c.arr j > c.arr (j + 1) then
      inner_loop steps (j + 1)
        (Counted.mk (swap_bubble c.arr j (j + 1)) (c.comparisons + 1) (c.swaps + 1)) true
    else inner_loop steps (j + 1) (Counted.mk c.arr (c.comparisons + 1) c.swaps) swapped

/-- The outer loop of the counting `bubbleSort`. -/
def outer_loop (n : Nat) : Nat → Nat → Counted → Counted
  | 0, _, c => c
  | steps + 1, i, c =>
    let r := inner_loop (n - i - 1) 0 c false
    if r.2 = false then r.1 else outer_loop n steps (i + 1) r.1

/-- `bubbleSort(arr, n, comparisons, swaps)`. -/
def bubbleSort (arr : Nat → Int) (n : Int) (comparisons swaps : Int) : Counted :=
  outer_loop n.toNat (n.toNat - 1) 0 (Counted.mk arr comparisons swaps)

end SortingBenchmarked

/-! ## Concrete 512-bit inputs used to exhibit runs -/

/-- A 512-bit prime (certified below by a Lucas test). -/
def cert_p : Nat := 2098279 * 2 ^ 490 + 1

/-- A second 512-bit prime (certified below by a Lucas test). -/
def cert_q : Nat := 2098363 * 2 ^ 490 + 1

/-- A generator state whose first raw value is `cert_p - 2` and whose later ones are
`cert_q - 2`. -/
def cert_state : gmp_randstate_t := fun i => if i = 0 then cert_p - 2 else cert_q - 2

/-- The private exponent of the key `(cert_p, cert_q)`. -/
def cert_d : Nat :=
  19155274577408678377346188341182584353904209880459146822484944185866900994366479518418703166035139507857480091836335252003890891087936967277903786120204693324002899629464288410750846675801241943820856699862210396068549399027721616568969222262939677579262154568776065410688682128813808318813093298470440075265

/-- The CRT coefficient `cert_q ^ -1 mod cert_p`. -/
def cert_qInv : Nat :=
  3753009652311759525470401625300836382895708035938339487309034633582091863499251228332611549532747104041492884488596924492490009589479413859928630585683370

/-- A generator state whose first raw value is `cert_p` and whose later ones are 3. -/
def cert_state_ss : gmp_randstate_t := fun i => if i = 0 then cert_p else 3

/-- A generator state for `generate_prime` with `bits = 5`: the first raw value gives the
candidate 25, the second the base 7, all later ones the base 2. -/
def liar_state : gmp_randstate_t := fun i => if i = 0 then 25 else if i = 1 then 7 else 2

/-! ## Draw sequences -/

deriving instance DecidableEq for Run

/-- An oracle run ended with a non-zero answer ("probably prime"). -/
def Run.accepted : Run (Int × gmp_randstate_t) → Bool
  | Run.done (v, _) => v != 0
  | Run.divide_by_zero => false
  | Run.out_of_fuel => false

/-- The generator state that delivers the `k` values `f 0, ..., f (k - 1)` first. -/
def stream_of_draws (k : Nat) (f : Fin k → Nat) : gmp_randstate_t :=
  fun i => if h : i < k then f ⟨i, h⟩ else 0

/-! ## Chacha20.c, part "Inverse modulo N.c" -/

namespace InverseDemo

/-- The macro `PRIME_BITS` of this part. -/
def PRIME_BITS : Nat := 256

/-- The four calls that produce a prime (lines 200-203, and the body of the loop for `q`):
draw, force the top and the bottom bit, move to the next prime. -/
def draw_prime (st : gmp_randstate_t) : Nat × gmp_randstate_t :=
  let r := mpz_urandomb st PRIME_BITS
  (mpz_nextprime (mpz_setbit (mpz_setbit r.1 (PRIME_BITS - 1)) 0), r.2)

/-- The loop `do { ... } while (mpz_cmp(p, q) == 0)` that produces `q`. -/
def generate_q (p : Nat) : Nat → gmp_randstate_t → Run (Nat × gmp_randstate_t)
  | 0, _ => Run.out_of_fuel
  | fuel + 1, st =>
    let r := draw_prime st
    if p == r.1 then generate_q p fuel r.2 else Run.done r

/-- The loop `do { ... } while (mpz_cmp_ui(g, 1) != 0)` that chooses `e` (lines 220-225),
entered with the current value of `g`. A draw below 2 takes `continue`, which jumps to the
loop test and leaves `g` as it was. -/
def choose_e (n : Nat) : Nat → Nat → gmp_randstate_t → Run (Nat × gmp_randstate_t)
  | 0, _, _ => Run.out_of_fuel
  | fuel + 1, g, st =>
    match mpz_urandomm st n with
    | Run.done (e, st1) =>
      let g1 := if e < 2 then g else Nat.gcd e n
      if g1 ≠ 1 then choose_e n fuel g1 st1 else Run.done (e, st1)
    | Run.divide_by_zero => Run.divide_by_zero
    | Run.out_of_fuel => Run.out_of_fuel

/-- `inverse_demo()` with the generator state left by the seeding: the value it returns.
`mpz_inits` sets `g` to 0; the `printf` calls are not modelled. -/
def inverse_demo (fuel : Nat) (st : gmp_randstate_t) : Run Int :=
  let p := draw_prime st
  match generate_q p.1 fuel p.2 with
  | Run.done (q, st1) =>
    let n := p.1 * q
    match choose_e n fuel 0 st1 with
    | Run.done (e, _) =>
      match mpz_invert e n with
      | none => Run.done 1
      | some _ => Run.done 0
    | Run.divide_by_zero => Run.divide_by_zero
    | Run.out_of_fuel => Run.out_of_fuel
  | Run.divide_by_zero => Run.divide_by_zero
  | Run.out_of_fuel => Run.out_of_fuel

end InverseDemo

/-! ## Chacha20.c, part "Salsa20 (gmp).c" -/

namespace Salsa20

/-- The macro `ROTL(a, b)` on a `uint32_t`: the left shift is cut to 32 bits. -/
def ROTL (a b : Nat) : Nat := ((a <<< b) % 2 ^ 32) ||| (a >>> (32 - b))

/-- The macro `QR(a, b, c, d)` on four `uint32_t` values; the additions wrap. -/
def QR (a b c d : Nat) : Nat × Nat × Nat × Nat :=
  let b := b ^^^ ROTL ((a + d) % 2 ^ 32) 7
  let c := c ^^^ ROTL ((b + a) % 2 ^ 32) 9
  let d := d ^^^ ROTL ((c + b) % 2 ^ 32) 13
  let a := a ^^^ ROTL ((d + c) % 2 ^ 32) 18
  (a, b, c, d)

/-- The macro `ROUNDS`. -/
def ROUNDS : Nat := 20

/-- `QR(x[i], x[j], x[k], x[l])` on the 16-word array `x`. -/
def qr_at (x : Fin 16 → Nat) (i j k l : Fin 16) : Fin 16 → Nat :=
  let r := QR (x i) (x j) (x k) (x l)
  Function.update (Function.update (Function.update (Function.update x i r.1) j r.2.1)
    k r.2.2.1) l r.2.2.2

/-- The body of the round loop: a column round, then a row round. -/
def double_round (x : Fin 16 → Nat) : Fin 16 → Nat :=
  let x := qr_at x 0 4 8 12
  let x := qr_at x 5 9 13 1
  let x := qr_at x 10 14 2 6
  let x := qr_at x 15 3 7 11
  let x := qr_at x 0 1 2 3
  let x := qr_at x 5 6 7 4
  let x := qr_at x 10 11 8 9
  qr_at x 15 12 13 14

/-- The loop `for (i = 0; i < ROUNDS; i += 2) { ... }`, at the counter value `i`. -/
def round_loop : Nat → Nat → (Fin 16 → Nat) → (Fin 16 → Nat)
  | 0, _, x => x
  | fuel + 1, i, x => if i < ROUNDS then round_loop fuel (i + 2) (double_round x) else x

/-- The mixing that `salsa20_block` applies to its working copy `x`, before the
feed-forward. -/
def salsa20_rounds (x : Fin 16 → Nat) : Fin 16 → Nat := round_loop ROUNDS 0 x

/-- `salsa20_block(out, in)`: the rounds on a copy, then the input is added back. -/
def salsa20_block (input : Fin 16 → Nat) : Fin 16 → Nat :=
  let x := salsa20_rounds input
  fun i => (x i + input i) % 2 ^ 32

/-- The steps of `QR` undone in reverse order. -/
def QR_inv (a b c d : Nat) : Nat × Nat × Nat × Nat :=
  let a := a ^^^ ROTL ((d + c) % 2 ^ 32) 18
  let d := d ^^^ ROTL ((c + b) % 2 ^ 32) 13
  let c := c ^^^ ROTL ((b + a) % 2 ^ 32) 9
  let b := b ^^^ ROTL ((a + d) % 2 ^ 32) 7
  (a, b, c, d)

/-- `QR_inv` on the words `i, j, k, l` of the array. -/
def qr_inv_at (x : Fin 16 → Nat) (i j k l : Fin 16) : Fin 16 → Nat :=
  let r := QR_inv (x i) (x j) (x k) (x l)
  Function.update (Function.update (Function.update (Function.update x i r.1) j r.2.1)
    k r.2.2.1) l r.2.2.2

/-- The eight quarter rounds of `double_round` undone, last one first. -/
def double_round_inv (x : Fin 16 → Nat) : Fin 16 → Nat :=
  let x := qr_inv_at x 15 12 13 14
  let x := qr_inv_at x 10 11 8 9
  let x := qr_inv_at x 5 6 7 4
  let x := qr_inv_at x 0 1 2 3
  let x := qr_inv_at x 15 3 7 11
  let x := qr_inv_at x 10 14 2 6
  let x := qr_inv_at x 5 9 13 1
  qr_inv_at x 0 4 8 12

/-- The 16-word states whose words are `uint32_t` values. -/
def word_states : Set (Fin 16 → Nat) := fun x => ∀ i, x i < 2 ^ 32

/-- The quadruples of `uint32_t` values. -/
def word_quads : Set (Nat × Nat × Nat × Nat) :=
  fun q => q.1 < 2 ^ 32 ∧ q.2.1 < 2 ^ 32 ∧ q.2.2.1 < 2 ^ 32 ∧ q.2.2.2 < 2 ^ 32

end Salsa20

/-! ## Reference definitions in the words of the specification -/

/-- The search of a Miller-Rabin round as specified: square `x` modulo `n` up to `k` times,
looking only for `n - 1`. -/
def spec_square_search : Nat → Nat → Nat → Bool
  | 0, _, _ => false
  | k + 1, x, n => if x * x % n = n - 1 then true else spec_square_search k (x * x % n) n

/-- One Miller-Rabin round as specified, for the base `a` and `n - 1 = d * 2 ^ s`: accept when
`a ^ d mod n` is `1` or `n - 1`, otherwise search through at most `s - 1` squarings. -/
def spec_miller_round (a d s n : Nat) : Bool :=
  if a ^ d % n = 1 ∨ a ^ d % n = n - 1 then true else spec_square_search (s - 1) (a ^ d % n) n

/-- The condition a Solovay-Strassen round checks, as specified: the witness is coprime to
`n` and `a ^ ((n - 1) / 2) mod n` is `1` when the Jacobi symbol is `1`, `n - 1` when it
is `-1`. -/
def spec_ss_round (n a : Nat) : Prop :=
  Nat.gcd a n = 1 ∧ (jacobiSym (a : Int) n = 1 → a ^ ((n - 1) / 2) % n = 1) ∧
    (jacobiSym (a : Int) n = -1 → a ^ ((n - 1) / 2) % n = n - 1)

instance (n a : Nat) : Decidable (spec_ss_round n a) := by
  unfold spec_ss_round
  infer_instance

/-! ## Further concrete inputs -/

/-- A generator state whose draws modulo 15 are 0, 3, 1, 7, 7, ... -/
def choose_e_state : gmp_randstate_t :=
  fun i => if i = 0 then 0 else if i = 1 then 3 else if i = 2 then 1 else 7

/-- A 256-bit prime (certified below by a Lucas test). -/
def demo_p : Nat := 2099707 * 2 ^ 234 + 1

/-- A second 256-bit prime. -/
def demo_q : Nat := 2099767 * 2 ^ 234 + 1

/-- A generator state that makes `inverse_demo` draw `demo_p - 2`, `demo_q - 2` and then 2. -/
def inverse_demo_state : gmp_randstate_t :=
  fun i => if i = 0 then demo_p - 2 else if i = 1 then demo_q - 2 else 2

/-! ## Sorting_benchmarked.c: the counting quick sort

The indices `low`, `high`, `i`, `j` are C `int`s and can be `-1`; they are integers here, and
a cell is read at an index that the code has made non-negative. -/

namespace SortingBenchmarked

/-- `swap_quick(&arr[i], &arr[j], swaps)` on the array; the counter is kept by the caller. -/
def swap_quick (arr : Nat → Int) (i j : Nat) : Nat → Int :=
  fun k => if k = i then arr j else if k = j then arr i else arr k

/-- The loop `for (int j = low; j <= high - 1; j++)` of `partition`, at index `j` with
`steps` iterations left; the result is the final `i` and the state. -/
def partition_loop (pivot : Int) : Nat → Int → Int → Counted → Int × Counted
  | 0, _, i, c => (i, c)
  | steps + 1, j, i, c =>
    if c.arr j.toNat < pivot then
      partition_loop pivot steps (j + 1) (i + 1)
        (Counted.mk (swap_quick c.arr (i + 1).toNat j.toNat) (c.comparisons + 1) (c.swaps + 1))
    else partition_loop pivot steps (j + 1) i (Counted.mk c.arr (c.comparisons + 1) c.swaps)

/-- `partition(arr, low, high, comparisons, swaps)`: the returned index and the state. -/
def partition (c : Counted) (low high : Int) : Int × Counted :=
  let pivot := c.arr high.toNat
  let r := partition_loop pivot (high - low).toNat low (low - 1) c
  (r.1 + 1,
    Counted.mk (swap_quick r.2.arr (r.1 + 1).toNat high.toNat) r.2.comparisons (r.2.swaps + 1))

/-- `quickSortInstrumented(arr, low, high, comparisons, swaps)`; `fuel` bounds the depth
of the recursion. -/
def quickSortInstrumented : Nat → Counted → Int → Int → Run Counted
  | 0, c, low, high => if low < high then Run.out_of_fuel else Run.done c
  | fuel + 1, c, low, high =>
    if low < high then
      let p := partition c low high
      match quickSortInstrumented fuel p.2 low (p.1 - 1) with
      | Run.done c1 => quickSortInstrumented fuel c1 (p.1 + 1) high
      | Run.divide_by_zero => Run.divide_by_zero
      | Run.out_of_fuel => Run.out_of_fuel
    else Run.done c

/-- `quickSort(arr, n, comparisons, swaps)`. -/
def quickSort (fuel : Nat) (arr : Nat → Int) (n : Int) (comparisons swaps : Int) :
    Run Counted :=
  quickSortInstrumented fuel (Counted.mk arr comparisons swaps) 0 (n - 1)

end SortingBenchmarked

/-- The array `{5, 2, 8, 1, 9, 3}` followed by zeros. -/
def quick_input : Nat → Int :=
  fun k => if k = 0 then 5 else if k = 1 then 2 else if k = 2 then 8 else if k = 3 then 1
    else if k = 4 then 9 else if k = 5 then 3 else 0

/-! ## Lemmas on the GMP primitives -/

open Rsa512 MillerRabin SolovayStrassen ChaCha20

theorem powm_loop_eq (fuel : Nat) : ∀ acc b e m : Nat, e ≤ fuel → acc % m = acc →
    powm_loop fuel acc b e m = acc * b ^ e % m := by
  induction fuel with
  | zero =>
    intro acc b e m he hacc
    have : e = 0 := by omega
    subst this
    simp [powm_loop, hacc]
  | succ fuel ih =>
    intro acc b e m he hacc
    unfold powm_loop
    by_cases h0 : e = 0
    · subst h0
      simp [hacc]
    · rw [if_neg h0]
      have hlt : (if e % 2 = 1 then acc * b % m else acc) % m
          = (if e % 2 = 1 then acc * b % m else acc) := by
        split
        · exact Nat.mod_mod _ _
        · exact hacc
      rw [ih _ _ _ _ (by omega) hlt]
      have hsplit : b ^ e = (b * b) ^ (e / 2) * b ^ (e % 2) := by
        rw [← pow_two, ← pow_mul, ← pow_add, Nat.div_add_mod]
      rw [hsplit]
      have hpow : (b * b % m) ^ (e / 2) % m = (b * b) ^ (e / 2) % m := by
        rw [← Nat.pow_mod]
      by_cases h1 : e % 2 = 1
      · rw [if_pos h1, h1, pow_one]
        calc acc * b % m * (b * b % m) ^ (e / 2) % m
            = (acc * b % m) * ((b * b % m) ^ (e / 2) % m) % m := by
              rw [Nat.mul_mod, Nat.mod_mod]
          _ = (acc * b % m) * ((b * b) ^ (e / 2) % m) % m := by rw [hpow]
          _ = (acc * b) * (b * b) ^ (e / 2) % m := by rw [← Nat.mul_mod]
          _ = acc * ((b * b) ^ (e / 2) * b) % m := by ring_nf
      · have h2 : e % 2 = 0 := by omega
        rw [if_neg h1, h2, pow_zero, mul_one]
        calc acc * (b * b % m) ^ (e / 2) % m
            = (acc % m) * ((b * b % m) ^ (e / 2) % m) % m := by rw [Nat.mul_mod]
          _ = (acc % m) * ((b * b) ^ (e / 2) % m) % m := by rw [hpow]
          _ = acc * (b * b) ^ (e / 2) % m := by rw [← Nat.mul_mod]

/-- The executable `mpz_powm` computes `b ^ e % m`. -/
theorem mpz_powm_eq (b e m : Nat) : mpz_powm b e m = b ^ e % m := by
  unfold mpz_powm
  rw [powm_loop_eq _ _ _ _ _ le_rfl (Nat.mod_mod _ _)]
  calc 1 % m * (b % m) ^ e % m
      = (1 % m % m) * ((b % m) ^ e % m) % m := by rw [← Nat.mul_mod]
    _ = (1 % m) * (b ^ e % m) % m := by rw [Nat.mod_mod, ← Nat.pow_mod]
    _ = 1 * b ^ e % m := by rw [← Nat.mul_mod]
    _ = b ^ e % m := by rw [one_mul]

theorem invert_loop_spec (a m : Nat) (fuel : Nat) : ∀ (r0 r1 : Nat) (t0 t1 : Int),
    r1 < fuel → t0 * (a : Int) ≡ (r0 : Int) [ZMOD (m : Int)] →
    t1 * (a : Int) ≡ (r1 : Int) [ZMOD (m : Int)] →
    (invert_loop fuel r0 r1 t0 t1).1 = Nat.gcd r0 r1 ∧
      (invert_loop fuel r0 r1 t0 t1).2 * (a : Int)
        ≡ ((invert_loop fuel r0 r1 t0 t1).1 : Int) [ZMOD (m : Int)] := by
  induction fuel with
  | zero => intro r0 r1 t0 t1 h; omega
  | succ fuel ih =>
    intro r0 r1 t0 t1 hlt h0 h1
    unfold invert_loop
    by_cases hr : r1 = 0
    · subst hr
      simpa using h0
    · rw [if_neg hr]
      have hmod : r0 % r1 < fuel := by
        have := Nat.mod_lt r0 (Nat.pos_of_ne_zero hr)
        omega
      have hstep : (t0 - ((r0 / r1 : Nat) : Int) * t1) * (a : Int)
          ≡ ((r0 % r1 : Nat) : Int) [ZMOD (m : Int)] := by
        have e1 : (t0 - ((r0 / r1 : Nat) : Int) * t1) * (a : Int)
            = t0 * (a : Int) - ((r0 / r1 : Nat) : Int) * (t1 * (a : Int)) := by ring
        have e2 : ((r0 % r1 : Nat) : Int)
            = (r0 : Int) - ((r0 / r1 : Nat) : Int) * (r1 : Int) := by
          have := Nat.div_add_mod r0 r1
          have h3 : (r0 : Int) = (r1 : Int) * ((r0 / r1 : Nat) : Int) + ((r0 % r1 : Nat) : Int) := by
            exact_mod_cast this.symm
          linarith
        rw [e1, e2]
        exact Int.ModEq.sub h0 (Int.ModEq.mul_left _ h1)
      obtain ⟨g1, g2⟩ := ih r1 (r0 % r1) t1 _ hmod h1 hstep
      refine ⟨?_, g2⟩
      rw [g1, Nat.gcd_comm r1 (r0 % r1), ← Nat.gcd_rec, Nat.gcd_comm]

theorem invert_loop_start (a m : Nat) (hpos : 0 < m) :
    (invert_loop m m (a % m) 0 1).1 = Nat.gcd a m ∧
      (invert_loop m m (a % m) 0 1).2 * (a : Int)
        ≡ ((invert_loop m m (a % m) 0 1).1 : Int) [ZMOD (m : Int)] := by
  have hspec := invert_loop_spec a m m m (a % m) 0 1 (Nat.mod_lt _ hpos)
    (by
      rw [zero_mul]
      exact (Int.modEq_zero_iff_dvd.mpr (dvd_refl (m : Int))).symm)
    (by
      rw [one_mul]
      have : ((a % m : Nat) : Int) = (a : Int) % (m : Int) := by push_cast; rfl
      rw [this]
      exact (Int.mod_modEq (a : Int) (m : Int)).symm)
  refine ⟨?_, hspec.2⟩
  rw [hspec.1, Nat.gcd_comm m (a % m), ← Nat.gcd_rec, Nat.gcd_comm]

/-- What a successful `mpz_invert` returns: a reduced inverse, and the gcd is 1. -/
theorem mpz_invert_some {a m x : Nat} (h : mpz_invert a m = some x) :
    x < m ∧ a * x % m = 1 % m ∧ Nat.gcd a m = 1 := by
  unfold mpz_invert at h
  by_cases hm : m = 0
  · simp [hm] at h
  · rw [if_neg hm] at h
    have hpos : 0 < m := Nat.pos_of_ne_zero hm
    obtain ⟨g1, g2⟩ := invert_loop_start a m hpos
    simp only at h
    by_cases hg : (invert_loop m m (a % m) 0 1).1 = 1
    · rw [if_pos hg] at h
      rw [hg] at g1 g2
      have hx : x = ((invert_loop m m (a % m) 0 1).2 % (m : Int)).toNat := by
        injection h with h; exact h.symm
      have hmz : (m : Int) ≠ 0 := by exact_mod_cast hm
      have hnn : 0 ≤ (invert_loop m m (a % m) 0 1).2 % (m : Int) := Int.emod_nonneg _ hmz
      have hxi : (x : Int) = (invert_loop m m (a % m) 0 1).2 % (m : Int) := by
        rw [hx, Int.toNat_of_nonneg hnn]
      refine ⟨?_, ?_, g1.symm⟩
      · have := Int.emod_lt_of_pos (invert_loop m m (a % m) 0 1).2
          (by exact_mod_cast hpos : (0 : Int) < m)
        rw [← hxi] at this
        exact_mod_cast this
      · have hmodeq : (a : Int) * (x : Int) ≡ 1 [ZMOD (m : Int)] := by
          rw [hxi]
          calc (a : Int) * ((invert_loop m m (a % m) 0 1).2 % (m : Int))
              ≡ (a : Int) * (invert_loop m m (a % m) 0 1).2 [ZMOD (m : Int)] :=
                Int.ModEq.mul_left _ (Int.mod_modEq _ _)
            _ ≡ 1 [ZMOD (m : Int)] := by
                rw [mul_comm]; exact_mod_cast g2
        have hnat : a * x ≡ 1 [MOD m] := by
          apply (Int.natCast_modEq_iff).mp
          push_cast
          exact hmodeq
        exact hnat
    · rw [if_neg hg] at h
      exact absurd h (by simp)

/-- The executable `mpz_invert` succeeds whenever the gcd is 1 and the modulus is not 0. -/
theorem mpz_invert_isSome {a m : Nat} (hm : m ≠ 0) (hg : Nat.gcd a m = 1) :
    ∃ x, mpz_invert a m = some x := by
  unfold mpz_invert
  rw [if_neg hm]
  have h1 : (invert_loop m m (a % m) 0 1).1 = 1 := by
    rw [(invert_loop_start a m (Nat.pos_of_ne_zero hm)).1]
    exact hg
  simp only
  rw [if_pos h1]
  exact ⟨_, rfl⟩

/-! ## Number theory behind the RSA round trip -/

/-- Fermat: modulo a prime `p`, an exponent `k > 0` may be changed by multiples of `p - 1`. -/
theorem pow_fermat_mod {p : Nat} (hp : p.Prime) (c k t : Nat) (hk : 0 < k) :
    c ^ (k + (p - 1) * t) % p = c ^ k % p := by
  haveI : Fact p.Prime := ⟨hp⟩
  rw [← ZMod.natCast_eq_natCast_iff']
  push_cast
  by_cases hc : (c : ZMod p) = 0
  · rw [hc, zero_pow (by omega), zero_pow (by omega)]
  · rw [pow_add, pow_mul, ZMod.pow_card_sub_one_eq_one hc, one_pow, mul_one]

/-- Garner recombination: if `m1` and `m2` are the residues of some `x < p * q` modulo the
distinct primes `p` and `q`, the CRT formula of `main` rebuilds `x`. -/
theorem crt_combine {p q qInv : Nat} (hp : p.Prime) (hq : q.Prime) (hpq : p ≠ q)
    (hinv : q * qInv % p = 1 % p) (x : Nat) (hx : x < p * q) :
    ((((x % p : Nat) : Int) - ((x % q : Nat) : Int)) % (p : Int) * (qInv : Int)) % (p : Int)
      * (q : Int) + ((x % q : Nat) : Int) = (x : Int) := by
  have hp0 : (0 : Int) < p := by exact_mod_cast hp.pos
  have hq0 : (0 : Int) < q := by exact_mod_cast hq.pos
  set h : Int := ((((x % p : Nat) : Int) - ((x % q : Nat) : Int)) % (p : Int) * (qInv : Int))
    % (p : Int) with hh
  have hh0 : 0 ≤ h := Int.emod_nonneg _ hp0.ne'
  have hhp : h < p := Int.emod_lt_of_pos _ hp0
  have hm2 : ((x % q : Nat) : Int) < q := by exact_mod_cast Nat.mod_lt x hq.pos
  have hm20 : (0 : Int) ≤ ((x % q : Nat) : Int) := by positivity
  -- congruence modulo q
  have cq : h * (q : Int) + ((x % q : Nat) : Int) ≡ (x : Int) [ZMOD (q : Int)] := by
    have e1 : h * (q : Int) + ((x % q : Nat) : Int) ≡ ((x % q : Nat) : Int) [ZMOD (q : Int)] := by
      have : h * (q : Int) ≡ 0 [ZMOD (q : Int)] :=
        Int.modEq_zero_iff_dvd.mpr (dvd_mul_left _ _)
      simpa using Int.ModEq.add_right ((x % q : Nat) : Int) this
    have e2 : ((x % q : Nat) : Int) ≡ (x : Int) [ZMOD (q : Int)] := by
      push_cast
      exact Int.mod_modEq _ _
    exact e1.trans e2
  -- congruence modulo p
  have hinvz : (q : Int) * (qInv : Int) ≡ 1 [ZMOD (p : Int)] := by
    have : q * qInv ≡ 1 [MOD p] := hinv
    exact_mod_cast (Int.natCast_modEq_iff).mpr this
  have cp : h * (q : Int) + ((x % q : Nat) : Int) ≡ (x : Int) [ZMOD (p : Int)] := by
    have e0 : h ≡ (((x % p : Nat) : Int) - ((x % q : Nat) : Int)) * (qInv : Int)
        [ZMOD (p : Int)] := by
      rw [hh]
      exact (Int.mod_modEq _ _).trans (Int.ModEq.mul_right _ (Int.mod_modEq _ _))
    have e1 : h * (q : Int) ≡ (((x % p : Nat) : Int) - ((x % q : Nat) : Int))
        [ZMOD (p : Int)] := by
      have := Int.ModEq.mul_right (q : Int) e0
      refine this.trans ?_
      have e3 : (((x % p : Nat) : Int) - ((x % q : Nat) : Int)) * (qInv : Int) * (q : Int)
          = (((x % p : Nat) : Int) - ((x % q : Nat) : Int)) * ((q : Int) * (qInv : Int)) := by
        ring
      rw [e3]
      simpa using Int.ModEq.mul_left (((x % p : Nat) : Int) - ((x % q : Nat) : Int)) hinvz
    have e2 : h * (q : Int) + ((x % q : Nat) : Int) ≡ ((x % p : Nat) : Int) [ZMOD (p : Int)] := by
      simpa using Int.ModEq.add_right ((x % q : Nat) : Int) e1
    have e4 : ((x % p : Nat) : Int) ≡ (x : Int) [ZMOD (p : Int)] := by
      push_cast
      exact Int.mod_modEq _ _
    exact e2.trans e4
  have hcop : Nat.Coprime p q := (Nat.coprime_primes hp hq).mpr hpq
  have hboth : h * (q : Int) + ((x % q : Nat) : Int) ≡ (x : Int) [ZMOD ((p : Int) * (q : Int))] := by
    have := (Int.modEq_and_modEq_iff_modEq_mul
      (by simpa [Int.natAbs_ofNat] using hcop)).mp ⟨cp, cq⟩
    exact this
  have hlt : h * (q : Int) + ((x % q : Nat) : Int) < (p : Int) * (q : Int) := by nlinarith
  have hge : 0 ≤ h * (q : Int) + ((x % q : Nat) : Int) := by positivity
  have hxlt : (x : Int) < (p : Int) * (q : Int) := by exact_mod_cast hx
  have := Int.ModEq.eq hboth
  rw [Int.emod_eq_of_lt hge hlt, Int.emod_eq_of_lt (by positivity) hxlt] at this
  exact this

/-! ## Primality certificates and `mpz_nextprime` -/

/-- Lucas test for `k * 2 ^ m + 1` with `k` prime, run through `mpz_powm`. -/
theorem lucas_two_factor (k m a : Nat) (hk : k.Prime)
    (h1 : mpz_powm a (k * 2 ^ m) (k * 2 ^ m + 1) = 1)
    (h2 : mpz_powm a (k * 2 ^ m / 2) (k * 2 ^ m + 1) ≠ 1)
    (h3 : mpz_powm a (k * 2 ^ m / k) (k * 2 ^ m + 1) ≠ 1) :
    (k * 2 ^ m + 1).Prime := by
  have hP : 1 < k * 2 ^ m + 1 := by
    have := hk.pos
    have : 0 < k * 2 ^ m := by positivity
    omega
  have key : ∀ e : Nat, ((a : ZMod (k * 2 ^ m + 1)) ^ e = 1) ↔
      mpz_powm a e (k * 2 ^ m + 1) = 1 := by
    intro e
    rw [mpz_powm_eq]
    have : ((a : ZMod (k * 2 ^ m + 1)) ^ e = 1) ↔
        (((a ^ e : Nat) : ZMod (k * 2 ^ m + 1)) = ((1 : Nat) : ZMod (k * 2 ^ m + 1))) := by
      push_cast
      exact Iff.rfl
    rw [this, ZMod.natCast_eq_natCast_iff', Nat.mod_eq_of_lt hP]
  apply lucas_primality (k * 2 ^ m + 1) (a : ZMod (k * 2 ^ m + 1))
  · rw [Nat.add_sub_cancel]
    exact (key _).mpr h1
  · intro r hr hdvd
    rw [Nat.add_sub_cancel] at hdvd ⊢
    rw [Ne, key]
    rcases (Nat.Prime.dvd_mul hr).mp hdvd with h | h
    · have : r = k := (Nat.prime_dvd_prime_iff_eq hr hk).mp h
      subst this
      exact h3
    · have : r = 2 := (Nat.prime_dvd_prime_iff_eq hr Nat.prime_two).mp (hr.dvd_of_dvd_pow h)
      subst this
      exact h2

theorem nextprime_loop_spec (fuel : Nat) : ∀ c p : Nat, p.Prime → c ≤ p → p < c + fuel →
    (∀ m, c ≤ m → m < p → ¬ m.Prime) → nextprime_loop fuel c = p := by
  induction fuel with
  | zero => intro c p _ h1 h2; omega
  | succ fuel ih =>
    intro c p hp h1 h2 hmin
    unfold nextprime_loop
    by_cases hc : c.Prime
    · rw [if_pos hc]
      by_contra hne
      exact hmin c le_rfl (by omega) hc
    · rw [if_neg hc]
      have hcp : c ≠ p := fun h => hc (h ▸ hp)
      exact ih (c + 1) p hp (by omega) (by omega) (fun m hm hlt => hmin m (by omega) hlt)

/-- The modelled `mpz_nextprime` returns the least prime above its argument. -/
theorem mpz_nextprime_eq {n p : Nat} (hp : p.Prime) (hlt : n < p)
    (hmin : ∀ m, n < m → m < p → ¬ m.Prime) : mpz_nextprime n = p := by
  unfold mpz_nextprime
  apply nextprime_loop_spec _ _ _ hp (by omega) _ (fun m hm => hmin m (by omega))
  rcases Nat.eq_zero_or_pos n with h0 | hpos
  · subst h0
    have : p ≤ 2 := by
      by_contra hgt
      exact hmin 2 (by omega) (by omega) Nat.prime_two
    omega
  · obtain ⟨r, hr, h1, h2⟩ := Nat.exists_prime_lt_and_le_two_mul n (by omega)
    have : p ≤ r := by
      by_contra hgt
      exact hmin r h1 (by omega) hr
    omega

/-- The modelled `mpz_nextprime` always returns a prime above its argument, and no prime
lies in between. -/
theorem mpz_nextprime_spec (n : Nat) :
    (mpz_nextprime n).Prime ∧ n < mpz_nextprime n ∧
      ∀ m, n < m → m < mpz_nextprime n → ¬ m.Prime := by
  have hex : ∃ p, p.Prime ∧ n < p := by
    obtain ⟨p, h1, h2⟩ := Nat.exists_infinite_primes (n + 1)
    exact ⟨p, h2, by omega⟩
  classical
  have hfind := Nat.find_spec hex
  have hmin : ∀ m, n < m → m < Nat.find hex → ¬ m.Prime := by
    intro m hm hlt hpm
    exact Nat.find_min hex hlt ⟨hpm, hm⟩
  rw [mpz_nextprime_eq hfind.1 hfind.2 hmin]
  exact ⟨hfind.1, hfind.2, hmin⟩

theorem cert_p_prime : cert_p.Prime :=
  lucas_two_factor 2098279 490 3 (by norm_num) (by decide!) (by decide!) (by decide!)

theorem cert_q_prime : cert_q.Prime :=
  lucas_two_factor 2098363 490 3 (by norm_num) (by decide!) (by decide!) (by decide!)

/-- For a prime `p > 3`, `mpz_nextprime(p - 2)` is `p` (the number in between is even). -/
theorem mpz_nextprime_sub_two {p : Nat} (hp : p.Prime) (h3 : 3 < p) :
    mpz_nextprime (p - 2) = p := by
  apply mpz_nextprime_eq hp (by omega)
  intro m h1 h2 hm
  have hmp : m = p - 1 := by omega
  have hodd : p % 2 = 1 := by
    rcases hp.eq_two_or_odd with h | h
    · omega
    · exact h
  have h2m : 2 ∣ m := by omega
  have := (Nat.prime_dvd_prime_iff_eq Nat.prime_two hm).mp h2m
  omega

theorem draw_prime_cert_p : draw_prime cert_state = (cert_p, rand_advance cert_state) := by
  unfold draw_prime
  have h : mpz_setbit (mpz_setbit (mpz_urandomb cert_state Rsa512.PRIME_BITS).1 (Rsa512.PRIME_BITS - 1)) 0
      = cert_p - 2 := by decide!
  simp only [h]
  rw [mpz_nextprime_sub_two cert_p_prime (by decide!)]
  rfl

theorem draw_prime_cert_q :
    draw_prime (rand_advance cert_state) = (cert_q, rand_advance (rand_advance cert_state)) := by
  unfold draw_prime
  have h : mpz_setbit (mpz_setbit (mpz_urandomb (rand_advance cert_state) Rsa512.PRIME_BITS).1
      (Rsa512.PRIME_BITS - 1)) 0 = cert_q - 2 := by decide!
  simp only [h]
  rw [mpz_nextprime_sub_two cert_q_prime (by decide!)]
  rfl

/-! ## rsa512.c: key derivation and the CRT round trip -/

theorem prime_65537 : Nat.Prime 65537 := by norm_num

/-- The loop guard makes `e` coprime to `phi`. -/
theorem guard_coprime {p q : Nat} (hp : ¬ 65537 ∣ p - 1) (hq : ¬ 65537 ∣ q - 1) :
    Nat.gcd 65537 ((p - 1) * (q - 1)) = 1 :=
  Nat.Coprime.mul_right ((Nat.Prime.coprime_iff_not_dvd prime_65537).mpr hp)
    ((Nat.Prime.coprime_iff_not_dvd prime_65537).mpr hq)

/-- An inverse of `e` modulo `(p - 1) * (q - 1)` is an inverse modulo `p - 1`, also after
reducing `d` modulo `p - 1`. -/
theorem exponent_mod_factor (e d a b : Nat) (ha : 2 ≤ a)
    (hed : e * d % (a * b) = 1 % (a * b)) :
    e * d % a = 1 ∧ e * (d % a) % a = 1 ∧ 0 < d % a := by
  have h1 : e * d ≡ 1 [MOD a] := Nat.ModEq.of_mul_right b hed
  have h2 : e * (d % a) ≡ e * d [MOD a] := Nat.ModEq.mul_left e (Nat.mod_modEq d a)
  have one : 1 % a = 1 := Nat.mod_eq_of_lt (by omega)
  have r1 : e * d % a = 1 := by rw [h1, one]
  have r2 : e * (d % a) % a = 1 := by rw [h2.trans h1, one]
  refine ⟨r1, r2, ?_⟩
  rcases Nat.eq_zero_or_pos (d % a) with h0 | hpos
  · rw [h0, Nat.mul_zero, Nat.zero_mod] at r2
    omega
  · exact hpos

/-- Residue of the decrypted value modulo one prime factor: `(m ^ e mod n) ^ dP` is `m`
modulo `p`. -/
theorem decrypt_residue {p n e dP : Nat} (hp : p.Prime) (hpn : p ∣ n)
    (hed : e * dP % (p - 1) = 1) (m : Nat) :
    (m ^ e % n) ^ dP % p = m % p := by
  have hsplit : e * dP = 1 + (p - 1) * (e * dP / (p - 1)) := by
    have := Nat.div_add_mod (e * dP) (p - 1)
    omega
  rw [Nat.pow_mod, Nat.mod_mod_of_dvd _ hpn, ← Nat.pow_mod, ← pow_mul, hsplit,
    pow_fermat_mod hp m 1 _ Nat.one_pos, pow_one]

/-- Residue of the direct decryption modulo one prime factor: `c ^ (d mod (p-1))` agrees
with `c ^ d mod n` modulo `p`. -/
theorem direct_residue {p n d : Nat} (hp : p.Prime) (hpn : p ∣ n) (hpos : 0 < d % (p - 1))
    (c : Nat) : c ^ (d % (p - 1)) % p = c ^ d % n % p := by
  have hsplit : d = d % (p - 1) + (p - 1) * (d / (p - 1)) := by
    have := Nat.div_add_mod d (p - 1)
    omega
  rw [Nat.mod_mod_of_dvd _ hpn]
  conv_rhs => rw [hsplit]
  rw [pow_fermat_mod hp c _ _ hpos]

theorem odd_prime_sub_one {p : Nat} (hp : p.Prime) (h2 : p % 2 = 1) : 2 ≤ p - 1 := by
  have := hp.two_le
  have : p ≠ 2 := by
    intro h
    rw [h] at h2
    omega
  omega

/-- C1: for distinct odd primes `p`, `q` whose predecessors are not divisible by 65537 and
every message `0 <= m < p * q` (also one divisible by `p` or `q`), the run of `main`
derives `d`, `dP`, `dQ`, `qInv` without an error exit, encrypts to `c = m ^ 65537 mod n`,
and the CRT recombination `rec = h * q + m2` of `c` gives back `m`. -/
theorem rsa_crt_round_trip (p q m : Nat) (hp : p.Prime) (hq : q.Prime) (hpq : p ≠ q)
    (hp2 : p % 2 = 1) (hq2 : q % 2 = 1) (hpe : ¬ 65537 ∣ p - 1) (hqe : ¬ 65537 ∣ q - 1)
    (hm : m < p * q) :
    ∃ r, rsa_example p q m = Except.ok r ∧ r.n = p * q ∧ r.phi = (p - 1) * (q - 1) ∧
      mpz_invert 65537 r.phi = some r.d ∧ r.dP = r.d % (p - 1) ∧ r.dQ = r.d % (q - 1) ∧
      mpz_invert q p = some r.qInv ∧ r.encrypted = m ^ 65537 % (p * q) ∧
      r.rec_msg = crt_decrypt r.encrypted p q r.dP r.dQ r.qInv ∧
      r.rec_msg = (m : Int) := by
  have hp1 := odd_prime_sub_one hp hp2
  have hq1 := odd_prime_sub_one hq hq2
  have hphi : (p - 1) * (q - 1) ≠ 0 := Nat.mul_ne_zero (by omega) (by omega)
  obtain ⟨d, hd⟩ := mpz_invert_isSome hphi (guard_coprime hpe hqe)
  obtain ⟨qInv, hqi⟩ := @mpz_invert_isSome q p hp.ne_zero
    ((Nat.coprime_primes hq hp).mpr (Ne.symm hpq))
  obtain ⟨-, hdmod, -⟩ := mpz_invert_some hd
  obtain ⟨-, hqmod, -⟩ := mpz_invert_some hqi
  have ep := exponent_mod_factor _ d (p - 1) (q - 1) hp1 hdmod
  have eq := exponent_mod_factor _ d (q - 1) (p - 1) hq1
    (by rw [Nat.mul_comm (q - 1) (p - 1)]; exact hdmod)
  refine ⟨RsaExample.mk (p * q) ((p - 1) * (q - 1)) d (mpz_powm m RSA_E (p * q))
    (d % (p - 1)) (d % (q - 1)) qInv
    (crt_decrypt (mpz_powm m RSA_E (p * q)) p q (d % (p - 1)) (d % (q - 1)) qInv),
    ?_, rfl, rfl, hd, rfl, rfl, hqi, ?_, rfl, ?_⟩
  · unfold rsa_example
    simp only [RSA_E, hd, hqi]
  · show mpz_powm m RSA_E (p * q) = _
    rw [mpz_powm_eq]
    rfl
  · show crt_decrypt _ p q _ _ qInv = _
    unfold crt_decrypt
    simp only [mpz_powm_eq, RSA_E]
    rw [decrypt_residue hp (Dvd.intro _ rfl) ep.2.1 m,
      decrypt_residue hq (Dvd.intro_left _ rfl) eq.2.1 m]
    exact crt_combine hp hq hpq hqmod m hm

/-- C2: for a derived key (distinct odd primes, `d` and `qInv` returned by `mpz_invert`) and
every ciphertext `c` (in particular every `0 <= c < n`), the CRT recombination
`m2 + h * q` equals the direct decryption `c ^ d mod n`. -/
theorem crt_decrypt_eq_direct (p q d qInv c : Nat) (hp : p.Prime) (hq : q.Prime)
    (hpq : p ≠ q) (hp2 : p % 2 = 1) (hq2 : q % 2 = 1)
    (hd : mpz_invert RSA_E ((p - 1) * (q - 1)) = some d)
    (hqi : mpz_invert q p = some qInv) :
    crt_decrypt c p q (d % (p - 1)) (d % (q - 1)) qInv
      = ((mpz_powm c d (p * q) : Nat) : Int) ∧ mpz_powm c d (p * q) = c ^ d % (p * q) := by
  have hp1 := odd_prime_sub_one hp hp2
  have hq1 := odd_prime_sub_one hq hq2
  obtain ⟨-, hdmod, -⟩ := mpz_invert_some hd
  obtain ⟨-, hqmod, -⟩ := mpz_invert_some hqi
  have ep := exponent_mod_factor _ d (p - 1) (q - 1) hp1 hdmod
  have eq := exponent_mod_factor _ d (q - 1) (p - 1) hq1
    (by rw [Nat.mul_comm (q - 1) (p - 1)]; exact hdmod)
  refine ⟨?_, mpz_powm_eq _ _ _⟩
  unfold crt_decrypt
  simp only [mpz_powm_eq]
  rw [direct_residue hp (Dvd.intro _ rfl) ep.2.2 c,
    direct_residue hq (Dvd.intro_left _ rfl) eq.2.2 c]
  exact crt_combine hp hq hpq hqmod _ (Nat.mod_lt _ (Nat.mul_pos hp.pos hq.pos))

/-- C3: whenever `mpz_invert(d, e, phi)` does not take its failure branch, for primes
`p, q > 2`, the private exponent satisfies `0 < d < phi` and `e * d mod phi = 1`, with
`e = 65537` and `phi = (p - 1) * (q - 1)`. -/
theorem private_exponent_spec (p q d : Nat) (hp : 2 < p) (hq : 2 < q)
    (hd : mpz_invert RSA_E ((p - 1) * (q - 1)) = some d) :
    0 < d ∧ d < (p - 1) * (q - 1) ∧ RSA_E * d % ((p - 1) * (q - 1)) = 1 := by
  obtain ⟨hlt, hmod, -⟩ := mpz_invert_some hd
  have hphi : 1 < (p - 1) * (q - 1) := by
    have h1 : 2 ≤ p - 1 := by omega
    have h2 : 2 ≤ q - 1 := by omega
    nlinarith
  rw [Nat.mod_eq_of_lt hphi] at hmod
  refine ⟨?_, hlt, hmod⟩
  rcases Nat.eq_zero_or_pos d with h0 | hpos
  · rw [h0, Nat.mul_zero, Nat.zero_mod] at hmod
    omega
  · exact hpos

theorem generate_p_guard (fuel : Nat) : ∀ (st st1 : gmp_randstate_t) (p : Nat),
    generate_p fuel st = Run.done (p, st1) → mpz_divisible_ui_p (p - 1) RSA_E = false := by
  induction fuel with
  | zero => intro st st1 p h; simp [generate_p] at h
  | succ fuel ih =>
    intro st st1 p h
    unfold generate_p at h
    simp only at h
    by_cases hg : mpz_divisible_ui_p ((draw_prime st).1 - 1) RSA_E = true
    · rw [if_pos hg] at h
      exact ih _ _ _ h
    · rw [if_neg hg] at h
      injection h with h
      rw [h] at hg
      simpa using hg

theorem generate_q_guard (p fuel : Nat) : ∀ (st st1 : gmp_randstate_t) (q : Nat),
    generate_q p fuel st = Run.done (q, st1) →
    (p == q || mpz_divisible_ui_p (q - 1) RSA_E) = false := by
  induction fuel with
  | zero => intro st st1 q h; simp [generate_q] at h
  | succ fuel ih =>
    intro st st1 q h
    unfold generate_q at h
    simp only at h
    by_cases hg : (p == (draw_prime st).1 || mpz_divisible_ui_p ((draw_prime st).1 - 1) RSA_E)
        = true
    · rw [if_pos hg] at h
      exact ih _ _ _ h
    · rw [if_neg hg] at h
      injection h with h
      rw [h] at hg
      simpa using hg

/-- C4: when the two generation loops exit with `p` and `q`, neither `p - 1` nor `q - 1` is
divisible by 65537, so `gcd(65537, (p-1)*(q-1)) = 1`, `mpz_invert(d, e, phi)` succeeds and
the trial does not take the `mpz_invert failed` branch. -/
theorem guard_gives_inverse (fuel : Nat) (st st1 st2 : gmp_randstate_t) (p q : Nat)
    (hgp : generate_p fuel st = Run.done (p, st1))
    (hgq : generate_q p fuel st1 = Run.done (q, st2)) :
    (p - 1) % 65537 ≠ 0 ∧ (q - 1) % 65537 ≠ 0 ∧
      Nat.gcd 65537 ((p - 1) * (q - 1)) = 1 ∧
      (∃ d, mpz_invert RSA_E ((p - 1) * (q - 1)) = some d) ∧
      rsa_trial fuel st = Run.done (true, st2) := by
  have h1 := generate_p_guard fuel st st1 p hgp
  have h2 := generate_q_guard p fuel st1 st2 q hgq
  have hp : (p - 1) % 65537 ≠ 0 := by
    simpa [mpz_divisible_ui_p, RSA_E] using h1
  have hq : (q - 1) % 65537 ≠ 0 := by
    have := (Bool.or_eq_false_iff.mp h2).2
    simpa [mpz_divisible_ui_p, RSA_E] using this
  have hcop := @guard_coprime p q
    (fun h => hp (Nat.mod_eq_zero_of_dvd h)) (fun h => hq (Nat.mod_eq_zero_of_dvd h))
  have hphi : (p - 1) * (q - 1) ≠ 0 := by
    apply Nat.mul_ne_zero
    · intro h; rw [h] at hp; exact hp rfl
    · intro h; rw [h] at hq; exact hq rfl
  obtain ⟨d, hd⟩ := mpz_invert_isSome hphi hcop
  refine ⟨hp, hq, hcop, ⟨d, hd⟩, ?_⟩
  unfold rsa_trial
  simp only [hgp, hgq]
  have hd2 : mpz_invert RSA_E ((p - 1) * (q - 1)) = some d := hd
  rw [hd2]
  rfl

/-- Witness for C1 at the 512-bit primes `cert_p`, `cert_q` and a 1023-bit message. -/
theorem rsa_crt_round_trip_witness :
    ∃ r, rsa_example cert_p cert_q (2 ^ 1022 + 12345) = Except.ok r ∧
      r.n = cert_p * cert_q ∧ r.phi = (cert_p - 1) * (cert_q - 1) ∧
      mpz_invert 65537 r.phi = some r.d ∧ r.dP = r.d % (cert_p - 1) ∧
      r.dQ = r.d % (cert_q - 1) ∧ mpz_invert cert_q cert_p = some r.qInv ∧
      r.encrypted = (2 ^ 1022 + 12345) ^ 65537 % (cert_p * cert_q) ∧
      r.rec_msg = crt_decrypt r.encrypted cert_p cert_q r.dP r.dQ r.qInv ∧
      r.rec_msg = ((2 ^ 1022 + 12345 : Nat) : Int) :=
  rsa_crt_round_trip cert_p cert_q (2 ^ 1022 + 12345) cert_p_prime cert_q_prime
    (by decide!) (by decide!) (by decide!) (by decide!) (by decide!) (by decide!)

/-- Witness for C2 at the key derived from `cert_p`, `cert_q` and the ciphertext 42. -/
theorem crt_decrypt_eq_direct_witness :
    mpz_invert RSA_E ((cert_p - 1) * (cert_q - 1)) = some cert_d ∧
      mpz_invert cert_q cert_p = some cert_qInv ∧
      crt_decrypt 42 cert_p cert_q (cert_d % (cert_p - 1)) (cert_d % (cert_q - 1)) cert_qInv
        = ((mpz_powm 42 cert_d (cert_p * cert_q) : Nat) : Int) ∧
      mpz_powm 42 cert_d (cert_p * cert_q) = 42 ^ cert_d % (cert_p * cert_q) :=
  ⟨by decide!, by decide!,
    crt_decrypt_eq_direct cert_p cert_q cert_d cert_qInv 42 cert_p_prime cert_q_prime
      (by decide!) (by decide!) (by decide!) (by decide!) (by decide!)⟩

/-- Witness for C3 at the key derived from `cert_p` and `cert_q`. -/
theorem private_exponent_spec_witness :
    mpz_invert RSA_E ((cert_p - 1) * (cert_q - 1)) = some cert_d ∧
      0 < cert_d ∧ cert_d < (cert_p - 1) * (cert_q - 1) ∧
      RSA_E * cert_d % ((cert_p - 1) * (cert_q - 1)) = 1 :=
  ⟨by decide!,
    private_exponent_spec cert_p cert_q cert_d (by decide!) (by decide!) (by decide!)⟩

theorem generate_p_exit (fuel : Nat) (st : gmp_randstate_t)
    (h : mpz_divisible_ui_p ((draw_prime st).1 - 1) RSA_E = false) :
    generate_p (fuel + 1) st = Run.done (draw_prime st) := by
  unfold generate_p
  simp only [h]
  rfl

theorem generate_q_exit (p fuel : Nat) (st : gmp_randstate_t)
    (h : (p == (draw_prime st).1 || mpz_divisible_ui_p ((draw_prime st).1 - 1) RSA_E) = false) :
    generate_q p (fuel + 1) st = Run.done (draw_prime st) := by
  unfold generate_q
  simp only [h]
  rfl

theorem generate_p_cert :
    generate_p 1 cert_state = Run.done (cert_p, rand_advance cert_state) := by
  rw [generate_p_exit 0 cert_state (by rw [draw_prime_cert_p]; decide!), draw_prime_cert_p]

theorem generate_q_cert : generate_q cert_p 1 (rand_advance cert_state)
    = Run.done (cert_q, rand_advance (rand_advance cert_state)) := by
  rw [generate_q_exit cert_p 0 _ (by rw [draw_prime_cert_q]; decide!), draw_prime_cert_q]

/-- Witness for C4: the loops run on `cert_state` exit with `cert_p` and `cert_q`. -/
theorem guard_gives_inverse_witness :
    generate_p 1 cert_state = Run.done (cert_p, rand_advance cert_state) ∧
      generate_q cert_p 1 (rand_advance cert_state)
        = Run.done (cert_q, rand_advance (rand_advance cert_state)) ∧
      (cert_p - 1) % 65537 ≠ 0 ∧ (cert_q - 1) % 65537 ≠ 0 ∧
      Nat.gcd 65537 ((cert_p - 1) * (cert_q - 1)) = 1 ∧
      (∃ d, mpz_invert RSA_E ((cert_p - 1) * (cert_q - 1)) = some d) ∧
      rsa_trial 1 cert_state = Run.done (true, rand_advance (rand_advance cert_state)) :=
  ⟨generate_p_cert, generate_q_cert,
    guard_gives_inverse 1 cert_state (rand_advance cert_state)
      (rand_advance (rand_advance cert_state)) cert_p cert_q generate_p_cert generate_q_cert⟩

/-! ## The Jacobi symbol computed by `mpz_jacobi` -/

theorem jacobi_loop_eq (fuel : Nat) : ∀ (a n : Nat) (s : Int), n % 2 = 1 →
    2 * a + n < fuel → jacobi_loop fuel a n s = s * jacobiSym (a : Int) n := by
  induction fuel with
  | zero => intro a n s _ h; omega
  | succ fuel ih =>
    intro a n s hn hfuel
    unfold jacobi_loop
    by_cases ha0 : a = 0
    · subst ha0
      rw [if_pos rfl]
      by_cases hn1 : n = 1
      · subst hn1
        simp [jacobiSym.one_right]
      · rw [if_neg hn1]
        have : 1 < n := by omega
        simp [jacobiSym.zero_left this]
    · rw [if_neg ha0]
      by_cases ha2 : a % 2 = 0
      · rw [if_pos ha2, ih (a / 2) n _ hn (by omega)]
        have key := @jacobiSym.even_odd (a : Int) n (by exact_mod_cast ha2) hn
        have hcast : ((a / 2 : Nat) : Int) = (a : Int) / 2 := by push_cast; rfl
        rw [hcast, ← key]
        split <;> ring
      · rw [if_neg ha2]
        have ha1 : a % 2 = 1 := by omega
        have hlt : n % a < a := Nat.mod_lt n (Nat.pos_of_ne_zero ha0)
        have hle : n % a ≤ n := Nat.mod_le n a
        rw [ih (n % a) a _ ha1 (by omega)]
        have key := @jacobiSym.quadratic_reciprocity_if a n ha1 hn
        have hmod : jacobiSym ((n % a : Nat) : Int) a = jacobiSym (n : Int) a := by
          have : ((n % a : Nat) : Int) = (n : Int) % (a : Int) := by push_cast; rfl
          rw [this, ← jacobiSym.mod_left]
        rw [hmod, ← key]
        split <;> ring

/-- The executable `mpz_jacobi` is the Jacobi symbol for odd `n`. -/
theorem mpz_jacobi_eq (a n : Nat) (hn : n % 2 = 1) : mpz_jacobi a n = jacobiSym (a : Int) n := by
  unfold mpz_jacobi
  rw [jacobi_loop_eq _ a n 1 hn (by omega), one_mul]

/-! ## Residues modulo a prime -/

theorem natCast_eq_one_iff {n x : Nat} (hn : 1 < n) (hx : x < n) :
    (x : ZMod n) = 1 ↔ x = 1 := by
  have h : (x : ZMod n) = 1 ↔ (x : ZMod n) = ((1 : Nat) : ZMod n) := by
    rw [Nat.cast_one]
  rw [h, ZMod.natCast_eq_natCast_iff', Nat.mod_eq_of_lt hx, Nat.mod_eq_of_lt hn]

theorem natCast_eq_neg_one_iff {n x : Nat} (hn : 1 < n) (hx : x < n) :
    (x : ZMod n) = -1 ↔ x = n - 1 := by
  have h : (-1 : ZMod n) = ((n - 1 : Nat) : ZMod n) := by
    rw [Nat.cast_sub (by omega), ZMod.natCast_self, Nat.cast_one, zero_sub]
  rw [h, ZMod.natCast_eq_natCast_iff', Nat.mod_eq_of_lt hx, Nat.mod_eq_of_lt (by omega)]

/-- Modulo a prime, a residue whose square is 1 is 1 or `n - 1`. -/
theorem sq_mod_prime_eq_one {n x : Nat} (hp : n.Prime) (hx : x < n) (h : x * x % n = 1) :
    x = 1 ∨ x = n - 1 := by
  haveI : Fact n.Prime := ⟨hp⟩
  have hn : 1 < n := hp.one_lt
  have h1 : ((x * x % n : Nat) : ZMod n) = 1 := by rw [h, Nat.cast_one]
  rw [ZMod.natCast_mod, Nat.cast_mul] at h1
  rcases mul_self_eq_one_iff.mp h1 with h2 | h2
  · exact Or.inl ((natCast_eq_one_iff hn hx).mp h2)
  · exact Or.inr ((natCast_eq_neg_one_iff hn hx).mp h2)

/-- Fermat: `a ^ (n - 1) mod n = 1` for a prime `n` and `0 < a < n`. -/
theorem fermat_mod {n a : Nat} (hp : n.Prime) (h0 : 0 < a) (hlt : a < n) :
    a ^ (n - 1) % n = 1 := by
  haveI : Fact n.Prime := ⟨hp⟩
  have hne : (a : ZMod n) ≠ 0 := by
    rw [Ne, ZMod.natCast_zmod_eq_zero_iff_dvd]
    intro hd
    exact absurd (Nat.le_of_dvd h0 hd) (by omega)
  have h1 : ((a ^ (n - 1) : Nat) : ZMod n) = ((1 : Nat) : ZMod n) := by
    rw [Nat.cast_pow, ZMod.pow_card_sub_one_eq_one hne, Nat.cast_one]
  rw [ZMod.natCast_eq_natCast_iff', Nat.mod_eq_of_lt hp.one_lt] at h1
  exact h1

/-! ## Miller-Rabin on primes -/

theorem odd_part_loop_spec (s : Nat) : ∀ (fuel o : Nat), o % 2 = 1 → s ≤ fuel →
    odd_part_loop fuel (o * 2 ^ s) = Run.done o := by
  induction s with
  | zero =>
    intro fuel o ho _
    rw [pow_zero, mul_one]
    cases fuel with
    | zero => simp [odd_part_loop, ho]
    | succ f => simp [odd_part_loop, ho]
  | succ s ih =>
    intro fuel o ho hs
    cases fuel with
    | zero => omega
    | succ f =>
      have heven : o * 2 ^ (s + 1) % 2 = 0 := by
        rw [pow_succ, ← mul_assoc]
        exact Nat.mul_mod_left _ _
      have hhalf : o * 2 ^ (s + 1) / 2 = o * 2 ^ s := by
        rw [pow_succ, ← mul_assoc]
        exact Nat.mul_div_cancel _ (by norm_num)
      unfold odd_part_loop
      rw [if_pos heven, hhalf]
      exact ih f o ho (by omega)

/-- The squaring loop on a prime modulus: started below a point where the power is 1 with
a value that is neither 1 nor `n - 1`, it returns 1. -/
theorem miller_loop_prime {n : Nat} (hp : n.Prime) (j : Nat) : ∀ (fuel x temp : Nat),
    j ≤ fuel → temp * 2 ^ j = n - 1 → x < n → x ≠ 1 → x ≠ n - 1 → x ^ 2 ^ j % n = 1 →
    miller_loop fuel x temp n = Run.done 1 := by
  induction j with
  | zero =>
    intro fuel x temp _ _ hx h1 _ hpow
    rw [pow_zero, pow_one, Nat.mod_eq_of_lt hx] at hpow
    exact absurd hpow h1
  | succ j ih =>
    intro fuel x temp hfuel htemp hx h1 hm1 hpow
    cases fuel with
    | zero => omega
    | succ f =>
      have hn := hp.two_le
      have htne : temp ≠ n - 1 := by
        intro h
        rw [h, pow_succ] at htemp
        have h2 : 1 ≤ 2 ^ j := Nat.one_le_two_pow
        have h3 : 2 ^ j * 2 = 1 :=
          Nat.eq_of_mul_eq_mul_left (by omega : 0 < n - 1) (by rw [htemp, mul_one])
        omega
      unfold miller_loop
      rw [if_neg htne]
      simp only
      have hsq : x * x % n ≠ 1 := by
        intro h
        rcases sq_mod_prime_eq_one hp hx h with h2 | h2
        · exact h1 h2
        · exact hm1 h2
      rw [if_neg hsq]
      by_cases hlast : x * x % n = n - 1
      · rw [if_pos hlast]
      · rw [if_neg hlast]
        apply ih f (x * x % n) (temp * 2) (by omega)
        · rw [← htemp, pow_succ]; ring
        · exact Nat.mod_lt _ (by omega)
        · exact hsq
        · exact hlast
        · rw [← Nat.pow_mod, ← pow_two, ← pow_mul, ← pow_succ']
          exact hpow

/-- One round on a prime `n >= 5` with `n - 1 = d * 2 ^ s` returns 1 for every draw. -/
theorem miller_round_prime {n : Nat} (hp : n.Prime) (h5 : 5 ≤ n) (d s fuel r : Nat)
    (hds : n - 1 = d * 2 ^ s) (hs : s ≤ fuel) (hr : r < n - 1) :
    miller_round fuel d n r = Run.done 1 := by
  unfold miller_round
  simp only
  by_cases hx : mpz_powm (miller_base r) d n = 1 ∨ mpz_powm (miller_base r) d n = n - 1
  · rw [if_pos hx]
  · rw [if_neg hx]
    rw [mpz_powm_eq] at hx ⊢
    have ha : 0 < miller_base r ∧ miller_base r < n := by
      unfold miller_base
      split <;> omega
    apply miller_loop_prime hp s fuel _ d hs hds.symm (Nat.mod_lt _ (by omega))
    · exact fun h => hx (Or.inl h)
    · exact fun h => hx (Or.inr h)
    · rw [← Nat.pow_mod, ← pow_mul, ← hds]
      exact fermat_mod hp ha.1 ha.2

theorem millerTest_prime {n : Nat} (hp : n.Prime) (h5 : 5 ≤ n) (d s fuel : Nat)
    (hds : n - 1 = d * 2 ^ s) (hs : s ≤ fuel) (st : gmp_randstate_t) :
    millerTest fuel d n st = Run.done (1, rand_advance st) := by
  unfold millerTest mpz_urandomm
  rw [if_neg (by omega)]
  simp only
  rw [miller_round_prime hp h5 d s fuel _ hds hs (Nat.mod_lt _ (by omega))]

theorem rand_skip_zero (st : gmp_randstate_t) : rand_skip 0 st = st := rfl

theorem rand_skip_succ (k : Nat) (st : gmp_randstate_t) :
    rand_skip k (rand_advance st) = rand_skip (k + 1) st := by
  funext i
  show st (i + k + 1) = st (i + (k + 1))
  rfl

theorem isPrime_rounds_prime {n : Nat} (hp : n.Prime) (h5 : 5 ≤ n) (d s fuel : Nat)
    (hds : n - 1 = d * 2 ^ s) (hs : s ≤ fuel) (k : Nat) : ∀ st : gmp_randstate_t,
    isPrime_rounds fuel d n k st = Run.done (1, rand_skip k st) := by
  induction k with
  | zero => intro st; rfl
  | succ k ih =>
    intro st
    unfold isPrime_rounds
    rw [millerTest_prime hp h5 d s fuel hds hs st]
    simp only
    rw [if_neg (by norm_num), ih, rand_skip_succ]

/-- Every positive number is an odd number times a power of two, and the exponent is
below any `fuel` with `n <= 2 ^ fuel`. -/
theorem odd_part_exists {m fuel : Nat} (hm : 0 < m) (hf : m < 2 ^ fuel) :
    ∃ o s, o % 2 = 1 ∧ m = o * 2 ^ s ∧ s ≤ fuel := by
  obtain ⟨s, o, ho, hmo⟩ := Nat.exists_eq_two_pow_mul_odd (Nat.pos_iff_ne_zero.mp hm)
  refine ⟨o, s, Nat.odd_iff.mp ho, by rw [hmo, mul_comm], ?_⟩
  have ho1 : 1 ≤ o := by
    rcases Nat.eq_zero_or_pos o with h | h
    · rw [h] at ho; exact absurd ho (by decide)
    · exact h
  have : 2 ^ s < 2 ^ fuel := by
    calc 2 ^ s ≤ 2 ^ s * o := Nat.le_mul_of_pos_right _ ho1
      _ = m := hmo.symm
      _ < 2 ^ fuel := hf
  exact le_of_lt ((Nat.pow_lt_pow_iff_right (by norm_num)).mp this)

theorem isPrime_prime {n : Nat} (hp : n.Prime) (fuel : Nat) (k : Int)
    (st : gmp_randstate_t) (hf : n ≤ 2 ^ fuel) :
    isPrime fuel (n : Int) k st
      = Run.done (1, if n ≤ 3 then st else rand_skip k.toNat st) := by
  unfold isPrime
  have h2 := hp.two_le
  rw [if_neg (by omega)]
  by_cases h3 : n ≤ 3
  · rw [if_pos (by exact_mod_cast h3), if_pos h3]
  · rw [if_neg (by exact_mod_cast h3), if_neg h3, Int.toNat_natCast]
    have h5 : 5 ≤ n := by
      rcases Nat.lt_or_ge n 5 with h | h
      · have : n = 4 := by omega
        rw [this] at hp
        exact absurd hp (by norm_num)
      · exact h
    obtain ⟨o, s, ho, hos, hs⟩ := @odd_part_exists (n - 1) fuel (by omega) (by omega)
    rw [hos, odd_part_loop_spec s fuel o ho hs]
    simp only
    exact isPrime_rounds_prime hp h5 o s fuel hos hs k.toNat st

/-- C5: Miller-Rabin never rejects a prime. For a prime `n`, `isPrime` returns 1 for every
round count and every generator state as soon as the fuel covers the bit length of `n`
(no draw for `n <= 3`, `k` draws otherwise); for a prime `n >= 5` and any `d`, `s` with
`n - 1 = d * 2 ^ s`, a single `millerTest` round returns 1 whatever is drawn. -/
theorem miller_rabin_accepts_primes (n : Nat) (hp : n.Prime) :
    (∀ (fuel : Nat) (k : Int) (st : gmp_randstate_t), n ≤ 2 ^ fuel →
      isPrime fuel (n : Int) k st
        = Run.done (1, if n ≤ 3 then st else rand_skip k.toNat st)) ∧
    (5 ≤ n → ∀ (d s fuel : Nat) (st : gmp_randstate_t), n - 1 = d * 2 ^ s → s ≤ fuel →
      millerTest fuel d n st = Run.done (1, rand_advance st)) :=
  ⟨fun fuel k st hf => isPrime_prime hp fuel k st hf,
    fun h5 d s fuel st hds hs => millerTest_prime hp h5 d s fuel hds hs st⟩

/-- Witness for C5 at the 512-bit prime `cert_p`, with 20 rounds. -/
theorem miller_rabin_accepts_primes_witness :
    isPrime 512 (cert_p : Int) 20 cert_state = Run.done (1, rand_skip 20 cert_state) ∧
      millerTest 490 2098279 cert_p cert_state = Run.done (1, rand_advance cert_state) := by
  have h := miller_rabin_accepts_primes cert_p cert_p_prime
  refine ⟨?_, h.2 (by decide!) 2098279 490 490 cert_state (by decide!) le_rfl⟩
  have h1 := h.1 512 20 cert_state (by decide!)
  rw [if_neg (by decide!)] at h1
  exact h1

/-- C7, the code at the failing inputs: `isPrime` has no evenness guard, and it returns 1
for `n = 4` when the draw is 1 (base 3 = n - 1) and for `n = 28` when the draw is 3
(`3 ^ 27 mod 28 = 27`), with one round. -/
theorem isPrime_accepts_even :
    isPrime 0 4 1 (fun _ => 1) = Run.done (1, rand_advance (fun _ => 1)) ∧
      isPrime 0 28 1 (fun _ => 3) = Run.done (1, rand_advance (fun _ => 3)) :=
  ⟨rfl, rfl⟩

/-- C9: the guard cases of both oracles, for every fuel, round count and generator state,
with the state returned unchanged (no draw): `isPrime` gives 0 for `n <= 1` and 1 for
`n = 2` and `n = 3`; `is_probable_prime_ss` gives 0 for `n <= 1`, 1 for `n = 2` and 0 for
every even `n > 2`. -/
theorem oracle_guard_cases :
    (∀ (fuel : Nat) (n k : Int) (st : gmp_randstate_t), n ≤ 1 →
      isPrime fuel n k st = Run.done (0, st)) ∧
    (∀ (fuel : Nat) (k : Int) (st : gmp_randstate_t),
      isPrime fuel 2 k st = Run.done (1, st) ∧ isPrime fuel 3 k st = Run.done (1, st)) ∧
    (∀ (n k : Int) (st : gmp_randstate_t), n ≤ 1 →
      is_probable_prime_ss n k st = Run.done (0, st)) ∧
    (∀ (k : Int) (st : gmp_randstate_t), is_probable_prime_ss 2 k st = Run.done (1, st)) ∧
    (∀ (n k : Int) (st : gmp_randstate_t), 2 < n → n % 2 = 0 →
      is_probable_prime_ss n k st = Run.done (0, st)) := by
  refine ⟨?_, ?_, ?_, ?_, ?_⟩
  · intro fuel n k st hn
    unfold isPrime
    rw [if_pos hn]
  · intro fuel k st
    exact ⟨rfl, rfl⟩
  · intro n k st hn
    unfold is_probable_prime_ss
    rw [if_pos (by omega)]
  · intro k st
    rfl
  · intro n k st h2 heven
    unfold is_probable_prime_ss
    rw [if_neg (by omega), if_neg (by omega), if_pos heven]

/-! ## Solovay-Strassen on primes -/

/-- Euler's criterion as the round body sees it: for a prime `n >= 5` and `2 <= a <= n - 2`
the gcd is 1, the Jacobi symbol is 1 or -1, and `a ^ ((n - 1) / 2) mod n` is its residue. -/
theorem euler_round {n a : Nat} (hp : n.Prime) (h5 : 5 ≤ n) (ha2 : 2 ≤ a) (han : a ≤ n - 2) :
    Nat.gcd a n = 1 ∧ (mpz_jacobi a n = 1 ∨ mpz_jacobi a n = -1) ∧
      mpz_powm a ((n - 1) / 2) n = (if mpz_jacobi a n = -1 then n - 1 else 1) := by
  haveI : Fact n.Prime := ⟨hp⟩
  have hn1 : 1 < n := hp.one_lt
  have hodd : n % 2 = 1 := by
    rcases hp.eq_two_or_odd with h | h
    · omega
    · exact h
  have hndvd : ¬ n ∣ a := fun hd => absurd (Nat.le_of_dvd (by omega) hd) (by omega)
  have hgcd : Nat.gcd a n = 1 :=
    Nat.Coprime.symm ((Nat.Prime.coprime_iff_not_dvd hp).mpr hndvd)
  have hne : (((a : Int) : ZMod n)) ≠ 0 := by
    rw [Int.cast_natCast, Ne, ZMod.natCast_zmod_eq_zero_iff_dvd]
    exact hndvd
  have hjac : mpz_jacobi a n = legendreSym n (a : Int) := by
    rw [mpz_jacobi_eq a n hodd, jacobiSym.legendreSym.to_jacobiSym]
  have hdich := legendreSym.eq_one_or_neg_one n hne
  have heuler := legendreSym.eq_pow n (a : Int)
  rw [Int.cast_natCast] at heuler
  have hhalf : (n - 1) / 2 = n / 2 := by omega
  have hlt : a ^ ((n - 1) / 2) % n < n := Nat.mod_lt _ (by omega)
  have hcast : ((a ^ ((n - 1) / 2) % n : Nat) : ZMod n) = (a : ZMod n) ^ (n / 2) := by
    rw [ZMod.natCast_mod, Nat.cast_pow, hhalf]
  refine ⟨hgcd, by rw [hjac]; exact hdich, ?_⟩
  rw [mpz_powm_eq, hjac]
  rcases hdich with h1 | h1
  · rw [h1, if_neg (by norm_num)]
    rw [h1, Int.cast_one] at heuler
    exact (natCast_eq_one_iff hn1 hlt).mp (by rw [hcast, ← heuler])
  · rw [h1, if_pos rfl]
    rw [h1, Int.cast_neg, Int.cast_one] at heuler
    exact (natCast_eq_neg_one_iff hn1 hlt).mp (by rw [hcast, ← heuler])

theorem ss_round_prime {n a : Nat} (hp : n.Prime) (h5 : 5 ≤ n) (ha2 : 2 ≤ a)
    (han : a ≤ n - 2) : ss_round n a = true := by
  obtain ⟨hg, hj, hpow⟩ := euler_round hp h5 ha2 han
  unfold ss_round
  rw [if_neg (by rw [hg]; exact fun h => h rfl)]
  simp only
  have hj0 : mpz_jacobi a n ≠ 0 := by
    rcases hj with h | h <;> rw [h] <;> norm_num
  rw [if_neg hj0, if_neg (by rw [hpow]; exact fun h => h rfl)]

theorem ss_rounds_prime {n : Nat} (hp : n.Prime) (h5 : 5 ≤ n) (k : Nat) :
    ∀ st : gmp_randstate_t, ss_rounds n k st = Run.done (1, rand_skip k st) := by
  induction k with
  | zero => intro st; rfl
  | succ k ih =>
    intro st
    unfold ss_rounds mpz_urandomm
    rw [if_neg (by omega)]
    simp only
    have hr : st 0 % (n - 3) < n - 3 := Nat.mod_lt _ (by omega)
    rw [ss_round_prime hp h5 (by unfold ss_base; omega) (by unfold ss_base; omega)]
    simp only [if_true]
    rw [ih, rand_skip_succ]

theorem ss_prime {n : Nat} (hp : n.Prime) (h5 : 5 ≤ n) (k : Int) (st : gmp_randstate_t) :
    is_probable_prime_ss (n : Int) k st = Run.done (1, rand_skip k.toNat st) := by
  have hodd : n % 2 = 1 := by
    rcases hp.eq_two_or_odd with h | h
    · omega
    · exact h
  unfold is_probable_prime_ss
  rw [if_neg (by omega), if_neg (by omega), if_neg (by omega), Int.toNat_natCast]
  exact ss_rounds_prime hp h5 k.toNat st

/-- C6: Solovay-Strassen never rejects a prime `n >= 5`. For every round count and every
generator state `is_probable_prime_ss` returns 1 after `k` draws; and for every draw `r`
the witness `a = r mod (n - 3) + 2` lies in `[2, n - 2]`, has `gcd(a, n) = 1`, a Jacobi
symbol (as computed by `mpz_jacobi`, which is the mathematical Jacobi symbol) equal to 1
or -1, and `a ^ ((n - 1) / 2) mod n` equal to the residue of that symbol modulo `n`. -/
theorem solovay_strassen_accepts_primes (n : Nat) (hp : n.Prime) (h5 : 5 ≤ n) :
    (∀ (k : Int) (st : gmp_randstate_t),
      is_probable_prime_ss (n : Int) k st = Run.done (1, rand_skip k.toNat st)) ∧
    (∀ r : Nat,
      2 ≤ ss_base (r % (n - 3)) ∧ ss_base (r % (n - 3)) ≤ n - 2 ∧
      Nat.gcd (ss_base (r % (n - 3))) n = 1 ∧
      mpz_jacobi (ss_base (r % (n - 3))) n = jacobiSym (ss_base (r % (n - 3)) : Nat) n ∧
      (mpz_jacobi (ss_base (r % (n - 3))) n = 1 ∨ mpz_jacobi (ss_base (r % (n - 3))) n = -1) ∧
      ((mpz_powm (ss_base (r % (n - 3))) ((n - 1) / 2) n : Nat) : Int)
        = mpz_jacobi (ss_base (r % (n - 3))) n % (n : Int) ∧
      ss_round n (ss_base (r % (n - 3))) = true) := by
  refine ⟨fun k st => ss_prime hp h5 k st, ?_⟩
  intro r
  have hr : r % (n - 3) < n - 3 := Nat.mod_lt _ (by omega)
  have ha2 : 2 ≤ ss_base (r % (n - 3)) := by unfold ss_base; omega
  have han : ss_base (r % (n - 3)) ≤ n - 2 := by unfold ss_base; omega
  have hodd : n % 2 = 1 := by
    rcases hp.eq_two_or_odd with h | h
    · omega
    · exact h
  obtain ⟨hg, hj, hpow⟩ := euler_round hp h5 ha2 han
  refine ⟨ha2, han, hg, mpz_jacobi_eq _ n hodd, hj, ?_, ss_round_prime hp h5 ha2 han⟩
  rw [hpow]
  rcases hj with h | h
  · rw [h, if_neg (by norm_num), Int.emod_eq_of_lt (by norm_num) (by omega)]
    norm_num
  · rw [h, if_pos rfl]
    have hn : ((n - 1 : Nat) : Int) = (n : Int) - 1 := by omega
    rw [hn]
    have : (-1 : Int) % (n : Int) = (n : Int) - 1 := by
      rw [show (-1 : Int) = ((n : Int) - 1) + (-1) * (n : Int) by ring,
        Int.add_mul_emod_self, Int.emod_eq_of_lt (by omega) (by omega)]
    rw [this]

/-- Witness for C6 at the 512-bit prime `cert_p`, with the 64 rounds of `SS_ROUNDS`. -/
theorem solovay_strassen_accepts_primes_witness :
    is_probable_prime_ss (cert_p : Int) SS_ROUNDS cert_state
        = Run.done (1, rand_skip 64 cert_state) ∧
      ss_round cert_p (ss_base (3 % (cert_p - 3))) = true :=
  ⟨(solovay_strassen_accepts_primes cert_p cert_p_prime (by decide!)).1 SS_ROUNDS cert_state,
    ((solovay_strassen_accepts_primes cert_p cert_p_prime (by decide!)).2 3).2.2.2.2.2.2⟩

/-- C8, the code at the failing input: for `n = 3` and every round count `k >= 1` the first
round calls `mpz_urandomm` with the bound `n - 3 = 0`, and the run ends in GMP's
division-by-zero trap instead of returning 1. -/
theorem ss_three_divides_by_zero (k : Nat) (st : gmp_randstate_t) :
    is_probable_prime_ss 3 ((k : Int) + 1) st = Run.divide_by_zero := by
  unfold is_probable_prime_ss
  rw [if_neg (by norm_num), if_neg (by norm_num), if_neg (by norm_num)]
  have hk : ((k : Int) + 1).toNat = k + 1 := by omega
  rw [hk]
  rfl

/-! ## Candidate generation -/

/-- Forcing bit `bits - 1` and bit 0 of a draw below `2 ^ bits` gives an odd number of
exactly `bits` bits. -/
theorem candidate_bits (bits r : Nat) (hb : 1 ≤ bits) :
    mpz_setbit (mpz_setbit (r % 2 ^ bits) (bits - 1)) 0 % 2 = 1 ∧
      2 ^ (bits - 1) ≤ mpz_setbit (mpz_setbit (r % 2 ^ bits) (bits - 1)) 0 ∧
      mpz_setbit (mpz_setbit (r % 2 ^ bits) (bits - 1)) 0 < 2 ^ bits := by
  unfold mpz_setbit
  refine ⟨?_, ?_, ?_⟩
  · rw [Nat.or_mod_two_eq_one]
    exact Or.inr (by norm_num)
  · apply Nat.testBit_implies_ge
    rw [Nat.testBit_or, Nat.testBit_or, Nat.testBit_two_pow_self]
    simp
  · have h1 : r % 2 ^ bits < 2 ^ bits := Nat.mod_lt _ (by positivity)
    have h2 : 2 ^ (bits - 1) < 2 ^ bits := Nat.pow_lt_pow_right (by norm_num) (by omega)
    have h3 : 2 ^ 0 < 2 ^ bits := Nat.pow_lt_pow_right (by norm_num) (by omega)
    exact Nat.or_lt_two_pow (Nat.or_lt_two_pow h1 h2) h3

theorem generate_prime_loop_candidate (inner bits fuel : Nat) :
    ∀ (st st1 : gmp_randstate_t) (p : Nat),
    generate_prime_loop inner bits fuel st = Run.done (p, st1) →
    ∃ r, p = mpz_setbit (mpz_setbit (r % 2 ^ bits) (bits - 1)) 0 := by
  induction fuel with
  | zero => intro st st1 p h; simp [generate_prime_loop] at h
  | succ fuel ih =>
    intro st st1 p h
    unfold generate_prime_loop at h
    simp only at h
    split at h
    · rename_i v st2 heq
      by_cases hv : v = 0
      · rw [if_pos hv] at h
        exact ih _ _ _ h
      · rw [if_neg hv] at h
        injection h with h
        injection h with h1 h2
        exact ⟨st 0, h1.symm⟩
    · exact absurd h (by simp)
    · exact absurd h (by simp)

theorem generate_prime_512_candidate (fuel : Nat) :
    ∀ (st st1 : gmp_randstate_t) (p : Nat),
    generate_prime_512 fuel st = Run.done (p, st1) →
    ∃ r, p = mpz_setbit (mpz_setbit (r % 2 ^ SolovayStrassen.PRIME_BITS)
      (SolovayStrassen.PRIME_BITS - 1)) 0 := by
  induction fuel with
  | zero => intro st st1 p h; simp [generate_prime_512] at h
  | succ fuel ih =>
    intro st st1 p h
    unfold generate_prime_512 at h
    simp only at h
    split at h
    · exact ih _ _ _ h
    · split at h
      · rename_i v st2 heq
        by_cases hv : v ≠ 0
        · rw [if_pos hv] at h
          injection h with h
          injection h with h1 h2
          exact ⟨st 0, h1.symm⟩
        · rw [if_neg hv] at h
          exact ih _ _ _ h
      · exact absurd h (by simp)
      · exact absurd h (by simp)

/-- C10: for every `bits >= 2` and every draw, the candidate obtained by setting bit
`bits - 1` and bit 0 of the draw (reduced below `2 ^ bits` by `mpz_urandomb`) is odd and
satisfies `2 ^ (bits - 1) <= c < 2 ^ bits`; hence every value that `generate_prime` (for
`bits >= 2`) or `generate_prime_512` returns is odd and of exactly `bits` (resp.
`PRIME_BITS = 512`) bits. -/
theorem candidate_exact_bit_length :
    (∀ bits r : Nat, 2 ≤ bits →
      mpz_setbit (mpz_setbit (mpz_urandomb (fun _ => r) bits).1 (bits - 1)) 0 % 2 = 1 ∧
      2 ^ (bits - 1) ≤ mpz_setbit (mpz_setbit (mpz_urandomb (fun _ => r) bits).1 (bits - 1)) 0 ∧
      mpz_setbit (mpz_setbit (mpz_urandomb (fun _ => r) bits).1 (bits - 1)) 0 < 2 ^ bits) ∧
    (∀ (fuel bits : Nat) (st st1 : gmp_randstate_t) (p : Nat), 2 ≤ bits →
      generate_prime fuel bits st = Run.done (p, st1) →
      p % 2 = 1 ∧ 2 ^ (bits - 1) ≤ p ∧ p < 2 ^ bits) ∧
    (∀ (fuel : Nat) (st st1 : gmp_randstate_t) (p : Nat),
      generate_prime_512 fuel st = Run.done (p, st1) →
      p % 2 = 1 ∧ 2 ^ (SolovayStrassen.PRIME_BITS - 1) ≤ p ∧
        p < 2 ^ SolovayStrassen.PRIME_BITS) := by
  refine ⟨?_, ?_, ?_⟩
  · intro bits r hb
    exact candidate_bits bits r (by omega)
  · intro fuel bits st st1 p hb h
    obtain ⟨r, hr⟩ := generate_prime_loop_candidate fuel bits fuel st st1 p h
    rw [hr]
    exact candidate_bits bits r (by omega)
  · intro fuel st st1 p h
    obtain ⟨r, hr⟩ := generate_prime_512_candidate fuel st st1 p h
    rw [hr]
    exact candidate_bits SolovayStrassen.PRIME_BITS r (by decide)

theorem generate_prime_cert :
    generate_prime 512 512 cert_state_ss = Run.done (cert_p, rand_skip 2 cert_state_ss) := by
  unfold generate_prime generate_prime_loop
  have hc : mpz_setbit (mpz_setbit (mpz_urandomb cert_state_ss 512).1 (512 - 1)) 0 = cert_p := by
    decide!
  simp only [hc]
  have hrun := isPrime_prime cert_p_prime 512 1 (mpz_urandomb cert_state_ss 512).2 (by decide!)
  rw [if_neg (by decide!)] at hrun
  rw [hrun]
  simp only
  rw [if_neg (by norm_num)]
  rfl

theorem generate_prime_512_cert :
    generate_prime_512 1 cert_state_ss = Run.done (cert_p, rand_skip 65 cert_state_ss) := by
  unfold generate_prime_512
  have hc : random_odd_candidate_512 cert_state_ss = (cert_p, rand_advance cert_state_ss) := by
    unfold random_odd_candidate_512
    have h : mpz_setbit (mpz_setbit (mpz_urandomb cert_state_ss SolovayStrassen.PRIME_BITS).1
        (SolovayStrassen.PRIME_BITS - 1)) 0 = cert_p := by decide!
    simp only [h]
    rfl
  simp only [hc]
  have hs : divisible_by_small_prime (cert_p : Int) = 0 := by decide!
  rw [if_neg (by rw [hs]; exact fun h => h rfl)]
  rw [ss_prime cert_p_prime (by decide!) SS_ROUNDS (rand_advance cert_state_ss)]
  simp only
  rw [if_pos (by norm_num)]
  rfl

/-- Witness for C10: the 512-bit candidate built from the draw `cert_p - 2`, and runs of
both generators that return the 512-bit prime `cert_p`. -/
theorem candidate_exact_bit_length_witness :
    generate_prime 512 512 cert_state_ss = Run.done (cert_p, rand_skip 2 cert_state_ss) ∧
      generate_prime_512 1 cert_state_ss = Run.done (cert_p, rand_skip 65 cert_state_ss) ∧
      (cert_p % 2 = 1 ∧ 2 ^ (512 - 1) ≤ cert_p ∧ cert_p < 2 ^ 512) ∧
      (cert_p % 2 = 1 ∧ 2 ^ (SolovayStrassen.PRIME_BITS - 1) ≤ cert_p ∧
        cert_p < 2 ^ SolovayStrassen.PRIME_BITS) :=
  ⟨generate_prime_cert, generate_prime_512_cert,
    candidate_exact_bit_length.2.1 512 512 cert_state_ss _ cert_p (by norm_num)
      generate_prime_cert,
    candidate_exact_bit_length.2.2 1 cert_state_ss _ cert_p generate_prime_512_cert⟩

/-! ## rsa512.c: the generated primes and the modulus -/

/-- C11, the code at the failing input: when the 512-bit draw is `2 ^ 512 - 1`, forcing bits
511 and 0 leaves it unchanged and `mpz_nextprime` moves past `2 ^ 512`, so the value that
the generation loop tests has 513 bits; the lower bound `2 ^ 511 < p` and the upper bound
`p < 2 ^ 513` are all that holds for every draw. -/
theorem draw_prime_exceeds_512_bits :
    2 ^ 512 ≤ (draw_prime (fun _ => 2 ^ 512 - 1)).1 ∧
      (∀ st : gmp_randstate_t, 2 ^ 511 < (draw_prime st).1 ∧ (draw_prime st).1 < 2 ^ 513) := by
  constructor
  · unfold draw_prime
    have h : mpz_setbit (mpz_setbit (mpz_urandomb (fun _ => 2 ^ 512 - 1) Rsa512.PRIME_BITS).1
        (Rsa512.PRIME_BITS - 1)) 0 = 2 ^ 512 - 1 := by decide!
    simp only [h]
    have := (mpz_nextprime_spec (2 ^ 512 - 1)).2.1
    omega
  · intro st
    unfold draw_prime
    simp only
    obtain ⟨-, h1, h2⟩ := candidate_bits Rsa512.PRIME_BITS (st 0) (by decide)
    have hc : mpz_setbit (mpz_setbit (mpz_urandomb st Rsa512.PRIME_BITS).1
        (Rsa512.PRIME_BITS - 1)) 0
        = mpz_setbit (mpz_setbit (st 0 % 2 ^ Rsa512.PRIME_BITS) (Rsa512.PRIME_BITS - 1)) 0 := rfl
    rw [hc]
    generalize mpz_setbit (mpz_setbit (st 0 % 2 ^ Rsa512.PRIME_BITS)
      (Rsa512.PRIME_BITS - 1)) 0 = c at h1 h2
    obtain ⟨hp, hlt, hmin⟩ := mpz_nextprime_spec c
    have hb1 : (2 : Nat) ^ (Rsa512.PRIME_BITS - 1) = 2 ^ 511 := by decide!
    have hb2 : (2 : Nat) ^ Rsa512.PRIME_BITS = 2 ^ 512 := by decide!
    rw [hb1] at h1
    rw [hb2] at h2
    refine ⟨by omega, ?_⟩
    obtain ⟨r, hr, hr1, hr2⟩ := Nat.exists_prime_lt_and_le_two_mul c (by omega)
    have hle : mpz_nextprime c ≤ r := by
      by_contra hgt
      exact hmin r hr1 (by omega) hr
    have h513 : (2 : Nat) ^ 513 = 2 * 2 ^ 512 := by rw [pow_succ]; ring
    omega

theorem draw_prime_is_prime (st : gmp_randstate_t) : (draw_prime st).1.Prime := by
  unfold draw_prime
  exact (mpz_nextprime_spec _).1

theorem generate_p_prime (fuel : Nat) : ∀ (st st1 : gmp_randstate_t) (p : Nat),
    generate_p fuel st = Run.done (p, st1) → p.Prime := by
  induction fuel with
  | zero => intro st st1 p h; simp [generate_p] at h
  | succ fuel ih =>
    intro st st1 p h
    unfold generate_p at h
    simp only at h
    by_cases hg : mpz_divisible_ui_p ((draw_prime st).1 - 1) RSA_E = true
    · rw [if_pos hg] at h
      exact ih _ _ _ h
    · rw [if_neg hg] at h
      injection h with h
      have := draw_prime_is_prime st
      rw [h] at this
      exact this

theorem generate_q_prime (p fuel : Nat) : ∀ (st st1 : gmp_randstate_t) (q : Nat),
    generate_q p fuel st = Run.done (q, st1) → q.Prime := by
  induction fuel with
  | zero => intro st st1 q h; simp [generate_q] at h
  | succ fuel ih =>
    intro st st1 q h
    unfold generate_q at h
    simp only at h
    by_cases hg : (p == (draw_prime st).1 || mpz_divisible_ui_p ((draw_prime st).1 - 1) RSA_E)
        = true
    · rw [if_pos hg] at h
      exact ih _ _ _ h
    · rw [if_neg hg] at h
      injection h with h
      have := draw_prime_is_prime st
      rw [h] at this
      exact this

/-- C12: when the generation loops exit with `p` and `q`, both are prime and `q` differs
from `p`; hence `mpz_invert(qInv, q, p)` succeeds with `0 < qInv < p` and
`q * qInv mod p = 1`, and `main` takes neither of its two `mpz_invert failed` exits. -/
theorem qInv_exists_for_generated_primes (fuel : Nat) (st st1 st2 : gmp_randstate_t)
    (p q : Nat) (hgp : generate_p fuel st = Run.done (p, st1))
    (hgq : generate_q p fuel st1 = Run.done (q, st2)) :
    p.Prime ∧ q.Prime ∧ q ≠ p ∧
      (∃ qInv, mpz_invert q p = some qInv ∧ 0 < qInv ∧ qInv < p ∧ q * qInv % p = 1) ∧
      (∀ msg : Nat, ∃ r, rsa_example p q msg = Except.ok r) := by
  have hp := generate_p_prime fuel st st1 p hgp
  have hq := generate_q_prime p fuel st1 st2 q hgq
  have hguard := generate_q_guard p fuel st1 st2 q hgq
  have hne : q ≠ p := by
    intro h
    have h1 := (Bool.or_eq_false_iff.mp hguard).1
    rw [h] at h1
    simp at h1
  obtain ⟨qInv, hqi⟩ := @mpz_invert_isSome q p hp.ne_zero
    ((Nat.coprime_primes hq hp).mpr hne)
  obtain ⟨hlt, hmod, -⟩ := mpz_invert_some hqi
  rw [Nat.mod_eq_of_lt hp.one_lt] at hmod
  have hpos : 0 < qInv := by
    rcases Nat.eq_zero_or_pos qInv with h0 | h0
    · rw [h0, Nat.mul_zero, Nat.zero_mod] at hmod
      omega
    · exact h0
  refine ⟨hp, hq, hne, ⟨qInv, hqi, hpos, hlt, hmod⟩, ?_⟩
  intro msg
  have h1 := generate_p_guard fuel st st1 p hgp
  have hpe : (p - 1) % 65537 ≠ 0 := by
    simpa [mpz_divisible_ui_p, RSA_E] using h1
  have hqe : (q - 1) % 65537 ≠ 0 := by
    have := (Bool.or_eq_false_iff.mp hguard).2
    simpa [mpz_divisible_ui_p, RSA_E] using this
  have hcop := @guard_coprime p q
    (fun h => hpe (Nat.mod_eq_zero_of_dvd h)) (fun h => hqe (Nat.mod_eq_zero_of_dvd h))
  have hphi : (p - 1) * (q - 1) ≠ 0 := by
    apply Nat.mul_ne_zero
    · intro h; rw [h] at hpe; exact hpe rfl
    · intro h; rw [h] at hqe; exact hqe rfl
  obtain ⟨d, hd⟩ := mpz_invert_isSome hphi hcop
  unfold rsa_example
  simp only [RSA_E, hd, hqi]
  exact ⟨_, rfl⟩

/-- Witness for C12: the loops run on `cert_state` exit with `cert_p` and `cert_q`. -/
theorem qInv_exists_for_generated_primes_witness :
    cert_p.Prime ∧ cert_q.Prime ∧ cert_q ≠ cert_p ∧
      (∃ qInv, mpz_invert cert_q cert_p = some qInv ∧ 0 < qInv ∧ qInv < cert_p ∧
        cert_q * qInv % cert_p = 1) ∧
      (∀ msg : Nat, ∃ r, rsa_example cert_p cert_q msg = Except.ok r) :=
  qInv_exists_for_generated_primes 1 cert_state (rand_advance cert_state)
    (rand_advance (rand_advance cert_state)) cert_p cert_q generate_p_cert generate_q_cert

/-- C13: for every `b >= 1` and all `p`, `q` with `2 ^ (b-1) <= p, q < 2 ^ b`, the modulus
`n = p * q` that `main` computes satisfies `2 ^ (2b-2) <= n < 2 ^ (2b)`, that is, its bit
length is `2b - 1` or `2b`. -/
theorem modulus_bit_length (b p q msg : Nat) (r : RsaExample) (hb : 1 ≤ b)
    (hp1 : 2 ^ (b - 1) ≤ p) (hp2 : p < 2 ^ b) (hq1 : 2 ^ (b - 1) ≤ q) (hq2 : q < 2 ^ b)
    (hr : rsa_example p q msg = Except.ok r) :
    r.n = p * q ∧ 2 ^ (2 * b - 2) ≤ r.n ∧ r.n < 2 ^ (2 * b) ∧
      (Nat.size r.n = 2 * b - 1 ∨ Nat.size r.n = 2 * b) := by
  have hn : r.n = p * q := by
    unfold rsa_example at hr
    simp only at hr
    split at hr
    · exact absurd hr (by simp)
    · split at hr
      · exact absurd hr (by simp)
      · injection hr with hr
        rw [← hr]
  have hlow : 2 ^ (2 * b - 2) ≤ p * q := by
    have : 2 * b - 2 = (b - 1) + (b - 1) := by omega
    rw [this, pow_add]
    exact Nat.mul_le_mul hp1 hq1
  have hhigh : p * q < 2 ^ (2 * b) := by
    have : 2 * b = b + b := by omega
    rw [this, pow_add]
    exact Nat.mul_lt_mul'' hp2 hq2
  rw [hn]
  refine ⟨rfl, hlow, hhigh, ?_⟩
  have h1 : Nat.size (p * q) ≤ 2 * b := Nat.size_le.mpr hhigh
  have h2 : 2 * b - 2 < Nat.size (p * q) := Nat.lt_size.mpr hlow
  omega

theorem rsa_example_cert :
    rsa_example cert_p cert_q 42 = Except.ok
      (RsaExample.mk (cert_p * cert_q) ((cert_p - 1) * (cert_q - 1)) cert_d
        (mpz_powm 42 RSA_E (cert_p * cert_q)) (cert_d % (cert_p - 1)) (cert_d % (cert_q - 1))
        cert_qInv
        (crt_decrypt (mpz_powm 42 RSA_E (cert_p * cert_q)) cert_p cert_q
          (cert_d % (cert_p - 1)) (cert_d % (cert_q - 1)) cert_qInv)) := by
  have hd : mpz_invert RSA_E ((cert_p - 1) * (cert_q - 1)) = some cert_d := by decide!
  have hqi : mpz_invert cert_q cert_p = some cert_qInv := by decide!
  unfold rsa_example
  simp only [hd, hqi]

/-- Witness for C13 with `b = 512` at the key derived from `cert_p` and `cert_q`. -/
theorem modulus_bit_length_witness :
    ∃ r, rsa_example cert_p cert_q 42 = Except.ok r ∧ r.n = cert_p * cert_q ∧
      2 ^ (2 * 512 - 2) ≤ r.n ∧ r.n < 2 ^ (2 * 512) ∧
      (Nat.size r.n = 2 * 512 - 1 ∨ Nat.size r.n = 2 * 512) :=
  ⟨_, rsa_example_cert,
    modulus_bit_length 512 cert_p cert_q 42 _ (by norm_num) (by decide!) (by decide!)
      (by decide!) (by decide!) rsa_example_cert⟩

/-! ## Miller-Rabin: the base and the round count -/

/-- C14: for `n >= 6` the base of a round always lies in `[2, n - 2]`, but the draws are not
spread evenly over that range: the base 2 comes from the two draws 0 and 2 (and 3 from 1
and 3), while the base 4 comes from the draw 4 alone. -/
theorem miller_base_not_uniform (n : Nat) (hn : 6 ≤ n) :
    (∀ r, r < n - 1 → 2 ≤ miller_base r ∧ miller_base r ≤ n - 2) ∧
      (Finset.range (n - 1)).filter (fun r => miller_base r = 2) = {0, 2} ∧
      (Finset.range (n - 1)).filter (fun r => miller_base r = 3) = {1, 3} ∧
      (Finset.range (n - 1)).filter (fun r => miller_base r = 4) = {4} := by
  refine ⟨?_, ?_, ?_, ?_⟩
  · intro r hr
    unfold miller_base
    split <;> omega
  · ext r
    simp only [Finset.mem_filter, Finset.mem_range, Finset.mem_insert, Finset.mem_singleton]
    unfold miller_base
    split <;> omega
  · ext r
    simp only [Finset.mem_filter, Finset.mem_range, Finset.mem_insert, Finset.mem_singleton]
    unfold miller_base
    split <;> omega
  · ext r
    simp only [Finset.mem_filter, Finset.mem_range, Finset.mem_singleton]
    unfold miller_base
    split <;> omega

/-- Witness for C14 at `n = 7`: of the six draws, two give the base 2 and one the base 4. -/
theorem miller_base_not_uniform_witness :
    ((Finset.range (7 - 1)).filter (fun r => miller_base r = 2)).card = 2 ∧
      ((Finset.range (7 - 1)).filter (fun r => miller_base r = 4)).card = 1 := by
  have h := miller_base_not_uniform 7 (by norm_num)
  rw [h.2.1, h.2.2.2]
  exact ⟨rfl, rfl⟩

/-- C15, the code at a failing input: `generate_prime` calls `isPrime` with one round. For
`bits = 5` and the draws 25, 7, 2, 2, ... it returns the composite 25 after the single
round with base 7, although the 20 rounds announced by its comment would have rejected 25
at the next draw (base 2). -/
theorem generate_prime_single_round :
    generate_prime 5 5 liar_state = Run.done (25, rand_skip 2 liar_state) ∧
      isPrime 5 25 1 (rand_advance liar_state) = Run.done (1, rand_skip 2 liar_state) ∧
      isPrime 5 25 20 (rand_advance liar_state) = Run.done (0, rand_skip 3 liar_state) :=
  ⟨rfl, rfl, rfl⟩

/-! ## The small-prime screen -/

theorem small_prime_loop_zero (n : Int) (l : List Nat)
    (h : ∀ p ∈ l, n % (p : Int) ≠ 0) : small_prime_loop n l = 0 := by
  induction l with
  | nil => rfl
  | cons p rest ih =>
    unfold small_prime_loop
    rw [if_neg (h p (List.mem_cons_self _ _))]
    exact ih (fun x hx => h x (List.mem_cons_of_mem _ hx))

theorem small_primes_range : ∀ p ∈ small_primes, 2 ≤ p ∧ p ≤ 113 := by decide

theorem screen_passes_prime {n : Nat} (hp : n.Prime) (h : 113 < n) :
    divisible_by_small_prime (n : Int) = 0 := by
  have hodd : n % 2 = 1 := by
    rcases hp.eq_two_or_odd with h2 | h2
    · omega
    · exact h2
  unfold divisible_by_small_prime
  rw [if_neg (by omega), if_neg (by omega), if_neg (by omega)]
  apply small_prime_loop_zero
  intro p hpm hmod
  obtain ⟨h2, h113⟩ := small_primes_range p hpm
  have hdvd : p ∣ n := by
    have : ((p : Int)) ∣ (n : Int) := Int.dvd_of_emod_eq_zero hmod
    exact_mod_cast this
  rcases (Nat.dvd_prime hp).mp hdvd with h1 | h1 <;> omega

/-- C18: for every prime `n > 113`, `divisible_by_small_prime(n)` returns 0; and when the
candidate drawn by `generate_prime_512` is prime, the screen lets it through, the oracle is
run with `SS_ROUNDS` rounds and the candidate is returned. -/
theorem screen_never_discards_prime :
    (∀ n : Nat, n.Prime → 113 < n → divisible_by_small_prime (n : Int) = 0) ∧
    (∀ (fuel : Nat) (st : gmp_randstate_t), (random_odd_candidate_512 st).1.Prime →
      generate_prime_512 (fuel + 1) st
        = Run.done ((random_odd_candidate_512 st).1, rand_skip 65 st)) := by
  refine ⟨fun n hp h => screen_passes_prime hp h, ?_⟩
  intro fuel st hp
  have hbits := candidate_bits SolovayStrassen.PRIME_BITS (st 0) (by decide)
  have hc : (random_odd_candidate_512 st).1
      = mpz_setbit (mpz_setbit (st 0 % 2 ^ SolovayStrassen.PRIME_BITS)
        (SolovayStrassen.PRIME_BITS - 1)) 0 := rfl
  have hst : (random_odd_candidate_512 st).2 = rand_advance st := rfl
  have hbig : 113 < (random_odd_candidate_512 st).1 := by
    rw [hc]
    have h128 : 128 ≤ 2 ^ (SolovayStrassen.PRIME_BITS - 1) := by decide!
    omega
  unfold generate_prime_512
  simp only
  rw [if_neg (by rw [screen_passes_prime hp hbig]; exact fun h => h rfl),
    ss_prime hp (by omega) SS_ROUNDS, hst]
  simp only
  rw [if_pos (by norm_num)]
  rfl

/-- Witness for C18 at the 512-bit prime `cert_p`. -/
theorem screen_never_discards_prime_witness :
    divisible_by_small_prime (cert_p : Int) = 0 ∧
      generate_prime_512 1 cert_state_ss = Run.done (cert_p, rand_skip 65 cert_state_ss) := by
  have hc : (random_odd_candidate_512 cert_state_ss).1 = cert_p := by decide!
  refine ⟨screen_never_discards_prime.1 cert_p cert_p_prime (by decide!), ?_⟩
  have h := screen_never_discards_prime.2 0 cert_state_ss (by rw [hc]; exact cert_p_prime)
  rw [hc] at h
  exact h

/-! ## ChaCha20: decryption undoes encryption -/

theorem keystream_bytes_length (ks : List Nat) : (keystream_bytes ks).length = 64 := by
  unfold keystream_bytes
  rw [List.length_map, List.length_range]

theorem keystream_bytes_lt (ks : List Nat) : ∀ b ∈ keystream_bytes ks, b < 256 := by
  intro b hb
  unfold keystream_bytes at hb
  obtain ⟨i, -, rfl⟩ := List.mem_map.mp hb
  exact Nat.mod_lt _ (by norm_num)

theorem xor_block_length (block ks : List Nat) :
    (xor_block block ks).length = min block.length ks.length := by
  unfold xor_block
  exact List.length_zipWith _ _ _

theorem xor_byte_twice {p k : Nat} (hp : p < 256) (hk : k < 256) :
    ((p ^^^ k) % 256 ^^^ k) % 256 = p := by
  have h1 : p ^^^ k < 2 ^ 8 := Nat.xor_lt_two_pow (by omega) (by omega)
  have h2 : (p ^^^ k) % 256 = p ^^^ k := Nat.mod_eq_of_lt (by omega)
  rw [h2, Nat.xor_assoc, Nat.xor_self, Nat.xor_zero, Nat.mod_eq_of_lt hp]

theorem xor_block_twice : ∀ (block ks : List Nat), block.length ≤ ks.length →
    (∀ b ∈ block, b < 256) → (∀ k ∈ ks, k < 256) →
    xor_block (xor_block block ks) ks = block := by
  intro block
  induction block with
  | nil => intro ks _ _ _; simp [xor_block]
  | cons p rest ih =>
    intro ks hlen hb hk
    cases ks with
    | nil => simp at hlen
    | cons k ks =>
      have hrest := ih ks (by simpa using hlen)
        (fun b hb1 => hb b (List.mem_cons_of_mem _ hb1))
        (fun x hx => hk x (List.mem_cons_of_mem _ hx))
      unfold xor_block at hrest ⊢
      simp only [List.zipWith_cons_cons]
      rw [hrest, xor_byte_twice (hb p (List.mem_cons_self _ _)) (hk k (List.mem_cons_self _ _))]

/-- One pass of the `while (len > 0)` loop, for a non-empty input. -/
theorem chacha20_encrypt_step (pt key nonce : List Nat) (counter : Nat) (h : pt ≠ []) :
    chacha20_encrypt pt key nonce counter
      = xor_block (pt.take 64)
          (keystream_bytes (chacha20_block (initialize_state key nonce counter))) ++
        chacha20_encrypt (pt.drop 64) key nonce ((counter + 1) % 2 ^ 32) := by
  cases pt with
  | nil => exact absurd rfl h
  | cons b rest => rw [chacha20_encrypt]

theorem chacha20_encrypt_nil (key nonce : List Nat) (counter : Nat) :
    chacha20_encrypt [] key nonce counter = [] := by
  rw [chacha20_encrypt]

theorem chacha20_encrypt_length (n : Nat) : ∀ (pt key nonce : List Nat) (counter : Nat),
    pt.length = n → (chacha20_encrypt pt key nonce counter).length = pt.length := by
  induction n using Nat.strong_induction_on with
  | _ n ih =>
    intro pt key nonce counter hn
    by_cases hpt : pt = []
    · rw [hpt, chacha20_encrypt_nil]
    · have hpos : 0 < pt.length := List.length_pos.mpr hpt
      rw [chacha20_encrypt_step pt key nonce counter hpt, List.length_append, xor_block_length,
        keystream_bytes_length, List.length_take,
        ih (pt.drop 64).length (by rw [List.length_drop]; omega) _ key nonce _ rfl,
        List.length_drop]
      omega

theorem take_drop_block (X R : List Nat)
    (h : X.length = 64 ∨ (X.length ≤ 64 ∧ R = [])) :
    (X ++ R).take 64 = X ∧ (X ++ R).drop 64 = R := by
  rcases h with h | ⟨h, rfl⟩
  · exact ⟨List.take_left' h, List.drop_left' h⟩
  · rw [List.append_nil]
    exact ⟨List.take_of_length_le h, List.drop_of_length_le h⟩

theorem chacha20_round_trip (n : Nat) : ∀ (pt key nonce : List Nat) (counter : Nat),
    pt.length = n → (∀ b ∈ pt, b < 256) →
    chacha20_encrypt (chacha20_encrypt pt key nonce counter) key nonce counter = pt := by
  induction n using Nat.strong_induction_on with
  | _ n ih =>
    intro pt key nonce counter hn hb
    by_cases hpt : pt = []
    · rw [hpt, chacha20_encrypt_nil, chacha20_encrypt_nil]
    · have hpos : 0 < pt.length := List.length_pos.mpr hpt
      have hklen := keystream_bytes_length (chacha20_block (initialize_state key nonce counter))
      have hklt := keystream_bytes_lt (chacha20_block (initialize_state key nonce counter))
      have hstep := chacha20_encrypt_step pt key nonce counter hpt
      have htl : (pt.take 64).length ≤ 64 := by
        rw [List.length_take]; exact Nat.min_le_left _ _
      have hxlen : (xor_block (pt.take 64)
          (keystream_bytes (chacha20_block (initialize_state key nonce counter)))).length
          = (pt.take 64).length := by
        rw [xor_block_length, hklen]
        exact Nat.min_eq_left htl
      have hcase : (xor_block (pt.take 64)
          (keystream_bytes (chacha20_block (initialize_state key nonce counter)))).length = 64 ∨
          ((xor_block (pt.take 64)
            (keystream_bytes (chacha20_block (initialize_state key nonce counter)))).length ≤ 64 ∧
            chacha20_encrypt (pt.drop 64) key nonce ((counter + 1) % 2 ^ 32) = []) := by
        rw [hxlen]
        by_cases hle : 64 ≤ pt.length
        · left
          rw [List.length_take]
          exact Nat.min_eq_left hle
        · right
          refine ⟨htl, ?_⟩
          rw [List.drop_of_length_le (by omega), chacha20_encrypt_nil]
      obtain ⟨htake, hdrop⟩ := take_drop_block _ _ hcase
      have hne : chacha20_encrypt pt key nonce counter ≠ [] := by
        intro h
        have h1 := congrArg List.length h
        rw [hstep, List.length_append, hxlen, List.length_take] at h1
        have h2 : 0 < min 64 pt.length := Nat.lt_min.mpr ⟨by norm_num, hpos⟩
        simp only [List.length_nil] at h1
        omega
      rw [chacha20_encrypt_step _ key nonce counter hne, hstep, htake, hdrop]
      rw [xor_block_twice _ _ (by rw [hklen]; exact htl)
        (fun b hb1 => hb b (List.mem_of_mem_take hb1)) hklt]
      rw [ih (pt.drop 64).length (by rw [← hn, List.length_drop]; omega) (pt.drop 64) key nonce
        ((counter + 1) % 2 ^ 32) rfl (fun b hb1 => hb b (List.mem_of_mem_drop hb1))]
      exact List.take_append_drop 64 pt

/-- C19: for every key, nonce and initial counter and every plaintext of bytes (any length,
also 0, not a multiple of 64, or several blocks), `chacha20_encrypt` applied to its own
output with the same key, nonce and counter gives back the plaintext, and the output has
the length of the input. -/
theorem chacha20_decrypt_encrypt (plaintext key nonce : List Nat) (counter : Nat)
    (hbytes : ∀ b ∈ plaintext, b < 256) :
    chacha20_encrypt (chacha20_encrypt plaintext key nonce counter) key nonce counter
        = plaintext ∧
      (chacha20_encrypt plaintext key nonce counter).length = plaintext.length :=
  ⟨chacha20_round_trip plaintext.length plaintext key nonce counter rfl hbytes,
    chacha20_encrypt_length plaintext.length plaintext key nonce counter rfl⟩

/-- Witness for C19: the key, nonce, counter and the 114-byte plaintext of `main`. -/
theorem chacha20_decrypt_encrypt_witness :
    (∀ b ∈ main_plaintext, b < 256) ∧
      chacha20_encrypt (chacha20_encrypt main_plaintext main_key main_nonce 1)
        main_key main_nonce 1 = main_plaintext ∧
      (chacha20_encrypt main_plaintext main_key main_nonce 1).length = main_plaintext.length :=
  ⟨by decide, chacha20_decrypt_encrypt main_plaintext main_key main_nonce 1 (by decide)⟩

/-! ## Bubble sort -/

/-- A permutation of the indices that fixes every index from `n` on maps indices below `n`
to indices below `n`. -/
theorem perm_maps_below {σ : Equiv.Perm Nat} {n : Nat} (hfix : ∀ k, n ≤ k → σ k = k)
    {k : Nat} (hk : k < n) : σ k < n := by
  by_contra hge
  have h1 : σ (σ k) = σ k := hfix _ (by omega)
  have h2 : σ k = k := σ.injective h1
  omega

/-- Reading an array through a permutation of the indices below `n` permutes the list of
its first `n` cells. -/
theorem perm_of_index_perm (arr : Nat → Int) (σ : Equiv.Perm Nat) (n : Nat)
    (hfix : ∀ k, n ≤ k → σ k = k) :
    ((List.range n).map (fun k => arr (σ k))).Perm ((List.range n).map arr) := by
  have hmap : (List.range n).map (fun k => arr (σ k))
      = ((List.range n).map σ).map arr := by
    rw [List.map_map]
    rfl
  rw [hmap]
  apply List.Perm.map
  rw [List.perm_ext_iff_of_nodup (List.Nodup.map σ.injective (List.nodup_range n))
    (List.nodup_range n)]
  intro x
  constructor
  · intro hx
    obtain ⟨k, hk, rfl⟩ := List.mem_map.mp hx
    exact List.mem_range.mpr (perm_maps_below hfix (List.mem_range.mp hk))
  · intro hx
    have hinv : ∀ k, n ≤ k → σ.symm k = k := by
      intro k hk
      have := hfix k hk
      rw [Equiv.symm_apply_eq]
      exact this.symm
    exact List.mem_map.mpr ⟨σ.symm x,
      List.mem_range.mpr (perm_maps_below hinv (List.mem_range.mp hx)), by simp⟩

theorem swap_eq_index_swap (arr : Nat → Int) (i j : Nat) :
    BubbleSort.swap arr i j = fun k => arr (Equiv.swap i j k) := by
  funext k
  unfold BubbleSort.swap
  rw [Equiv.swap_apply_def]
  split
  · rfl
  · split <;> rfl

/-- The inner loop from index `j` for `steps` iterations: it permutes the cells
`j .. j + steps`, carries the maximum to the last of them when cell `j` held the maximum of
the cells before it, and when it reports no swap the array is unchanged and those cells
were already in order. -/
theorem inner_loop_spec (steps : Nat) : ∀ (j : Nat) (arr : Nat → Int) (sw : Bool),
    (∃ σ : Equiv.Perm Nat, (∀ k, k < j ∨ j + steps < k → σ k = k) ∧
      (BubbleSort.inner_loop steps j arr sw).1 = fun k => arr (σ k)) ∧
    ((∀ k, k < j → arr k ≤ arr j) →
      ∀ k, k ≤ j + steps → (BubbleSort.inner_loop steps j arr sw).1 k
        ≤ (BubbleSort.inner_loop steps j arr sw).1 (j + steps)) ∧
    ((BubbleSort.inner_loop steps j arr sw).2 = false →
      sw = false ∧ (BubbleSort.inner_loop steps j arr sw).1 = arr ∧
        ∀ k, j ≤ k → k < j + steps → arr k ≤ arr (k + 1)) := by
  induction steps with
  | zero =>
    intro j arr sw
    refine ⟨⟨1, fun _ _ => rfl, rfl⟩, ?_, ?_⟩
    · intro hmax k hk
      show arr k ≤ arr (j + 0)
      rcases Nat.lt_or_ge k j with h | h
      · exact hmax k h
      · have : k = j := by omega
        rw [this]
        exact le_refl _
    · intro h
      exact ⟨h, rfl, fun k h1 h2 => by omega⟩
  | succ steps ih =>
    intro j arr sw
    unfold BubbleSort.inner_loop
    by_cases hgt : arr j > arr (j + 1)
    · rw [if_pos hgt]
      obtain ⟨⟨σ, hfix, hσ⟩, hmaxih, hfalse⟩ :=
        ih (j + 1) (BubbleSort.swap arr j (j + 1)) true
      refine ⟨⟨Equiv.swap j (j + 1) * σ, ?_, ?_⟩, ?_, ?_⟩
      · intro k hk
        rw [Equiv.Perm.mul_apply, hfix k (by omega)]
        exact Equiv.swap_apply_of_ne_of_ne (by omega) (by omega)
      · rw [hσ, swap_eq_index_swap]
        rfl
      · intro hmax k hk
        have hidx : j + (steps + 1) = j + 1 + steps := by omega
        rw [hidx]
        have hpre : ∀ i, i < j + 1 →
            BubbleSort.swap arr j (j + 1) i ≤ BubbleSort.swap arr j (j + 1) (j + 1) := by
          intro i hi
          have e1 : BubbleSort.swap arr j (j + 1) (j + 1) = arr j := by
            simp [BubbleSort.swap]
          rw [e1]
          by_cases hij : i = j
          · have e2 : BubbleSort.swap arr j (j + 1) i = arr (j + 1) := by
              simp [BubbleSort.swap, hij]
            rw [e2]
            exact le_of_lt hgt
          · have hij2 : i ≠ j + 1 := by omega
            have e3 : BubbleSort.swap arr j (j + 1) i = arr i := by
              simp [BubbleSort.swap, hij, hij2]
            rw [e3]
            exact hmax i (by omega)
        exact hmaxih hpre k (by omega)
      · intro h
        exact absurd (hfalse h).1 (by simp)
    · rw [if_neg hgt]
      obtain ⟨⟨σ, hfix, hσ⟩, hmaxih, hfalse⟩ := ih (j + 1) arr sw
      refine ⟨⟨σ, fun k hk => hfix k (by omega), hσ⟩, ?_, ?_⟩
      · intro hmax k hk
        have hidx : j + (steps + 1) = j + 1 + steps := by omega
        rw [hidx]
        have hpre : ∀ i, i < j + 1 → arr i ≤ arr (j + 1) := by
          intro i hi
          rcases Nat.lt_or_ge i j with h | h
          · exact le_trans (hmax i h) (not_lt.mp hgt)
          · have : i = j := by omega
            rw [this]
            exact not_lt.mp hgt
        exact hmaxih hpre k (by omega)
      · intro h
        obtain ⟨h1, h2, h3⟩ := hfalse h
        refine ⟨h1, h2, ?_⟩
        intro k hk1 hk2
        rcases Nat.lt_or_ge j k with h4 | h4
        · exact h3 k (by omega) (by omega)
        · have : k = j := by omega
          rw [this]
          exact not_lt.mp hgt

/-- Cells in order pairwise-adjacent on `[0, m]` are in order on `[0, m]`. -/
theorem sorted_of_adjacent (f : Nat → Int) (m : Nat) (h : ∀ k, k < m → f k ≤ f (k + 1)) :
    ∀ b, b ≤ m → ∀ a, a ≤ b → f a ≤ f b := by
  intro b
  induction b with
  | zero =>
    intro _ a ha
    have : a = 0 := by omega
    rw [this]
  | succ b ih =>
    intro hb a ha
    rcases Nat.lt_or_ge a (b + 1) with h1 | h1
    · exact le_trans (ih (by omega) a (by omega)) (h b (by omega))
    · have : a = b + 1 := by omega
      rw [this]

/-- The outer loop at pass `i`: if the cells from `n - i` on are in order and dominate the
cells before them, the loop ends with the first `n` cells in order, and it only permutes
the first `n` cells. -/
theorem outer_loop_spec (n steps : Nat) : ∀ (i : Nat) (arr : Nat → Int),
    i + steps = n - 1 →
    (∀ a b, n - i ≤ a → a ≤ b → b < n → arr a ≤ arr b) →
    (∀ a b, a < n - i → n - i ≤ b → b < n → arr a ≤ arr b) →
    (∀ a b, a ≤ b → b < n → BubbleSort.outer_loop n steps i arr a
      ≤ BubbleSort.outer_loop n steps i arr b) ∧
    ∃ σ : Equiv.Perm Nat, (∀ k, n ≤ k → σ k = k) ∧
      BubbleSort.outer_loop n steps i arr = fun k => arr (σ k) := by
  induction steps with
  | zero =>
    intro i arr hi h1 h2
    refine ⟨?_, ⟨1, fun _ _ => rfl, rfl⟩⟩
    intro a b hab hb
    show arr a ≤ arr b
    rcases Nat.eq_zero_or_pos a with ha | ha
    · rcases Nat.eq_zero_or_pos b with hb0 | hb0
      · rw [ha, hb0]
      · exact h2 a b (by omega) (by omega) hb
    · exact h1 a b (by omega) hab hb
  | succ steps ih =>
    intro i arr hi h1 h2
    obtain ⟨⟨σ, hfix, hσ⟩, hmax, hfalse⟩ :=
      inner_loop_spec (n - i - 1) 0 arr false
    have hm : n - i - 1 + 1 = n - i := by omega
    unfold BubbleSort.outer_loop
    simp only
    by_cases hsw : (BubbleSort.inner_loop (n - i - 1) 0 arr false).2 = false
    · rw [if_pos hsw]
      obtain ⟨-, harr, hadj⟩ := hfalse hsw
      rw [harr]
      refine ⟨?_, ⟨1, fun _ _ => rfl, rfl⟩⟩
      intro a b hab hb
      rcases Nat.lt_or_ge (n - i - 1) b with hbm | hbm
      · rcases Nat.lt_or_ge a (n - i) with ha | ha
        · exact h2 a b ha (by omega) hb
        · exact h1 a b ha hab hb
      · exact sorted_of_adjacent arr (n - i - 1)
          (fun k hk => hadj k (Nat.zero_le k) (by omega)) b hbm a hab
    · rw [if_neg hsw]
      have hfix1 : ∀ k, n - i ≤ k → σ k = k := fun k hk => hfix k (Or.inr (by omega))
      have hbelow : ∀ k, k < n - i → σ k < n - i := fun k hk => perm_maps_below hfix1 hk
      have hi1 : ∀ a b, n - (i + 1) ≤ a → a ≤ b → b < n →
          (BubbleSort.inner_loop (n - i - 1) 0 arr false).1 a
            ≤ (BubbleSort.inner_loop (n - i - 1) 0 arr false).1 b := by
        intro a b ha hab hb
        rw [hσ]
        show arr (σ a) ≤ arr (σ b)
        rcases Nat.lt_or_ge a (n - i) with ha1 | ha1
        · rcases Nat.lt_or_ge b (n - i) with hb1 | hb1
          · have : a = b := by omega
            rw [this]
          · rw [hfix1 b hb1]
            exact h2 (σ a) b (hbelow a ha1) hb1 hb
        · rw [hfix1 a ha1, hfix1 b (by omega)]
          exact h1 a b ha1 hab hb
      have hi2 : ∀ a b, a < n - (i + 1) → n - (i + 1) ≤ b → b < n →
          (BubbleSort.inner_loop (n - i - 1) 0 arr false).1 a
            ≤ (BubbleSort.inner_loop (n - i - 1) 0 arr false).1 b := by
        intro a b ha hb1 hb
        rcases Nat.lt_or_ge b (n - i) with hb2 | hb2
        · have hbm : b = 0 + (n - i - 1) := by omega
          rw [hbm]
          exact hmax (fun k hk => absurd hk (Nat.not_lt_zero k)) a (by omega)
        · rw [hσ]
          show arr (σ a) ≤ arr (σ b)
          rw [hfix1 b hb2]
          exact h2 (σ a) b (hbelow a (by omega)) hb2 hb
      obtain ⟨hsorted, σ2, hfix2, hσ2⟩ :=
        ih (i + 1) (BubbleSort.inner_loop (n - i - 1) 0 arr false).1 (by omega) hi1 hi2
      refine ⟨hsorted, ⟨σ * σ2, ?_, ?_⟩⟩
      · intro k hk
        rw [Equiv.Perm.mul_apply, hfix2 k hk]
        exact hfix1 k (by omega)
      · rw [hσ2, hσ]
        rfl

theorem bubbleSort_spec (arr : Nat → Int) (n : Int) :
    (∀ a b, a ≤ b → b < n.toNat → BubbleSort.bubbleSort arr n a
      ≤ BubbleSort.bubbleSort arr n b) ∧
    ∃ σ : Equiv.Perm Nat, (∀ k, n.toNat ≤ k → σ k = k) ∧
      BubbleSort.bubbleSort arr n = fun k => arr (σ k) := by
  unfold BubbleSort.bubbleSort
  apply outer_loop_spec n.toNat (n.toNat - 1) 0 arr (by omega)
  · intro a b ha hab hb
    omega
  · intro a b ha hb1 hb
    omega

theorem counting_inner_loop_eq (steps : Nat) :
    ∀ (j : Nat) (c : SortingBenchmarked.Counted) (sw : Bool),
    ((SortingBenchmarked.inner_loop steps j c sw).1.arr,
      (SortingBenchmarked.inner_loop steps j c sw).2)
      = BubbleSort.inner_loop steps j c.arr sw := by
  induction steps with
  | zero => intro j c sw; rfl
  | succ steps ih =>
    intro j c sw
    unfold SortingBenchmarked.inner_loop BubbleSort.inner_loop
    by_cases hgt : c.arr j > c.arr (j + 1)
    · rw [if_pos hgt, if_pos hgt, ih]
      rfl
    · rw [if_neg hgt, if_neg hgt, ih]

theorem counting_outer_loop_eq (n steps : Nat) :
    ∀ (i : Nat) (c : SortingBenchmarked.Counted),
    (SortingBenchmarked.outer_loop n steps i c).arr = BubbleSort.outer_loop n steps i c.arr := by
  induction steps with
  | zero => intro i c; rfl
  | succ steps ih =>
    intro i c
    have h := counting_inner_loop_eq (n - i - 1) 0 c false
    have h1 := congrArg Prod.fst h
    have h2 := congrArg Prod.snd h
    simp only at h1 h2
    unfold SortingBenchmarked.outer_loop BubbleSort.outer_loop
    simp only
    rw [← h2]
    by_cases hsw : (SortingBenchmarked.inner_loop (n - i - 1) 0 c false).2 = false
    · rw [if_pos hsw, if_pos hsw, h1]
    · rw [if_neg hsw, if_neg hsw, ih, h1]

/-- C20: for every array and every `n` (also `n <= 1`), both `bubbleSort` versions leave the
first `n` cells in non-decreasing order and a permutation of what they held, and touch no
cell from `n` on; the counting version leaves the same array as the plain one. The result
covers the runs that `break` after a pass without a swap, so in those the array is sorted
as well. -/
theorem bubbleSort_sorts (arr : Nat → Int) (n : Int) (comparisons swaps : Int) :
    (∀ a b : Nat, a ≤ b → (b : Int) < n →
      BubbleSort.bubbleSort arr n a ≤ BubbleSort.bubbleSort arr n b) ∧
    ((List.range n.toNat).map (BubbleSort.bubbleSort arr n)).Perm
      ((List.range n.toNat).map arr) ∧
    (∀ k : Nat, n ≤ (k : Int) → BubbleSort.bubbleSort arr n k = arr k) ∧
    (SortingBenchmarked.bubbleSort arr n comparisons swaps).arr
      = BubbleSort.bubbleSort arr n := by
  obtain ⟨hsorted, σ, hfix, hσ⟩ := bubbleSort_spec arr n
  refine ⟨fun a b hab hb => hsorted a b hab (by omega), ?_, ?_, ?_⟩
  · rw [hσ]
    exact perm_of_index_perm arr σ n.toNat hfix
  · intro k hk
    rw [hσ]
    show arr (σ k) = arr k
    rw [hfix k (by omega)]
  · unfold SortingBenchmarked.bubbleSort BubbleSort.bubbleSort
    exact counting_outer_loop_eq _ _ _ _

/-! ## Counting liars in `ZMod n` -/

/-- Multiplying by a unit is injective, so a set whose translate lies in `T` is no larger
than `T`. -/
theorem card_le_of_translate {n : Nat} (S T : Finset (ZMod n)) (t : ZMod n) (ht : IsUnit t)
    (h : ∀ x ∈ S, t * x ∈ T) : S.card ≤ T.card := by
  apply Finset.card_le_card_of_injOn (fun x => t * x) h
  intro x _ y _ hxy
  exact ht.mul_left_cancel hxy

theorem jacobi_val_mul {n : Nat} (x y : ZMod n) :
    jacobiSym ((x * y).val : Int) n = jacobiSym (x.val : Int) n * jacobiSym (y.val : Int) n := by
  rw [ZMod.val_mul, ← jacobiSym.mul_left]
  have : (((x.val * y.val % n : Nat) : Int)) = ((x.val : Int) * (y.val : Int)) % (n : Int) := by
    push_cast
    rfl
  rw [this, ← jacobiSym.mod_left]

theorem jacobi_val_natCast {n : Nat} (a : Nat) :
    jacobiSym (((a : ZMod n).val : Nat) : Int) n = jacobiSym (a : Int) n := by
  rw [ZMod.val_natCast]
  have : (((a % n : Nat) : Int)) = (a : Int) % (n : Int) := by
    push_cast
    rfl
  rw [this, ← jacobiSym.mod_left]

/-- For a unit the Jacobi symbol of its representative is 1 or -1. -/
theorem jacobi_unit {n : Nat} [NeZero n] (x : ZMod n) (hx : IsUnit x) :
    jacobiSym (x.val : Int) n = 1 ∨ jacobiSym (x.val : Int) n = -1 := by
  apply jacobiSym.eq_one_or_neg_one
  have h1 : IsUnit ((x.val : Nat) : ZMod n) := by
    rw [ZMod.natCast_zmod_val]
    exact hx
  rw [ZMod.isUnit_iff_coprime] at h1
  rw [Int.gcd_natCast_natCast]
  exact h1

/-! ## Elements `1 + x` with `x * x = 0` -/

theorem one_add_pow_of_sq_zero {n : Nat} (x : ZMod n) (hx : x * x = 0) (k : Nat) :
    (1 + x) ^ k = 1 + (k : ZMod n) * x := by
  induction k with
  | zero => simp
  | succ k ih =>
    rw [pow_succ, ih]
    push_cast
    linear_combination (k : ZMod n) * hx

/-- For a prime `p` whose square divides `n`, the residue of `n / p` is a non-zero element
of square zero. -/
theorem sq_zero_element {n p : Nat} (hp : p.Prime) (hpp : p * p ∣ n) (hn : 0 < n) :
    ((n / p : Nat) : ZMod n) * ((n / p : Nat) : ZMod n) = 0 ∧ ((n / p : Nat) : ZMod n) ≠ 0 := by
  obtain ⟨c, hc⟩ := hpp
  have hpos : 0 < p := hp.pos
  have hdiv : n / p = p * c := by
    rw [hc, Nat.mul_assoc, Nat.mul_div_cancel_left _ hpos]
  have hc0 : 0 < c := by
    rcases Nat.eq_zero_or_pos c with h | h
    · rw [h, Nat.mul_zero] at hc; omega
    · exact h
  constructor
  · rw [← Nat.cast_mul, ZMod.natCast_zmod_eq_zero_iff_dvd, hdiv]
    exact ⟨c, by rw [hc]; ring⟩
  · rw [Ne, ZMod.natCast_zmod_eq_zero_iff_dvd]
    intro hd
    have hle := Nat.le_of_dvd (by rw [hdiv]; positivity) hd
    have h2 := hp.two_le
    have : n = p * (n / p) := by rw [hdiv, hc]; ring
    nlinarith

/-- When `p * p` divides the odd number `n`, the unit `1 + n / p` has `(n - 1)`-th power
`1 - n / p`, different from 1. -/
theorem unit_of_square_factor {n p : Nat} (hp : p.Prime) (hpp : p * p ∣ n) (hn : 0 < n) :
    IsUnit (1 + ((n / p : Nat) : ZMod n)) ∧
      ∀ k : Nat, (1 + ((n / p : Nat) : ZMod n)) ^ k = 1 + (k : ZMod n) * ((n / p : Nat) : ZMod n) := by
  obtain ⟨hsq, -⟩ := sq_zero_element hp hpp hn
  refine ⟨?_, one_add_pow_of_sq_zero _ hsq⟩
  apply isUnit_of_mul_eq_one _ (1 - ((n / p : Nat) : ZMod n))
  linear_combination (-1 : ZMod n) * hsq

/-! ## A unit that is not an Euler liar -/

theorem natCast_pred_eq_neg_one {n : Nat} (hn : 0 < n) : ((n - 1 : Nat) : ZMod n) = -1 := by
  rw [Nat.cast_sub hn, ZMod.natCast_self, Nat.cast_one, zero_sub]

theorem euler_nonliar_square {n p : Nat} (hp : p.Prime) (hpp : p * p ∣ n) (hodd : n % 2 = 1) :
    ∃ b : ZMod n, IsUnit b ∧
      b ^ ((n - 1) / 2) ≠ ((jacobiSym (b.val : Int) n : Int) : ZMod n) := by
  have hn : 0 < n := by omega
  haveI : NeZero n := ⟨by omega⟩
  obtain ⟨hunit, hpow⟩ := unit_of_square_factor hp hpp hn
  obtain ⟨-, hne⟩ := sq_zero_element hp hpp hn
  refine ⟨_, hunit, ?_⟩
  intro heq
  have hsq : (1 + ((n / p : Nat) : ZMod n)) ^ (n - 1) = 1 := by
    have h2 : n - 1 = (n - 1) / 2 * 2 := by omega
    rw [h2, pow_mul, heq]
    rcases jacobi_unit _ hunit with h | h <;> rw [h] <;> simp
  rw [hpow, natCast_pred_eq_neg_one hn] at hsq
  apply hne
  linear_combination (-1 : ZMod n) * hsq

theorem euler_nonliar_coprime {n p m : Nat} (hn : n = p * m) (hp : p.Prime) (hp2 : p ≠ 2)
    (hcop : Nat.Coprime p m) (hm : 1 < m) (hmodd : m % 2 = 1) :
    ∃ b : ZMod n, IsUnit b ∧
      b ^ ((n - 1) / 2) ≠ ((jacobiSym (b.val : Int) n : Int) : ZMod n) := by
  haveI : Fact p.Prime := ⟨hp⟩
  haveI : NeZero p := ⟨hp.ne_zero⟩
  haveI : NeZero m := ⟨by omega⟩
  haveI : NeZero n := ⟨by rw [hn]; exact Nat.mul_ne_zero hp.ne_zero (by omega)⟩
  obtain ⟨a, ha⟩ := @FiniteField.exists_nonsquare (ZMod p) _ _
    (by rw [ZMod.ringChar_zmod_n]; exact hp2)
  have hleg : legendreSym p (a.val : Nat) = -1 := by
    rw [legendreSym.eq_neg_one_iff', ZMod.natCast_zmod_val]
    exact ha
  obtain ⟨k, hk1, hk2⟩ := Nat.chineseRemainder hcop a.val 1
  have hJ : jacobiSym (((k : ZMod n).val : Nat) : Int) n = -1 := by
    rw [jacobi_val_natCast, hn, jacobiSym.mul_right]
    have e1 : jacobiSym (k : Int) p = -1 := by
      rw [← hleg, jacobiSym.legendreSym.to_jacobiSym]
      apply jacobiSym.mod_left'
      have h := hk1
      unfold Nat.ModEq at h
      exact_mod_cast h
    have e2 : jacobiSym (k : Int) m = 1 := by
      have : jacobiSym (k : Int) m = jacobiSym ((1 : Nat) : Int) m := by
        apply jacobiSym.mod_left'
        have h := hk2
        unfold Nat.ModEq at h
        exact_mod_cast h
      rw [this, Nat.cast_one, jacobiSym.one_left]
    rw [e1, e2]
    norm_num
  have hunit : IsUnit ((k : Nat) : ZMod n) := by
    rw [ZMod.isUnit_iff_coprime]
    by_contra hnc
    have h0 : jacobiSym (k : Int) n = 0 := by
      rw [jacobiSym.eq_zero_iff_not_coprime, Int.gcd_natCast_natCast]
      exact hnc
    rw [jacobi_val_natCast, h0] at hJ
    norm_num at hJ
  refine ⟨(k : ZMod n), hunit, ?_⟩
  rw [hJ]
  intro heq
  have hdvd : m ∣ n := ⟨p, by rw [hn]; ring⟩
  have himg := congrArg (ZMod.castHom hdvd (ZMod m)) heq
  rw [map_pow, map_natCast, map_intCast] at himg
  have hk1m : ((k : Nat) : ZMod m) = 1 := by
    have := (ZMod.natCast_eq_natCast_iff k 1 m).mpr hk2
    rw [this, Nat.cast_one]
  rw [hk1m, one_pow] at himg
  have h2 : ((2 : Nat) : ZMod m) = 0 := by
    push_cast at himg ⊢
    linear_combination himg
  rw [ZMod.natCast_zmod_eq_zero_iff_dvd] at h2
  have := Nat.le_of_dvd (by norm_num) h2
  omega

/-- An odd composite `n > 1` is `p * m` with `p` an odd prime and `m > 1` odd. -/
theorem odd_composite_split {n : Nat} (hodd : n % 2 = 1) (h1 : 1 < n) (hcomp : ¬ n.Prime) :
    ∃ p m, p.Prime ∧ p ≠ 2 ∧ n = p * m ∧ 1 < m ∧ m % 2 = 1 := by
  have hp : (Nat.minFac n).Prime := Nat.minFac_prime (by omega)
  obtain ⟨m, hm⟩ := Nat.minFac_dvd n
  generalize Nat.minFac n = p at hp hm
  have hp2 : p ≠ 2 := by
    intro h
    have : n % 2 = 0 := by rw [hm, h]; exact Nat.mul_mod_right 2 m
    omega
  have hm1 : 1 < m := by
    rcases Nat.lt_or_ge 1 m with h | h
    · exact h
    · exfalso
      interval_cases m
      · omega
      · rw [Nat.mul_one] at hm
        exact hcomp (hm ▸ hp)
  have hmodd : m % 2 = 1 := by
    rcases Nat.mod_two_eq_zero_or_one m with h | h
    · exfalso
      have : n % 2 = 0 := by
        rw [hm, Nat.mul_mod, h]
        simp
      omega
    · exact h
  exact ⟨p, m, hp, hp2, hm, hm1, hmodd⟩

/-- Every odd composite `n > 1` has a unit that is not an Euler liar. -/
theorem exists_euler_nonliar {n : Nat} (hodd : n % 2 = 1) (h1 : 1 < n) (hcomp : ¬ n.Prime) :
    ∃ b : ZMod n, IsUnit b ∧
      b ^ ((n - 1) / 2) ≠ ((jacobiSym (b.val : Int) n : Int) : ZMod n) := by
  obtain ⟨p, m, hp, hp2, hm, hm1, hmodd⟩ := odd_composite_split hodd h1 hcomp
  by_cases hdm : p ∣ m
  · obtain ⟨c, hc⟩ := hdm
    exact euler_nonliar_square hp ⟨c, by rw [hm, hc]; ring⟩ hodd
  · exact euler_nonliar_coprime hm hp hp2 ((Nat.Prime.coprime_iff_not_dvd hp).mpr hdm) hm1 hmodd

/-! ## Counting Euler liars -/

/-- If `x` and `b * x` are Euler liars then so is `b`. -/
theorem euler_liar_cancel {n : Nat} [NeZero n] (b x : ZMod n)
    (hx : IsUnit x ∧ x ^ ((n - 1) / 2) = ((jacobiSym (x.val : Int) n : Int) : ZMod n))
    (hbx : (b * x) ^ ((n - 1) / 2) = ((jacobiSym ((b * x).val : Int) n : Int) : ZMod n)) :
    b ^ ((n - 1) / 2) = ((jacobiSym (b.val : Int) n : Int) : ZMod n) := by
  rw [mul_pow, jacobi_val_mul, Int.cast_mul, ← hx.2] at hbx
  exact (hx.1.pow _).mul_right_cancel hbx

/-- A set of Euler liars of an odd composite `n` that leaves out 1 has at most `(n - 3) / 2`
elements. -/
theorem euler_liar_count {n : Nat} [NeZero n] (hodd : n % 2 = 1) (h1 : 1 < n)
    (hcomp : ¬ n.Prime) (L : Finset (ZMod n))
    (hL : ∀ x ∈ L, IsUnit x ∧ x ^ ((n - 1) / 2) = ((jacobiSym (x.val : Int) n : Int) : ZMod n))
    (hone : (1 : ZMod n) ∉ L) : 2 * L.card + 3 ≤ n := by
  classical
  obtain ⟨b, hb, hbne⟩ := exists_euler_nonliar hodd h1 hcomp
  haveI : Fact (1 < n) := ⟨h1⟩
  have hone_liar : (1 : ZMod n) ^ ((n - 1) / 2)
      = ((jacobiSym (((1 : ZMod n).val : Nat) : Int) n : Int) : ZMod n) := by
    rw [one_pow, ZMod.val_one, Nat.cast_one, jacobiSym.one_left, Int.cast_one]
  have hinj : Set.InjOn (fun x => b * x) (L : Set (ZMod n)) :=
    fun x _ y _ hxy => hb.mul_left_cancel hxy
  have hcardT : (L.image (fun x => b * x)).card = L.card := Finset.card_image_of_injOn hinj
  have hT : ∀ y ∈ L.image (fun x => b * x), ¬ (y ^ ((n - 1) / 2)
      = ((jacobiSym (y.val : Int) n : Int) : ZMod n)) ∧ IsUnit y ∧ y ≠ b := by
    intro y hy
    obtain ⟨x, hx, rfl⟩ := Finset.mem_image.mp hy
    refine ⟨fun h => hbne (euler_liar_cancel b x (hL x hx) h), hb.mul (hL x hx).1, ?_⟩
    intro h
    have hx1 : x = 1 := hb.mul_left_cancel (by rw [h, mul_one])
    exact hone (hx1 ▸ hx)
  have hdisj : Disjoint L (L.image (fun x => b * x)) := by
    rw [Finset.disjoint_left]
    intro x hx hxT
    exact (hT x hxT).1 (hL x hx).2
  have hsub : L ∪ L.image (fun x => b * x)
      ⊆ ((Finset.univ.erase (0 : ZMod n)).erase 1).erase b := by
    intro y hy
    rw [Finset.mem_erase, Finset.mem_erase, Finset.mem_erase]
    rcases Finset.mem_union.mp hy with h | h
    · refine ⟨?_, ?_, (hL y h).1.ne_zero, Finset.mem_univ _⟩
      · intro hyb
        exact hbne (hyb ▸ (hL y h).2)
      · intro hy1
        exact hone (hy1 ▸ h)
    · refine ⟨(hT y h).2.2, ?_, (hT y h).2.1.ne_zero, Finset.mem_univ _⟩
      intro hy1
      exact (hT y h).1 (hy1 ▸ hone_liar)
  have hcard := Finset.card_le_card hsub
  rw [Finset.card_union_of_disjoint hdisj, hcardT] at hcard
  have hb0 : b ≠ 0 := hb.ne_zero
  have hb1 : b ≠ 1 := fun h => hbne (h ▸ hone_liar)
  have h3 : (((Finset.univ.erase (0 : ZMod n)).erase 1).erase b).card = n - 3 := by
    rw [Finset.card_erase_of_mem, Finset.card_erase_of_mem, Finset.card_erase_of_mem
      (Finset.mem_univ _), Finset.card_univ, ZMod.card]
    · omega
    · rw [Finset.mem_erase]
      exact ⟨one_ne_zero, Finset.mem_univ _⟩
    · rw [Finset.mem_erase, Finset.mem_erase]
      exact ⟨hb1, hb0, Finset.mem_univ _⟩
  rw [h3] at hcard
  have hn9 : 9 ≤ n := by
    by_contra hlt
    have : n = 3 ∨ n = 5 ∨ n = 7 := by omega
    rcases this with h | h | h <;> rw [h] at hcomp <;> exact hcomp (by norm_num)
  omega

/-! ## Counting with disjoint translates -/

/-- Four pairwise disjoint translates of a set without 0 by units fit into the `n - 1`
non-zero residues. -/
theorem four_translates {n : Nat} [NeZero n] (S : Finset (ZMod n)) (h0 : (0 : ZMod n) ∉ S)
    (t1 t2 t3 : ZMod n) (u1 : IsUnit t1) (u2 : IsUnit t2) (u3 : IsUnit t3)
    (hd : ∀ x ∈ S, ∀ y ∈ S, t1 * x ≠ y ∧ t2 * x ≠ y ∧ t3 * x ≠ y ∧
      t1 * x ≠ t2 * y ∧ t1 * x ≠ t3 * y ∧ t2 * x ≠ t3 * y) :
    4 * S.card ≤ n - 1 := by
  classical
  have hc : ∀ t : ZMod n, IsUnit t → (S.image (fun x => t * x)).card = S.card := by
    intro t ht
    exact Finset.card_image_of_injOn (fun x _ y _ hxy => ht.mul_left_cancel hxy)
  have hnz : ∀ t : ZMod n, IsUnit t → ∀ y ∈ S.image (fun x => t * x), y ≠ 0 := by
    intro t ht y hy
    obtain ⟨x, hx, rfl⟩ := Finset.mem_image.mp hy
    intro h
    have : x = 0 := ht.mul_left_cancel (by rw [h, mul_zero])
    exact h0 (this ▸ hx)
  have d01 : Disjoint S (S.image (fun x => t1 * x)) := by
    rw [Finset.disjoint_right]
    intro y hy hyS
    obtain ⟨x, hx, rfl⟩ := Finset.mem_image.mp hy
    exact (hd x hx _ hyS).1 rfl
  have d02 : Disjoint S (S.image (fun x => t2 * x)) := by
    rw [Finset.disjoint_right]
    intro y hy hyS
    obtain ⟨x, hx, rfl⟩ := Finset.mem_image.mp hy
    exact (hd x hx _ hyS).2.1 rfl
  have d03 : Disjoint S (S.image (fun x => t3 * x)) := by
    rw [Finset.disjoint_right]
    intro y hy hyS
    obtain ⟨x, hx, rfl⟩ := Finset.mem_image.mp hy
    exact (hd x hx _ hyS).2.2.1 rfl
  have d12 : Disjoint (S.image (fun x => t1 * x)) (S.image (fun x => t2 * x)) := by
    rw [Finset.disjoint_left]
    intro y hy hy2
    obtain ⟨x, hx, rfl⟩ := Finset.mem_image.mp hy
    obtain ⟨z, hz, hzx⟩ := Finset.mem_image.mp hy2
    exact (hd x hx z hz).2.2.2.1 hzx.symm
  have d13 : Disjoint (S.image (fun x => t1 * x)) (S.image (fun x => t3 * x)) := by
    rw [Finset.disjoint_left]
    intro y hy hy2
    obtain ⟨x, hx, rfl⟩ := Finset.mem_image.mp hy
    obtain ⟨z, hz, hzx⟩ := Finset.mem_image.mp hy2
    exact (hd x hx z hz).2.2.2.2.1 hzx.symm
  have d23 : Disjoint (S.image (fun x => t2 * x)) (S.image (fun x => t3 * x)) := by
    rw [Finset.disjoint_left]
    intro y hy hy2
    obtain ⟨x, hx, rfl⟩ := Finset.mem_image.mp hy
    obtain ⟨z, hz, hzx⟩ := Finset.mem_image.mp hy2
    exact (hd x hx z hz).2.2.2.2.2 hzx.symm
  have hsub : S ∪ S.image (fun x => t1 * x) ∪ S.image (fun x => t2 * x)
      ∪ S.image (fun x => t3 * x) ⊆ Finset.univ.erase (0 : ZMod n) := by
    intro y hy
    rw [Finset.mem_erase]
    refine ⟨?_, Finset.mem_univ _⟩
    simp only [Finset.mem_union] at hy
    rcases hy with ((h | h) | h) | h
    · exact fun hy0 => h0 (hy0 ▸ h)
    · exact hnz t1 u1 y h
    · exact hnz t2 u2 y h
    · exact hnz t3 u3 y h
  have hcard := Finset.card_le_card hsub
  rw [Finset.card_union_of_disjoint, Finset.card_union_of_disjoint,
    Finset.card_union_of_disjoint d01, hc t1 u1, hc t2 u2, hc t3 u3,
    Finset.card_erase_of_mem (Finset.mem_univ _), Finset.card_univ, ZMod.card] at hcard
  · omega
  · exact Finset.disjoint_union_left.mpr ⟨d02, d12⟩
  · exact Finset.disjoint_union_left.mpr ⟨Finset.disjoint_union_left.mpr ⟨d03, d13⟩, d23⟩


/-! ## Solovay-Strassen: at most half of the draws pass a composite -/

/-- A round that lets the loop continue has found an Euler liar: the witness is coprime
to `n` and its power agrees with its Jacobi symbol. -/
theorem ss_round_liar {n a : Nat} (hodd : n % 2 = 1) (h1 : 1 < n)
    (h : ss_round n a = true) :
    Nat.gcd a n = 1 ∧
      (a : ZMod n) ^ ((n - 1) / 2) = ((jacobiSym (a : Int) n : Int) : ZMod n) := by
  unfold ss_round at h
  by_cases hg : Nat.gcd a n = 1
  · refine ⟨hg, ?_⟩
    simp only [hg, ne_eq, not_true_eq_false, if_false, mpz_jacobi_eq a n hodd,
      mpz_powm_eq] at h
    have hlt : a ^ ((n - 1) / 2) % n < n := Nat.mod_lt _ (by omega)
    have hcast : ((a ^ ((n - 1) / 2) % n : Nat) : ZMod n) = (a : ZMod n) ^ ((n - 1) / 2) := by
      rw [ZMod.natCast_mod, Nat.cast_pow]
    have hg2 : Int.gcd (a : Int) (n : Int) = 1 := by
      rw [Int.gcd_natCast_natCast]; exact hg
    rcases jacobiSym.eq_one_or_neg_one hg2 with hj | hj
    · rw [hj] at h ⊢
      simp only [show ¬ ((1 : Int) = 0) by decide, show ¬ ((1 : Int) = -1) by decide,
        if_false, ite_not] at h
      by_cases hp : a ^ ((n - 1) / 2) % n = 1
      · rw [← hcast, hp]; simp
      · simp [hp] at h
    · rw [hj] at h ⊢
      simp only [show ¬ ((-1 : Int) = 0) by decide, if_false, if_true, ite_not] at h
      by_cases hp : a ^ ((n - 1) / 2) % n = n - 1
      · rw [← hcast, (natCast_eq_neg_one_iff h1 hlt).mpr hp]; simp
      · simp [hp] at h
  · simp [hg] at h

/-- The draws of one round that a composite survives are at most half of all draws. -/
theorem ss_round_count {n : Nat} (hodd : n % 2 = 1) (h5 : 5 ≤ n) (hcomp : ¬ n.Prime) :
    2 * ((Finset.range (n - 3)).filter (fun r => ss_round n (ss_base r) = true)).card
      ≤ n - 3 := by
  classical
  haveI : NeZero n := ⟨by omega⟩
  have h1 : 1 < n := by omega
  have hinj : Set.InjOn (fun r : Nat => ((ss_base r : Nat) : ZMod n))
      ((Finset.range (n - 3)).filter (fun r => ss_round n (ss_base r) = true) : Finset Nat) := by
    intro r hr r' hr' heq
    simp only [Finset.coe_filter, Finset.mem_range, Set.mem_setOf_eq] at hr hr'
    simp only [ss_base] at heq
    rw [ZMod.natCast_eq_natCast_iff', Nat.mod_eq_of_lt (by omega),
      Nat.mod_eq_of_lt (by omega)] at heq
    omega
  rw [← Finset.card_image_of_injOn hinj]
  have hcount := euler_liar_count hodd h1 hcomp
    (((Finset.range (n - 3)).filter (fun r => ss_round n (ss_base r) = true)).image
      (fun r : Nat => ((ss_base r : Nat) : ZMod n))) ?_ ?_
  · omega
  · intro x hx
    obtain ⟨r, hr, rfl⟩ := Finset.mem_image.mp hx
    rw [Finset.mem_filter] at hr
    obtain ⟨hg, hpow⟩ := ss_round_liar hodd h1 hr.2
    refine ⟨(ZMod.isUnit_iff_coprime _ _).mpr hg, ?_⟩
    rw [jacobi_val_natCast]
    exact hpow
  · intro hx
    obtain ⟨r, hr, heq⟩ := Finset.mem_image.mp hx
    rw [Finset.mem_filter, Finset.mem_range] at hr
    simp only [ss_base] at heq
    have h := (natCast_eq_one_iff h1 (show r + 2 < n by omega)).mp heq
    omega

/-- A run of `k` rounds that ends with a non-zero answer passed every round. -/
theorem ss_rounds_accepted (n : Nat) (k : Nat) (st : gmp_randstate_t)
    (h : Run.accepted (ss_rounds n k st) = true) :
    ∀ i, i < k → ss_round n (ss_base (st i % (n - 3))) = true := by
  induction k generalizing st with
  | zero => intro i hi; omega
  | succ k ih =>
    intro i hi
    unfold ss_rounds mpz_urandomm at h
    by_cases h0 : n - 3 = 0
    · simp [h0, Run.accepted] at h
    · simp only [h0, if_false] at h
      by_cases hr : ss_round n (ss_base (st 0 % (n - 3))) = true
      · simp only [hr, if_true] at h
        cases i with
        | zero => exact hr
        | succ j =>
          have := ih (rand_advance st) h j (by omega)
          simpa [rand_advance] using this
      · simp [hr, Run.accepted] at h

/-- Sequences of `k` draws all of whose entries are good: if the good draws are at most
one in `c`, the good sequences are at most one in `c ^ k`. -/
theorem sequence_count (N k c : Nat) (good : Nat → Bool)
    (hgood : c * ((Finset.range N).filter (fun r => good r = true)).card ≤ N)
    (acc : (Fin k → Nat) → Bool)
    (hacc : ∀ f, (∀ i, f i < N) → acc f = true → ∀ i, good (f i) = true) :
    c ^ k * ((Fintype.piFinset (fun _ : Fin k => Finset.range N)).filter
      (fun f => acc f = true)).card ≤ N ^ k := by
  classical
  have hsub : (Fintype.piFinset (fun _ : Fin k => Finset.range N)).filter
      (fun f => acc f = true) ⊆
      Fintype.piFinset (fun _ : Fin k => (Finset.range N).filter (fun r => good r = true)) := by
    intro f hf
    rw [Finset.mem_filter, Fintype.mem_piFinset] at hf
    rw [Fintype.mem_piFinset]
    intro i
    rw [Finset.mem_filter]
    exact ⟨hf.1 i, hacc f (fun j => Finset.mem_range.mp (hf.1 j)) hf.2 i⟩
  have hcard := Finset.card_le_card hsub
  rw [Fintype.card_piFinset, Finset.prod_const, Finset.card_univ, Fintype.card_fin] at hcard
  calc c ^ k * _ ≤ c ^ k * ((Finset.range N).filter (fun r => good r = true)).card ^ k :=
        Nat.mul_le_mul_left _ hcard
    _ = (c * ((Finset.range N).filter (fun r => good r = true)).card) ^ k := by rw [mul_pow]
    _ ≤ N ^ k := Nat.pow_le_pow_left hgood k

/-- The stream built from `f` delivers `f i` as its `i`-th value. -/
theorem stream_of_draws_apply (k : Nat) (f : Fin k → Nat) (i : Fin k) :
    stream_of_draws k f i.1 = f i := by
  unfold stream_of_draws
  simp [i.2]

/-- C17: for an odd composite `n ≥ 5`, at most half of the `n - 3` draws `r` of a
Solovay-Strassen round (witness `r + 2`) let the round pass, and the oracle run with `k`
rounds answers "probably prime" for at most a `2^-k` fraction of the sequences of `k`
draws. -/
theorem solovay_strassen_error_bound (n : Nat) (hodd : n % 2 = 1) (h5 : 5 ≤ n)
    (hcomp : ¬ n.Prime) :
    2 * ((Finset.range (n - 3)).filter (fun r => ss_round n (ss_base r) = true)).card
        ≤ n - 3 ∧
      ∀ k : Nat, 2 ^ k * ((Fintype.piFinset (fun _ : Fin k => Finset.range (n - 3))).filter
        (fun f => Run.accepted
          (is_probable_prime_ss (n : Int) (k : Int) (stream_of_draws k f)) = true)).card
        ≤ (n - 3) ^ k := by
  refine ⟨ss_round_count hodd h5 hcomp, fun k => ?_⟩
  classical
  refine sequence_count (n - 3) k 2 (fun r => ss_round n (ss_base r))
    (ss_round_count hodd h5 hcomp) _ ?_
  intro f hlt hf i
  have hn2 : ¬ ((n : Int) < 2) := by omega
  have hne : ¬ ((n : Int) = 2) := by omega
  have hev : ¬ ((n : Int) % 2 = 0) := by omega
  unfold is_probable_prime_ss at hf
  simp only [hn2, hne, hev, if_false, Int.toNat_ofNat] at hf
  have h := ss_rounds_accepted n k _ hf i.1 i.2
  rw [stream_of_draws_apply, Nat.mod_eq_of_lt (hlt i)] at h
  exact h

/-- Witness for C17 at the composite 15: the bound holds there, and the draw 12 (witness
14) is one of the draws that pass. -/
theorem solovay_strassen_error_bound_witness :
    (15 % 2 = 1 ∧ 5 ≤ 15 ∧ ¬ Nat.Prime 15 ∧ ss_round 15 (ss_base 12) = true) ∧
      (2 * ((Finset.range (15 - 3)).filter
          (fun r => ss_round 15 (ss_base r) = true)).card ≤ 15 - 3 ∧
        ∀ k : Nat, 2 ^ k * ((Fintype.piFinset (fun _ : Fin k => Finset.range (15 - 3))).filter
          (fun f => Run.accepted
            (is_probable_prime_ss ((15 : Nat) : Int) (k : Int) (stream_of_draws k f))
              = true)).card ≤ (15 - 3) ^ k) :=
  ⟨⟨by decide, by decide, by norm_num, by decide⟩,
    solovay_strassen_error_bound 15 (by decide) (by decide) (by norm_num)⟩


/-! ## Strong liars -/

/-- In `ZMod m` with `m` odd and larger than 1, `1` and `-1` differ. -/
theorem one_ne_neg_one {m : Nat} (h1 : 1 < m) (ho : m % 2 = 1) : (1 : ZMod m) ≠ -1 := by
  intro h
  have h2 : ((2 : Nat) : ZMod m) = 0 := by
    push_cast
    linear_combination h
  have hd := (ZMod.natCast_zmod_eq_zero_iff_dvd 2 m).mp h2
  have := Nat.le_of_dvd (by decide) hd
  omega

/-- If `a * x = b * y` where `x` and `y` are `1` or `-1`, then `a = b` or `a = -b`. -/
theorem eq_or_eq_neg_of_signs {R : Type} [CommRing R] (a b x y : R)
    (hx : x = 1 ∨ x = -1) (hy : y = 1 ∨ y = -1) (h : a * x = b * y) : a = b ∨ a = -b := by
  rcases hx with rfl | rfl <;> rcases hy with rfl | rfl
  · left; linear_combination h
  · right; linear_combination h
  · right; linear_combination -h
  · left; linear_combination -h

/-- Four classes: when units `t` and `u` have `E`-th powers `v`, `w` with `v * v = 1`,
`v ≠ ±1` and `w ∉ {1, -1, v, -v}`, the elements whose `E`-th power is `±1` are at most a
quarter of the non-zero residues. -/
theorem four_classes {n : Nat} [NeZero n] (h1 : 1 < n) (E : Nat)
    (S : Finset (ZMod n)) (hS : ∀ x ∈ S, x ^ E = 1 ∨ x ^ E = -1)
    (t u : ZMod n) (ht : IsUnit t) (hu : IsUnit u)
    (hv2 : t ^ E * t ^ E = 1) (hv1 : t ^ E ≠ 1) (hv3 : t ^ E ≠ -1)
    (hw1 : u ^ E ≠ 1) (hw2 : u ^ E ≠ -1) (hw3 : u ^ E ≠ t ^ E) (hw4 : u ^ E ≠ -t ^ E) :
    4 * S.card ≤ n - 1 := by
  have hE : E ≠ 0 := by
    intro h
    rw [h, pow_zero] at hv1
    exact hv1 rfl
  haveI : Fact (1 < n) := ⟨h1⟩
  have h0 : (0 : ZMod n) ∉ S := by
    intro h
    rcases hS 0 h with h | h
    · rw [zero_pow hE] at h
      exact zero_ne_one h
    · rw [zero_pow hE] at h
      have := neg_eq_zero.mp h.symm
      exact one_ne_zero this
  have hwu : IsUnit (u ^ E) := hu.pow E
  refine four_translates S h0 t u (t * u) ht hu (ht.mul hu) ?_
  intro x hx y hy
  have key : ∀ a b : ZMod n, a * x ^ E = b * y ^ E → a = b ∨ a = -b :=
    fun a b h => eq_or_eq_neg_of_signs a b _ _ (hS x hx) (hS y hy) h
  refine ⟨?_, ?_, ?_, ?_, ?_, ?_⟩
  · intro h
    have h2 : t ^ E * x ^ E = 1 * y ^ E := by rw [← mul_pow, h, one_mul]
    rcases key _ _ h2 with h3 | h3
    · exact hv1 h3
    · exact hv3 h3
  · intro h
    have h2 : u ^ E * x ^ E = 1 * y ^ E := by rw [← mul_pow, h, one_mul]
    rcases key _ _ h2 with h3 | h3
    · exact hw1 h3
    · exact hw2 h3
  · intro h
    have h2 : (t ^ E * u ^ E) * x ^ E = 1 * y ^ E := by rw [← mul_pow, ← mul_pow, h, one_mul]
    rcases key _ _ h2 with h3 | h3
    · exact hw3 (by linear_combination (t ^ E) * h3 - (u ^ E) * hv2)
    · exact hw4 (by linear_combination (t ^ E) * h3 - (u ^ E) * hv2)
  · intro h
    have h2 : t ^ E * x ^ E = u ^ E * y ^ E := by rw [← mul_pow, h, mul_pow]
    rcases key _ _ h2 with h3 | h3
    · exact hw3 h3.symm
    · exact hw4 (by linear_combination h3)
  · intro h
    have h2 : t ^ E * x ^ E = (t ^ E * u ^ E) * y ^ E := by
      rw [← mul_pow, h, mul_pow, mul_pow]
    rcases key _ _ h2 with h3 | h3
    · exact hw1 (by linear_combination -(t ^ E) * h3 - (u ^ E - 1) * hv2)
    · exact hw2 (by linear_combination (t ^ E) * h3 - (u ^ E + 1) * hv2)
  · intro h
    have h2 : u ^ E * x ^ E = (t ^ E * u ^ E) * y ^ E := by
      rw [← mul_pow, h, mul_pow, mul_pow]
    rcases key _ _ h2 with h3 | h3
    · have h4 : u ^ E * t ^ E = u ^ E * 1 := by linear_combination -h3
      exact hv1 (hwu.mul_left_cancel h4)
    · have h4 : u ^ E * t ^ E = u ^ E * (-1) := by linear_combination h3
      exact hv3 (hwu.mul_left_cancel h4)

/-- With `m1` and `m2` coprime, an element whose `E`-th power is `-1` yields a unit whose
`E`-th power is `-1` modulo `m1` and `1` modulo `m2`. -/
theorem exists_split_unit {m1 m2 : Nat} (h : Nat.Coprime m1 m2) (E : Nat) (hE : E ≠ 0)
    (a0 : ZMod (m1 * m2)) (ha : a0 ^ E = -1) :
    ∃ t : ZMod (m1 * m2), IsUnit t ∧ ZMod.chineseRemainder h (t ^ E) = (-1, 1) := by
  have hu : IsUnit a0 := by
    rw [← isUnit_pow_iff hE, ha]
    exact isUnit_one.neg
  obtain ⟨b, hb⟩ := hu.exists_right_inv
  refine ⟨(ZMod.chineseRemainder h).symm ((ZMod.chineseRemainder h a0).1, 1), ?_, ?_⟩
  · refine isUnit_of_mul_eq_one _
      ((ZMod.chineseRemainder h).symm ((ZMod.chineseRemainder h b).1, 1)) ?_
    apply (ZMod.chineseRemainder h).injective
    rw [map_mul, RingEquiv.apply_symm_apply, RingEquiv.apply_symm_apply, Prod.mk_mul_mk,
      ← Prod.fst_mul, ← map_mul, hb, map_one, mul_one]
    rfl
  · rw [map_pow, RingEquiv.apply_symm_apply, Prod.pow_mk, ← Prod.pow_fst, ← map_pow, ha,
      map_neg, map_one, one_pow]
    rfl

/-- Two coprime odd factors: with some `E`-th power equal to `-1` and a unit modulo the
second factor whose `E`-th power is neither `1` nor `-1`, the elements whose `E`-th power
is `±1` are at most a quarter of the non-zero residues. -/
theorem two_factor_bound {n m1 m2 : Nat} (hn : n = m1 * m2) (h : Nat.Coprime m1 m2)
    (h1 : 1 < m1) (o1 : m1 % 2 = 1) (h2 : 1 < m2) (o2 : m2 % 2 = 1) (E : Nat) (hE : E ≠ 0)
    (a0 : ZMod n) (ha : a0 ^ E = -1)
    (y : ZMod m2) (hy : IsUnit y) (hy1 : y ^ E ≠ 1) (hy2 : y ^ E ≠ -1)
    (S : Finset (ZMod n)) (hS : ∀ x ∈ S, x ^ E = 1 ∨ x ^ E = -1) :
    4 * S.card ≤ n - 1 := by
  subst hn
  haveI : NeZero (m1 * m2) := ⟨by positivity⟩
  have hn1 : 1 < m1 * m2 := by nlinarith
  obtain ⟨t, ht, htE⟩ := exists_split_unit h E hE a0 ha
  obtain ⟨yi, hyi⟩ := hy.exists_right_inv
  have hu : IsUnit ((ZMod.chineseRemainder h).symm ((1 : ZMod m1), y)) := by
    refine isUnit_of_mul_eq_one _ ((ZMod.chineseRemainder h).symm ((1 : ZMod m1), yi)) ?_
    apply (ZMod.chineseRemainder h).injective
    rw [map_mul, RingEquiv.apply_symm_apply, RingEquiv.apply_symm_apply, Prod.mk_mul_mk,
      hyi, map_one, mul_one]
    rfl
  have huE : ZMod.chineseRemainder h
      ((ZMod.chineseRemainder h).symm ((1 : ZMod m1), y) ^ E) = (1, y ^ E) := by
    rw [map_pow, RingEquiv.apply_symm_apply, Prod.pow_mk, one_pow]
  have hne1 : (1 : ZMod m1) ≠ -1 := one_ne_neg_one h1 o1
  refine four_classes hn1 E S hS t _ ht hu ?_ ?_ ?_ ?_ ?_ ?_ ?_
  · apply (ZMod.chineseRemainder h).injective
    rw [map_mul, htE, map_one, Prod.mk_mul_mk, neg_mul_neg, mul_one, mul_one]
    rfl
  · intro hc
    rw [hc, map_one, Prod.one_eq_mk, Prod.mk.injEq] at htE
    exact hne1 htE.1
  · intro hc
    rw [hc, map_neg, map_one, Prod.one_eq_mk, Prod.neg_mk, Prod.mk.injEq] at htE
    exact one_ne_neg_one h2 o2 htE.2.symm
  · intro hc
    rw [hc, map_one, Prod.one_eq_mk, Prod.mk.injEq] at huE
    exact hy1 huE.2.symm
  · intro hc
    rw [hc, map_neg, map_one, Prod.one_eq_mk, Prod.neg_mk, Prod.mk.injEq] at huE
    exact hne1 huE.1.symm
  · intro hc
    rw [hc, htE, Prod.mk.injEq] at huE
    exact hne1 huE.1.symm
  · intro hc
    rw [hc, map_neg, htE, Prod.neg_mk, Prod.mk.injEq] at huE
    exact hy2 huE.2.symm

/-! ## Strong liars when a square divides `n` -/

/-- When `p * p` divides `n`, translating by the `c`-th power of `1 + n / p` moves every
solution of `x ^ (2 * (n - 1)) = 1` off the solutions, unless `p` divides `2 * c`. -/
theorem square_translate_ne {n p : Nat} (hp : p.Prime) (hpp : p * p ∣ n) (hn : 1 < n)
    (c : Nat) (hc : ¬ p ∣ 2 * c) (x y : ZMod n)
    (hx : x ^ (2 * (n - 1)) = 1) (hy : y ^ (2 * (n - 1)) = 1) :
    (1 + ((n / p : Nat) : ZMod n)) ^ c * x ≠ y := by
  intro h
  obtain ⟨-, hpow⟩ := unit_of_square_factor hp hpp (by omega : 0 < n)
  have h1 : ((1 + ((n / p : Nat) : ZMod n)) ^ c * x) ^ (2 * (n - 1)) = 1 := by rw [h, hy]
  rw [mul_pow, hx, mul_one, ← pow_mul, hpow, add_right_eq_self, ← Nat.cast_mul,
    ZMod.natCast_zmod_eq_zero_iff_dvd] at h1
  have hpn : p ∣ n := Dvd.dvd.trans (Dvd.intro _ rfl) hpp
  have hnp : n = p * (n / p) := (Nat.mul_div_cancel' hpn).symm
  have hq : 0 < n / p := Nat.div_pos (Nat.le_of_dvd (by omega) hpn) hp.pos
  have h2 : p * (n / p) ∣ (c * (2 * (n - 1))) * (n / p) := by
    rw [← hnp]; exact h1
  have h3 : p ∣ c * (2 * (n - 1)) := Nat.dvd_of_mul_dvd_mul_right hq h2
  have h4 : p ∣ (2 * c) * (n - 1) := by
    have : c * (2 * (n - 1)) = (2 * c) * (n - 1) := by ring
    rw [← this]; exact h3
  rcases (Nat.Prime.dvd_mul hp).mp h4 with h5 | h5
  · exact hc h5
  · have h6 : p ∣ n - (n - 1) := Nat.dvd_sub' hpn h5
    have h7 : n - (n - 1) = 1 := by omega
    rw [h7] at h6
    exact hp.one_lt.ne' (Nat.dvd_one.mp h6)

/-- Three pairwise disjoint translates of a set of units, together with a set of
non-units, fit into the `n` residues. -/
theorem three_translates {n : Nat} [NeZero n] (S Z : Finset (ZMod n))
    (hS : ∀ x ∈ S, IsUnit x) (hZ : ∀ z ∈ Z, ¬ IsUnit z)
    (t1 t2 : ZMod n) (u1 : IsUnit t1) (u2 : IsUnit t2)
    (hd : ∀ x ∈ S, ∀ y ∈ S, t1 * x ≠ y ∧ t2 * x ≠ y ∧ t1 * x ≠ t2 * y) :
    3 * S.card + Z.card ≤ n := by
  classical
  have hc : ∀ t : ZMod n, IsUnit t → (S.image (fun x => t * x)).card = S.card := by
    intro t ht
    exact Finset.card_image_of_injOn (fun x _ y _ hxy => ht.mul_left_cancel hxy)
  have hun : ∀ t : ZMod n, IsUnit t → ∀ y ∈ S.image (fun x => t * x), IsUnit y := by
    intro t ht y hy
    obtain ⟨x, hx, rfl⟩ := Finset.mem_image.mp hy
    exact ht.mul (hS x hx)
  have d01 : Disjoint S (S.image (fun x => t1 * x)) := by
    rw [Finset.disjoint_right]
    intro y hy hyS
    obtain ⟨x, hx, rfl⟩ := Finset.mem_image.mp hy
    exact (hd x hx _ hyS).1 rfl
  have d02 : Disjoint S (S.image (fun x => t2 * x)) := by
    rw [Finset.disjoint_right]
    intro y hy hyS
    obtain ⟨x, hx, rfl⟩ := Finset.mem_image.mp hy
    exact (hd x hx _ hyS).2.1 rfl
  have d12 : Disjoint (S.image (fun x => t1 * x)) (S.image (fun x => t2 * x)) := by
    rw [Finset.disjoint_left]
    intro y hy hy2
    obtain ⟨x, hx, rfl⟩ := Finset.mem_image.mp hy
    obtain ⟨z, hz, hzx⟩ := Finset.mem_image.mp hy2
    exact (hd x hx z hz).2.2 hzx.symm
  have hU : ∀ y ∈ S ∪ S.image (fun x => t1 * x) ∪ S.image (fun x => t2 * x), IsUnit y := by
    intro y hy
    simp only [Finset.mem_union] at hy
    rcases hy with (h | h) | h
    · exact hS y h
    · exact hun t1 u1 y h
    · exact hun t2 u2 y h
  have dZ : Disjoint (S ∪ S.image (fun x => t1 * x) ∪ S.image (fun x => t2 * x)) Z := by
    rw [Finset.disjoint_left]
    intro y hy hz
    exact hZ y hz (hU y hy)
  have hcard := Finset.card_le_card (Finset.subset_univ
    ((S ∪ S.image (fun x => t1 * x) ∪ S.image (fun x => t2 * x)) ∪ Z))
  rw [Finset.card_union_of_disjoint dZ, Finset.card_union_of_disjoint,
    Finset.card_union_of_disjoint d01, hc t1 u1, hc t2 u2, Finset.card_univ, ZMod.card] at hcard
  · omega
  · exact Finset.disjoint_union_left.mpr ⟨d02, d12⟩

/-- Square factor: when `p * p` divides the odd number `n`, the solutions of
`x ^ (2 * (n - 1)) = 1` are at most a quarter of the non-zero residues. -/
theorem square_factor_bound {n p : Nat} (hp : p.Prime) (hpp : p * p ∣ n) (hodd : n % 2 = 1)
    (S : Finset (ZMod n)) (hS : ∀ x ∈ S, x ^ (2 * (n - 1)) = 1) :
    4 * S.card ≤ n - 1 := by
  classical
  have hn0 : n ≠ 0 := by omega
  have hpn : p ∣ n := Dvd.dvd.trans (Dvd.intro _ rfl) hpp
  have hp2 : 2 ≤ p := hp.two_le
  have hn4 : 4 ≤ n := by
    have := Nat.le_of_dvd (by omega) hpp
    nlinarith
  have hn : 1 < n := by omega
  haveI : NeZero n := ⟨hn0⟩
  haveI : Fact (1 < n) := ⟨hn⟩
  have hpodd : p % 2 = 1 := by
    rcases Nat.mod_two_eq_zero_or_one p with h | h
    · exfalso
      have h2n : 2 ∣ n := Dvd.dvd.trans (Nat.dvd_of_mod_eq_zero h) hpn
      omega
    · exact h
  obtain ⟨hb, -⟩ := unit_of_square_factor hp hpp (by omega : 0 < n)
  have hF : 2 * (n - 1) ≠ 0 := by omega
  have hSu : ∀ x ∈ S, IsUnit x := by
    intro x hx
    rw [← isUnit_pow_iff hF, hS x hx]
    exact isUnit_one
  have hnd : ∀ c, 0 < c → c < p → ¬ p ∣ 2 * c := by
    intro c hc0 hcp hd
    rcases (Nat.Prime.dvd_mul hp).mp hd with h | h
    · have := Nat.le_of_dvd (by decide) h
      omega
    · have := Nat.le_of_dvd hc0 h
      omega
  have key : ∀ c, ¬ p ∣ 2 * c → ∀ x ∈ S, ∀ y ∈ S,
      (1 + ((n / p : Nat) : ZMod n)) ^ c * x ≠ y :=
    fun c hc x hx y hy => square_translate_ne hp hpp hn c hc x y (hS x hx) (hS y hy)
  have shift : ∀ k c, ¬ p ∣ 2 * c → ∀ x ∈ S, ∀ y ∈ S,
      (1 + ((n / p : Nat) : ZMod n)) ^ k * x ≠ (1 + ((n / p : Nat) : ZMod n)) ^ (k + c) * y := by
    intro k c hc x hx y hy h
    rw [pow_add, mul_assoc] at h
    exact key c hc y hy x hx ((hb.pow k).mul_left_cancel h).symm
  by_cases h3 : p = 3
  · subst h3
    have hZ : ∀ z ∈ (Finset.range (n / 3)).image (fun k : Nat => ((3 * k : Nat) : ZMod n)),
        ¬ IsUnit z := by
      intro z hz hu
      obtain ⟨k, -, rfl⟩ := Finset.mem_image.mp hz
      rw [ZMod.isUnit_iff_coprime] at hu
      have h3g : 3 ∣ Nat.gcd (3 * k) n := Nat.dvd_gcd (Dvd.intro _ rfl) hpn
      rw [hu] at h3g
      omega
    have hZc : ((Finset.range (n / 3)).image
        (fun k : Nat => ((3 * k : Nat) : ZMod n))).card = n / 3 := by
      rw [Finset.card_image_of_injOn, Finset.card_range]
      intro a ha b hb2 hab
      simp only [Finset.coe_range, Set.mem_Iio] at ha hb2
      have hlt : ∀ k, k < n / 3 → 3 * k < n := by
        intro k hk
        have := Nat.div_mul_le_self n 3
        omega
      rw [ZMod.natCast_eq_natCast_iff', Nat.mod_eq_of_lt (hlt a ha),
        Nat.mod_eq_of_lt (hlt b hb2)] at hab
      omega
    have h := three_translates S _ hSu hZ _ _ (hb.pow 1) (hb.pow 2) ?_
    · rw [hZc] at h
      obtain ⟨c, hc⟩ := hpp
      omega
    · intro x hx y hy
      refine ⟨key 1 (by omega) x hx y hy, key 2 (by omega) x hx y hy, ?_⟩
      exact shift 1 1 (by omega) x hx y hy
  · have hp5 : 5 ≤ p := by
      rcases Nat.lt_or_ge p 5 with h | h
      · exfalso
        have h4 : p ≠ 4 := by omega
        omega
      · exact h
    refine four_translates S ?_ _ _ _ (hb.pow 1) (hb.pow 2) (hb.pow 3) ?_
    · intro h0
      exact not_isUnit_zero (hSu 0 h0)
    · intro x hx y hy
      exact ⟨key 1 (hnd 1 (by omega) (by omega)) x hx y hy,
        key 2 (hnd 2 (by omega) (by omega)) x hx y hy,
        key 3 (hnd 3 (by omega) (by omega)) x hx y hy,
        shift 1 1 (hnd 1 (by omega) (by omega)) x hx y hy,
        shift 1 2 (hnd 2 (by omega) (by omega)) x hx y hy,
        shift 2 1 (hnd 1 (by omega) (by omega)) x hx y hy⟩

/-! ## Strong liars modulo a product of two primes -/

/-- An exponent that sends every non-zero residue modulo a prime to 1 is a multiple of
`p - 1`. -/
theorem pred_dvd_of_forall_pow {p : Nat} (hp : p.Prime) (m : Nat)
    (h : ∀ y : ZMod p, y ≠ 0 → y ^ m = 1) : (p - 1) ∣ m := by
  haveI : Fact p.Prime := ⟨hp⟩
  obtain ⟨g, hg⟩ := @IsCyclic.exists_generator (ZMod p)ˣ _ _
  have ho : orderOf g = p - 1 := by
    rw [orderOf_eq_card_of_forall_mem_zpowers hg, Nat.card_eq_fintype_card, ZMod.card_units]
  rw [← ho]
  apply orderOf_dvd_of_pow_eq_one
  apply Units.ext
  rw [Units.val_pow_eq_pow_val, Units.val_one]
  exact h _ g.ne_zero

/-- A residue modulo an odd prime whose `2 ^ J`-th power is `-1` has order `2 ^ (J + 1)`,
which therefore divides `p - 1`. -/
theorem two_pow_dvd_pred {p : Nat} (hp : p.Prime) (hp2 : p ≠ 2) (z : ZMod p) (J : Nat)
    (hz : z ^ 2 ^ J = -1) : 2 ^ (J + 1) ∣ p - 1 := by
  haveI : Fact p.Prime := ⟨hp⟩
  haveI : Fact (Nat.Prime 2) := ⟨Nat.prime_two⟩
  have hodd : p % 2 = 1 := by
    rcases hp.eq_two_or_odd with h | h
    · exact absurd h hp2
    · exact h
  have hne : (1 : ZMod p) ≠ -1 := one_ne_neg_one hp.one_lt hodd
  have hz0 : z ≠ 0 := by
    intro h0
    rw [h0, zero_pow (by positivity)] at hz
    have := neg_eq_zero.mp hz.symm
    exact one_ne_zero this
  have ho : orderOf z = 2 ^ (J + 1) := by
    apply orderOf_eq_prime_pow
    · rw [hz]
      exact fun h => hne h.symm
    · rw [pow_succ, pow_mul, hz]
      norm_num
  rw [← ho]
  exact orderOf_dvd_of_pow_eq_one (ZMod.pow_card_sub_one_eq_one hz0)

/-- If `M` divides `p - 1` and `q - 1`, it divides `p * q - 1`. -/
theorem dvd_mul_pred {M p q : Nat} (hp : 1 ≤ p) (hq : 1 ≤ q) (h1 : M ∣ p - 1)
    (h2 : M ∣ q - 1) : M ∣ p * q - 1 := by
  have e : p * q - 1 = (p - 1) * q + (q - 1) := by
    obtain ⟨a, rfl⟩ : ∃ a, p = a + 1 := ⟨p - 1, by omega⟩
    obtain ⟨b, rfl⟩ : ∃ b, q = b + 1 := ⟨q - 1, by omega⟩
    simp only [Nat.add_sub_cancel]
    have : (a + 1) * (b + 1) = a * (b + 1) + b + 1 := by ring
    omega
  rw [e]
  exact Dvd.dvd.add (Dvd.dvd.mul_right h1 q) h2

/-- If `p - 1` divides `p * q - 1`, it divides `q - 1`. -/
theorem pred_dvd_pred {p q : Nat} (hp : 1 ≤ p) (hq : 1 ≤ q) (h : (p - 1) ∣ p * q - 1) :
    (p - 1) ∣ q - 1 := by
  have e : p * q - 1 = (p - 1) * q + (q - 1) := by
    obtain ⟨a, rfl⟩ : ∃ a, p = a + 1 := ⟨p - 1, by omega⟩
    obtain ⟨b, rfl⟩ : ∃ b, q = b + 1 := ⟨q - 1, by omega⟩
    simp only [Nat.add_sub_cancel]
    have : (a + 1) * (b + 1) = a * (b + 1) + b + 1 := by ring
    omega
  rw [e] at h
  exact (Nat.dvd_add_right (Dvd.intro _ rfl)).mp h

/-- A product of two distinct odd primes: the elements whose `d * 2 ^ J`-th power is `±1`
are at most a quarter of the non-zero residues, when some such power is `-1`. -/
theorem two_prime_bound {n p q : Nat} (hn : n = p * q) (hp : p.Prime) (hq : q.Prime)
    (hpq : p ≠ q) (hp2 : p ≠ 2) (hq2 : q ≠ 2) (d s J : Nat) (hd : d % 2 = 1)
    (hds : n - 1 = d * 2 ^ s) (a0 : ZMod n) (ha : a0 ^ (d * 2 ^ J) = -1)
    (S : Finset (ZMod n)) (hS : ∀ x ∈ S, x ^ (d * 2 ^ J) = 1 ∨ x ^ (d * 2 ^ J) = -1) :
    4 * S.card ≤ n - 1 := by
  have hpo : p % 2 = 1 := (hp.eq_two_or_odd).resolve_left hp2
  have hqo : q % 2 = 1 := (hq.eq_two_or_odd).resolve_left hq2
  have hcop : Nat.Coprime p q := (Nat.coprime_primes hp hq).mpr hpq
  have hE : d * 2 ^ J ≠ 0 := by
    have : 0 < d := by omega
    positivity
  by_cases hy : ∃ y : ZMod q, IsUnit y ∧ y ^ (d * 2 ^ J) ≠ 1 ∧ y ^ (d * 2 ^ J) ≠ -1
  · obtain ⟨y, hyu, hy1, hy2⟩ := hy
    exact two_factor_bound hn hcop hp.one_lt hpo hq.one_lt hqo _ hE a0 ha y hyu hy1 hy2 S hS
  by_cases hy2 : ∃ y : ZMod p, IsUnit y ∧ y ^ (d * 2 ^ J) ≠ 1 ∧ y ^ (d * 2 ^ J) ≠ -1
  · obtain ⟨y, hyu, hy1, hy2⟩ := hy2
    exact two_factor_bound (hn.trans (Nat.mul_comm p q)) hcop.symm hq.one_lt hqo hp.one_lt hpo
      _ hE a0 ha y hyu hy1 hy2 S hS
  exfalso
  haveI : Fact p.Prime := ⟨hp⟩
  haveI : Fact q.Prime := ⟨hq⟩
  have hall : ∀ r : Nat, r.Prime →
      (¬ ∃ y : ZMod r, IsUnit y ∧ y ^ (d * 2 ^ J) ≠ 1 ∧ y ^ (d * 2 ^ J) ≠ -1) →
      (r - 1) ∣ d * 2 ^ (J + 1) := by
    intro r hr hno
    haveI : Fact r.Prime := ⟨hr⟩
    apply pred_dvd_of_forall_pow hr
    intro y hy0
    have hu : IsUnit y := IsUnit.mk0 y hy0
    have e : d * 2 ^ (J + 1) = d * 2 ^ J * 2 := by ring
    rw [e, pow_mul]
    by_cases h1 : y ^ (d * 2 ^ J) = 1
    · rw [h1]; norm_num
    · by_cases h2 : y ^ (d * 2 ^ J) = -1
      · rw [h2]; norm_num
      · exact absurd ⟨y, hu, h1, h2⟩ hno
  have hp1 := hall p hp hy2
  have hq1 := hall q hq hy
  subst hn
  have hzp : ((ZMod.castHom (Dvd.intro q rfl : p ∣ p * q) (ZMod p)) a0 ^ d) ^ 2 ^ J = -1 := by
    rw [← pow_mul, ← map_pow, ha, map_neg, map_one]
  have hzq : ((ZMod.castHom (Dvd.intro_left p rfl : q ∣ p * q) (ZMod q)) a0 ^ d) ^ 2 ^ J
      = -1 := by
    rw [← pow_mul, ← map_pow, ha, map_neg, map_one]
  have h2p := two_pow_dvd_pred hp hp2 _ J hzp
  have h2q := two_pow_dvd_pred hq hq2 _ J hzq
  have h2n : 2 ^ (J + 1) ∣ d * 2 ^ s := by
    rw [← hds]
    exact dvd_mul_pred hp.pos hq.pos h2p h2q
  have hJ : J + 1 ≤ s := by
    have hc : Nat.Coprime (2 ^ (J + 1)) d := by
      apply Nat.Coprime.pow_left
      exact (Nat.Prime.coprime_iff_not_dvd Nat.prime_two).mpr (by omega)
    have := hc.dvd_of_dvd_mul_left h2n
    exact (Nat.pow_dvd_pow_iff_le_right (by decide)).mp this
  have hEn : d * 2 ^ (J + 1) ∣ p * q - 1 := by
    rw [hds]
    exact Nat.mul_dvd_mul_left d (pow_dvd_pow 2 hJ)
  have hpq1 : (p - 1) ∣ q - 1 := pred_dvd_pred hp.pos hq.pos (hp1.trans hEn)
  have hqp1 : (q - 1) ∣ p - 1 := by
    apply pred_dvd_pred hq.pos hp.pos
    rw [Nat.mul_comm]
    exact hq1.trans hEn
  have := Nat.dvd_antisymm hpq1 hqp1
  have := hp.pos
  have := hq.pos
  omega

/-! ## The count of strong liars -/

/-- Rabin's bound: for an odd composite `n` with `n - 1 = d * 2 ^ s`, `d` odd, the
residues `x` with `x ^ d = 1` or `x ^ (d * 2 ^ j) = -1` for some `j ≤ s` are at most a
quarter of the `n - 1` non-zero residues. -/
theorem strong_liar_count {n : Nat} (hodd : n % 2 = 1) (h1 : 1 < n) (hcomp : ¬ n.Prime)
    (d s : Nat) (hd : d % 2 = 1) (hds : n - 1 = d * 2 ^ s) (S : Finset (ZMod n))
    (hS : ∀ x ∈ S, x ^ d = 1 ∨ ∃ j, j ≤ s ∧ x ^ (d * 2 ^ j) = -1) :
    4 * S.card ≤ n - 1 := by
  classical
  have hP0 : ∃ a : ZMod n, a ^ (d * 2 ^ 0) = -1 := by
    refine ⟨-1, ?_⟩
    rw [pow_zero, mul_one]
    exact Odd.neg_one_pow (Nat.odd_iff.mpr hd)
  have hJ := @Nat.findGreatest_spec 0 (fun j => ∃ a : ZMod n, a ^ (d * 2 ^ j) = -1) _ s
    (Nat.zero_le s) hP0
  have hJs : Nat.findGreatest (fun j => ∃ a : ZMod n, a ^ (d * 2 ^ j) = -1) s ≤ s :=
    Nat.findGreatest_le s
  have hmax : ∀ j, j ≤ s → (∃ a : ZMod n, a ^ (d * 2 ^ j) = -1) →
      j ≤ Nat.findGreatest (fun j => ∃ a : ZMod n, a ^ (d * 2 ^ j) = -1) s :=
    fun j hj hP => Nat.le_findGreatest hj hP
  generalize Nat.findGreatest (fun j => ∃ a : ZMod n, a ^ (d * 2 ^ j) = -1) s = J
    at hJ hJs hmax
  obtain ⟨a0, ha⟩ := hJ
  have hE : d * 2 ^ J ≠ 0 := by
    have : 0 < d := by omega
    positivity
  have hSE : ∀ x ∈ S, x ^ (d * 2 ^ J) = 1 ∨ x ^ (d * 2 ^ J) = -1 := by
    intro x hx
    rcases hS x hx with h | ⟨j, hj, h⟩
    · left
      rw [pow_mul, h, one_pow]
    · have hjJ := hmax j hj ⟨x, h⟩
      obtain ⟨k, rfl⟩ := Nat.exists_eq_add_of_le hjJ
      rw [pow_add, ← mul_assoc, pow_mul, h]
      rcases Nat.eq_zero_or_pos k with hk | hk
      · right
        rw [hk, pow_zero, pow_one]
      · left
        obtain ⟨k2, rfl⟩ : ∃ k2, k = k2 + 1 := ⟨k - 1, by omega⟩
        rw [pow_succ', pow_mul]
        norm_num
  have hS2 : ∀ x ∈ S, x ^ (2 * (n - 1)) = 1 := by
    intro x hx
    obtain ⟨k, hk⟩ := Nat.exists_eq_add_of_le hJs
    have e : 2 * (n - 1) = d * 2 ^ J * 2 * 2 ^ k := by
      rw [hds, hk, pow_add]; ring
    rw [e, pow_mul, pow_mul]
    rcases hSE x hx with h | h
    · rw [h]; norm_num
    · rw [h]; norm_num
  obtain ⟨p, m, hp, hp2, hn, hm1, hmo⟩ := odd_composite_split hodd h1 hcomp
  have hpo : p % 2 = 1 := (hp.eq_two_or_odd).resolve_left hp2
  by_cases hpm : p ∣ m
  · refine square_factor_bound hp ?_ hodd S hS2
    rw [hn]
    exact Nat.mul_dvd_mul_left p hpm
  have hcop : Nat.Coprime p m := (Nat.Prime.coprime_iff_not_dvd hp).mpr hpm
  by_cases hmp : m.Prime
  · have hne : p ≠ m := fun h => hpm (h ▸ dvd_rfl)
    have hm2 : m ≠ 2 := by omega
    exact two_prime_bound hn hp hmp hne hp2 hm2 d s J hd hds a0 ha S hSE
  obtain ⟨q, m2, hq, hq2, hm, hm21, hm2o⟩ := odd_composite_split hmo hm1 hmp
  have hqo : q % 2 = 1 := (hq.eq_two_or_odd).resolve_left hq2
  by_cases hqm : q ∣ m2
  · refine square_factor_bound hq ?_ hodd S hS2
    rw [hn, hm]
    exact Dvd.dvd.mul_left (Nat.mul_dvd_mul_left q hqm) p
  have hcop2 : Nat.Coprime q m2 := (Nat.Prime.coprime_iff_not_dvd hq).mpr hqm
  subst hm
  have hdvd : q * m2 ∣ n := ⟨p, by rw [hn]; ring⟩
  have ham : (ZMod.castHom hdvd (ZMod (q * m2))) a0 ^ (d * 2 ^ J) = -1 := by
    rw [← map_pow, ha, map_neg, map_one]
  obtain ⟨y, hyu, hyE⟩ := exists_split_unit hcop2 _ hE _ ham
  refine two_factor_bound hn hcop hp.one_lt hpo hm1 hmo _ hE a0 ha y hyu ?_ ?_ S hSE
  · intro hc
    rw [hc, map_one, Prod.one_eq_mk, Prod.mk.injEq] at hyE
    exact one_ne_neg_one hq.one_lt hqo hyE.1
  · intro hc
    rw [hc, map_neg, map_one, Prod.one_eq_mk, Prod.neg_mk, Prod.mk.injEq] at hyE
    exact one_ne_neg_one hm21 hm2o hyE.2.symm


/-! ## Miller-Rabin: at most a quarter of the draws pass a composite -/

/-- With fuel for the `s` doublings of `temp`, the squaring loop returns 0 or 1. -/
theorem miller_loop_total {n d s : Nat} (hds : n - 1 = d * 2 ^ s) :
    ∀ (fuel x temp j : Nat), temp = d * 2 ^ j → j ≤ s → s - j ≤ fuel →
      miller_loop fuel x temp n = Run.done 0 ∨ miller_loop fuel x temp n = Run.done 1 := by
  intro fuel
  induction fuel with
  | zero =>
    intro x temp j ht hj hf
    have hjs : j = s := by omega
    left
    unfold miller_loop
    rw [if_pos (by rw [ht, hjs, hds])]
  | succ fuel ih =>
    intro x temp j ht hj hf
    unfold miller_loop
    by_cases h1 : temp = n - 1
    · left; rw [if_pos h1]
    · rw [if_neg h1]
      have hjs : j ≠ s := by
        intro h
        apply h1
        rw [ht, h, hds]
      simp only []
      by_cases h2 : x * x % n = 1
      · left; rw [if_pos h2]
      · rw [if_neg h2]
        by_cases h3 : x * x % n = n - 1
        · right; rw [if_pos h3]
        · rw [if_neg h3]
          exact ih _ (temp * 2) (j + 1) (by rw [ht, pow_succ, mul_assoc]) (by omega) (by omega)

/-- When the squaring loop returns 1, some repeated square of `x` is `n - 1`, reached
before `temp` passes `n - 1`. -/
theorem miller_loop_accepts {n d s : Nat} (hds : n - 1 = d * 2 ^ s) :
    ∀ (fuel x temp j : Nat), temp = d * 2 ^ j → j ≤ s →
      miller_loop fuel x temp n = Run.done 1 →
      ∃ i, j + i ≤ s ∧ x ^ 2 ^ i % n = n - 1 := by
  intro fuel
  induction fuel with
  | zero =>
    intro x temp j ht hj h
    unfold miller_loop at h
    by_cases h1 : temp = n - 1
    · rw [if_pos h1] at h
      simp at h
    · rw [if_neg h1] at h
      simp at h
  | succ fuel ih =>
    intro x temp j ht hj h
    unfold miller_loop at h
    by_cases h1 : temp = n - 1
    · rw [if_pos h1] at h
      simp at h
    · rw [if_neg h1] at h
      have hjs : j ≠ s := by
        intro hh
        apply h1
        rw [ht, hh, hds]
      simp only [] at h
      by_cases h2 : x * x % n = 1
      · rw [if_pos h2] at h
        simp at h
      · rw [if_neg h2] at h
        by_cases h3 : x * x % n = n - 1
        · refine ⟨1, by omega, ?_⟩
          rw [pow_one, pow_two]
          exact h3
        · rw [if_neg h3] at h
          obtain ⟨i, hi, hx⟩ := ih _ (temp * 2) (j + 1) (by rw [ht, pow_succ, mul_assoc])
            (by omega) h
          refine ⟨i + 1, by omega, ?_⟩
          rw [pow_succ', pow_mul, Nat.pow_mod, pow_two]
          exact hx

/-- With fuel for `s` doublings, a round of `millerTest` returns 0 or 1. -/
theorem miller_round_total {n d s : Nat} (hds : n - 1 = d * 2 ^ s) (fuel r : Nat)
    (hf : s ≤ fuel) :
    miller_round fuel d n r = Run.done 0 ∨ miller_round fuel d n r = Run.done 1 := by
  unfold miller_round
  simp only []
  split
  · right; rfl
  · exact miller_loop_total hds fuel _ d 0 (by simp) (Nat.zero_le s) (by omega)

/-- A round of `millerTest` that returns 1 has drawn a strong liar. -/
theorem miller_round_liar {n d s : Nat} (h1 : 1 < n) (hds : n - 1 = d * 2 ^ s)
    (fuel r : Nat) (h : miller_round fuel d n r = Run.done 1) :
    ((miller_base r : Nat) : ZMod n) ^ d = 1 ∨
      ∃ j, j ≤ s ∧ ((miller_base r : Nat) : ZMod n) ^ (d * 2 ^ j) = -1 := by
  have hlt : miller_base r ^ d % n < n := Nat.mod_lt _ (by omega)
  have hcast : ((miller_base r ^ d % n : Nat) : ZMod n) = ((miller_base r : Nat) : ZMod n) ^ d := by
    rw [ZMod.natCast_mod, Nat.cast_pow]
  unfold miller_round at h
  simp only [mpz_powm_eq] at h
  by_cases hx1 : miller_base r ^ d % n = 1
  · left
    rw [← hcast, hx1, Nat.cast_one]
  by_cases hx2 : miller_base r ^ d % n = n - 1
  · right
    refine ⟨0, Nat.zero_le s, ?_⟩
    rw [pow_zero, mul_one, ← hcast]
    exact (natCast_eq_neg_one_iff h1 hlt).mpr hx2
  · rw [if_neg (by tauto)] at h
    obtain ⟨i, hi, hx⟩ := miller_loop_accepts hds fuel _ d 0 (by simp) (Nat.zero_le s) h
    right
    refine ⟨i, by omega, ?_⟩
    rw [pow_mul, ← hcast, ← Nat.cast_pow, ← ZMod.natCast_mod]
    exact (natCast_eq_neg_one_iff h1 (Nat.mod_lt _ (by omega))).mpr hx

/-- The draws of one `millerTest` round that an odd composite survives are at most a
quarter of all draws. -/
theorem miller_round_count {n d s : Nat} (hodd : n % 2 = 1) (h3 : 3 < n) (hcomp : ¬ n.Prime)
    (hd : d % 2 = 1) (hds : n - 1 = d * 2 ^ s) (fuel : Nat) :
    4 * ((Finset.range (n - 1)).filter
      (fun r => miller_round fuel d n r = Run.done 1)).card ≤ n - 1 := by
  classical
  haveI : NeZero n := ⟨by omega⟩
  have h1 : 1 < n := by omega
  have hinj : Set.InjOn
      (fun r : Nat => if r = 0 then (1 : ZMod n) else if r = 1 then -1 else (r : ZMod n))
      ((Finset.range (n - 1)).filter
        (fun r => miller_round fuel d n r = Run.done 1) : Finset Nat) := by
    have hone : ∀ r : Nat, 2 ≤ r → r < n - 1 → (r : ZMod n) ≠ 1 := by
      intro r h2 hr hc
      have := (natCast_eq_one_iff h1 (show r < n by omega)).mp hc
      omega
    have hneg : ∀ r : Nat, 2 ≤ r → r < n - 1 → (r : ZMod n) ≠ -1 := by
      intro r h2 hr hc
      have := (natCast_eq_neg_one_iff h1 (show r < n by omega)).mp hc
      omega
    have hne : (1 : ZMod n) ≠ -1 := one_ne_neg_one h1 hodd
    intro r hr r2 hr2 heq
    simp only [Finset.coe_filter, Finset.mem_range, Set.mem_setOf_eq] at hr hr2
    by_cases a0 : r = 0
    · by_cases b0 : r2 = 0
      · omega
      · by_cases b1 : r2 = 1
        · simp only [a0, b1, if_true, if_false, one_ne_zero] at heq
          exact absurd heq hne
        · simp only [a0, b0, b1, if_true, if_false] at heq
          exact absurd heq.symm (hone r2 (by omega) hr2.1)
    · by_cases a1 : r = 1
      · by_cases b0 : r2 = 0
        · simp only [a1, b0, if_true, if_false, one_ne_zero] at heq
          exact absurd heq.symm hne
        · by_cases b1 : r2 = 1
          · omega
          · simp only [a1, b0, b1, if_true, if_false, one_ne_zero] at heq
            exact absurd heq.symm (hneg r2 (by omega) hr2.1)
      · by_cases b0 : r2 = 0
        · simp only [a0, a1, b0, if_true, if_false] at heq
          exact absurd heq (hone r (by omega) hr.1)
        · by_cases b1 : r2 = 1
          · simp only [a0, a1, b1, if_true, if_false, one_ne_zero] at heq
            exact absurd heq (hneg r (by omega) hr.1)
          · simp only [a0, a1, b0, b1, if_false] at heq
            rw [ZMod.natCast_eq_natCast_iff', Nat.mod_eq_of_lt (by omega),
              Nat.mod_eq_of_lt (by omega)] at heq
            exact heq
  rw [← Finset.card_image_of_injOn hinj]
  apply strong_liar_count hodd h1 hcomp d s hd hds
  intro x hx
  obtain ⟨r, hr, rfl⟩ := Finset.mem_image.mp hx
  rw [Finset.mem_filter] at hr
  by_cases a0 : r = 0
  · left
    simp [a0]
  · by_cases a1 : r = 1
    · right
      refine ⟨0, Nat.zero_le s, ?_⟩
      simp only [a1, if_true, if_false, one_ne_zero, pow_zero, mul_one]
      exact Odd.neg_one_pow (Nat.odd_iff.mpr hd)
    · have hb : miller_base r = r := by
        unfold miller_base
        rw [if_neg (by omega)]
      have := miller_round_liar h1 hds fuel r hr.2
      rw [hb] at this
      simp only [a0, a1, if_false]
      exact this

/-- A run of `k` rounds of `millerTest` that ends with a non-zero answer got 1 from every
round. -/
theorem isPrime_rounds_accepted {n d s : Nat} (hds : n - 1 = d * 2 ^ s) (fuel : Nat)
    (hf : s ≤ fuel) (k : Nat) (st : gmp_randstate_t)
    (h : Run.accepted (isPrime_rounds fuel d n k st) = true) :
    ∀ i, i < k → miller_round fuel d n (st i % (n - 1)) = Run.done 1 := by
  induction k generalizing st with
  | zero => intro i hi; omega
  | succ k ih =>
    intro i hi
    unfold isPrime_rounds millerTest mpz_urandomm at h
    by_cases h0 : n - 1 = 0
    · simp [h0, Run.accepted] at h
    · simp only [h0, if_false] at h
      rcases miller_round_total hds fuel (st 0 % (n - 1)) hf with hr | hr
      · simp [hr, Run.accepted] at h
      · simp only [hr] at h
        cases i with
        | zero => exact hr
        | succ j =>
          have := ih (rand_advance st) (by simpa using h) j (by omega)
          simpa [rand_advance] using this

/-- C16: for an odd composite `n > 3` with `n - 1 = d * 2 ^ s`, `d` odd, and fuel for the
`s` doublings, every draw makes `millerTest` return 0 or 1, at most a quarter of the
`n - 1` draws `r` make it return 1, and `isPrime` with `k` rounds answers non-zero for at
most a `4^-k` fraction of the sequences of `k` draws. -/
theorem miller_rabin_error_bound (n d s fuel : Nat) (hodd : n % 2 = 1) (h3 : 3 < n)
    (hcomp : ¬ n.Prime) (hd : d % 2 = 1) (hds : n - 1 = d * 2 ^ s) (hf : s ≤ fuel) :
    (∀ r, miller_round fuel d n r = Run.done 0 ∨ miller_round fuel d n r = Run.done 1) ∧
      4 * ((Finset.range (n - 1)).filter
        (fun r => miller_round fuel d n r = Run.done 1)).card ≤ n - 1 ∧
      ∀ k : Nat, 4 ^ k * ((Fintype.piFinset (fun _ : Fin k => Finset.range (n - 1))).filter
        (fun f => Run.accepted
          (isPrime fuel (n : Int) (k : Int) (stream_of_draws k f)) = true)).card
        ≤ (n - 1) ^ k := by
  refine ⟨fun r => miller_round_total hds fuel r hf,
    miller_round_count hodd h3 hcomp hd hds fuel, fun k => ?_⟩
  classical
  refine sequence_count (n - 1) k 4 (fun r => decide (miller_round fuel d n r = Run.done 1))
    (by simpa using miller_round_count hodd h3 hcomp hd hds fuel) _ ?_
  intro f hlt hacc i
  have hn1 : ¬ ((n : Int) ≤ 1) := by omega
  have hn3 : ¬ ((n : Int) ≤ 3) := by omega
  unfold isPrime at hacc
  simp only [hn1, hn3, if_false, Int.toNat_ofNat] at hacc
  rw [hds, Nat.mul_comm, Nat.mul_comm (2 ^ s) d, odd_part_loop_spec s fuel d hd hf] at hacc
  have h := isPrime_rounds_accepted hds fuel hf k _ hacc i.1 i.2
  rw [stream_of_draws_apply, Nat.mod_eq_of_lt (hlt i)] at h
  simpa using h

/-- Witness for C16 at `25 = 3 * 2 ^ 3 + 1`: the bound holds there, and the draw 7 is one
of those that make `millerTest` return 1. -/
theorem miller_rabin_error_bound_witness :
    (25 % 2 = 1 ∧ 3 < 25 ∧ ¬ Nat.Prime 25 ∧ 3 % 2 = 1 ∧ 25 - 1 = 3 * 2 ^ 3 ∧ 3 ≤ 3 ∧
        miller_round 3 3 25 7 = Run.done 1) ∧
      ((∀ r, miller_round 3 3 25 r = Run.done 0 ∨ miller_round 3 3 25 r = Run.done 1) ∧
        4 * ((Finset.range (25 - 1)).filter
          (fun r => miller_round 3 3 25 r = Run.done 1)).card ≤ 25 - 1 ∧
        ∀ k : Nat, 4 ^ k * ((Fintype.piFinset (fun _ : Fin k => Finset.range (25 - 1))).filter
          (fun f => Run.accepted
            (isPrime 3 ((25 : Nat) : Int) (k : Int) (stream_of_draws k f)) = true)).card
          ≤ (25 - 1) ^ k) :=
  ⟨⟨by decide, by decide, by norm_num, by decide, by decide, by decide, by decide⟩,
    miller_rabin_error_bound 25 3 3 3 (by decide) (by decide) (by norm_num) (by decide)
      (by decide) (by decide)⟩


/-! ## The decomposition `n - 1 = d * 2 ^ s` -/

/-- With fewer than `s` iterations allowed, the halving loop has not finished on
`o * 2 ^ s`. -/
theorem odd_part_loop_short (s : Nat) : ∀ (fuel o : Nat), fuel < s →
    odd_part_loop fuel (o * 2 ^ s) = Run.out_of_fuel := by
  induction s with
  | zero => intro fuel o h; omega
  | succ s ih =>
    intro fuel o hf
    have heven : o * 2 ^ (s + 1) % 2 = 0 := by
      rw [pow_succ, ← mul_assoc]
      exact Nat.mul_mod_left _ _
    have hhalf : o * 2 ^ (s + 1) / 2 = o * 2 ^ s := by
      rw [pow_succ, ← mul_assoc]
      exact Nat.mul_div_cancel _ (by norm_num)
    cases fuel with
    | zero =>
      unfold odd_part_loop
      rw [if_pos heven]
    | succ f =>
      unfold odd_part_loop
      rw [if_pos heven, hhalf]
      exact ih f o (by omega)

/-- A positive number is its odd part times `2` to its 2-adic valuation. -/
theorem odd_part_padic {m : Nat} (hm : 0 < m) :
    ∃ d, d % 2 = 1 ∧ d * 2 ^ padicValNat 2 m = m := by
  haveI : Fact (Nat.Prime 2) := ⟨Nat.prime_two⟩
  obtain ⟨d, hd⟩ := @pow_padicValNat_dvd 2 m
  refine ⟨d, ?_, by rw [Nat.mul_comm]; exact hd.symm⟩
  rcases Nat.mod_two_eq_zero_or_one d with h | h
  · exfalso
    apply @pow_succ_padicValNat_not_dvd 2 m _ (by omega)
    obtain ⟨c, hc⟩ := Nat.dvd_of_mod_eq_zero h
    exact ⟨c, by rw [pow_succ, mul_assoc, ← hc]; exact hd⟩
  · exact h

/-- C23: for every `n ≥ 2` the halving loop of `isPrime` and `main`, started on `n - 1`,
stops after exactly `s = v2(n - 1)` iterations (any larger `fuel` gives the result, any
smaller one does not), with `d` odd and `d * 2 ^ s = n - 1`. -/
theorem decomposition_loop_terminates (n : Nat) (hn : 2 ≤ n) :
    ∃ d s, d % 2 = 1 ∧ d * 2 ^ s = n - 1 ∧ s = padicValNat 2 (n - 1) ∧
      (∀ fuel, s ≤ fuel → odd_part_loop fuel (n - 1) = Run.done d) ∧
      (∀ fuel, fuel < s → odd_part_loop fuel (n - 1) = Run.out_of_fuel) := by
  obtain ⟨d, hd, hds⟩ := odd_part_padic (show 0 < n - 1 by omega)
  refine ⟨d, padicValNat 2 (n - 1), hd, hds, rfl, ?_, ?_⟩
  · intro fuel hf
    have := odd_part_loop_spec (padicValNat 2 (n - 1)) fuel d hd hf
    rw [hds] at this
    exact this
  · intro fuel hf
    have := odd_part_loop_short (padicValNat 2 (n - 1)) fuel d hf
    rw [hds] at this
    exact this

/-- Witness for C23 at `n = 25`, where the loop halves 24 three times and stops at 3. -/
theorem decomposition_loop_terminates_witness :
    2 ≤ 25 ∧ odd_part_loop 3 (25 - 1) = Run.done 3 ∧
      ∃ d s, d % 2 = 1 ∧ d * 2 ^ s = 25 - 1 ∧ s = padicValNat 2 (25 - 1) ∧
        (∀ fuel, s ≤ fuel → odd_part_loop fuel (25 - 1) = Run.done d) ∧
        (∀ fuel, fuel < s → odd_part_loop fuel (25 - 1) = Run.out_of_fuel) :=
  ⟨by decide, by decide, decomposition_loop_terminates 25 (by decide)⟩

/-! ## The squaring loop of `millerTest` terminates -/

/-- C24: for `n ≥ 2` with `n - 1 = d * 2 ^ s`, `s` iterations of the squaring loop are
enough for every draw: `millerTest` returns 0 or 1 and has consumed exactly one draw. -/
theorem millerTest_total (n d s fuel : Nat) (hn : 2 ≤ n) (hds : n - 1 = d * 2 ^ s)
    (hf : s ≤ fuel) (st : gmp_randstate_t) :
    (∀ x, miller_loop fuel x d n = Run.done 0 ∨ miller_loop fuel x d n = Run.done 1) ∧
      (millerTest fuel d n st = Run.done (0, rand_advance st) ∨
        millerTest fuel d n st = Run.done (1, rand_advance st)) := by
  refine ⟨fun x => miller_loop_total hds fuel x d 0 (by simp) (Nat.zero_le s) (by omega), ?_⟩
  unfold millerTest mpz_urandomm
  rw [if_neg (by omega)]
  simp only
  rcases miller_round_total hds fuel (st 0 % (n - 1)) hf with h | h
  · left; rw [h]
  · right; rw [h]

/-- Witness for C24 at `n = 25`, `d = 3`, `s = 3`, with exactly 3 iterations allowed. -/
theorem millerTest_total_witness :
    (2 ≤ 25 ∧ 25 - 1 = 3 * 2 ^ 3 ∧ 3 ≤ 3) ∧
      ((∀ x, miller_loop 3 x 3 25 = Run.done 0 ∨ miller_loop 3 x 3 25 = Run.done 1) ∧
        (millerTest 3 3 25 liar_state = Run.done (0, rand_advance liar_state) ∨
          millerTest 3 3 25 liar_state = Run.done (1, rand_advance liar_state))) :=
  ⟨⟨by decide, by decide, by decide⟩,
    millerTest_total 25 3 3 3 (by decide) (by decide) (by decide) liar_state⟩

/-! ## The Jacobi-zero branch -/

/-- For odd `n` and `a` coprime to `n`, `mpz_jacobi(a, n)` is `1` or `-1`. -/
theorem mpz_jacobi_coprime {n a : Nat} (hodd : n % 2 = 1) (hg : Nat.gcd a n = 1) :
    mpz_jacobi a n = 1 ∨ mpz_jacobi a n = -1 := by
  have hg2 : Int.gcd (a : Int) (n : Int) = 1 := by
    rw [Int.gcd_natCast_natCast]; exact hg
  rw [mpz_jacobi_eq a n hodd]
  exact jacobiSym.eq_one_or_neg_one hg2

/-- C25: for odd `n ≥ 3` and a witness `a` that passed the check `gcd(a, n) = 1`,
`mpz_jacobi(a, n)` is `1` or `-1`, so the branch for a zero symbol is not taken and the
round's verdict is the comparison of the power with the symbol's residue. -/
theorem jacobi_zero_branch_unreachable (n a : Nat) (hodd : n % 2 = 1)
    (hg : Nat.gcd a n = 1) :
    (mpz_jacobi a n = 1 ∨ mpz_jacobi a n = -1) ∧
      ss_round n a =
        decide (mpz_powm a ((n - 1) / 2) n = if mpz_jacobi a n = -1 then n - 1 else 1) := by
  have hj := mpz_jacobi_coprime hodd hg
  refine ⟨hj, ?_⟩
  have h0 : mpz_jacobi a n ≠ 0 := by
    rcases hj with h | h <;> rw [h] <;> decide
  unfold ss_round
  simp only [hg, ne_eq, not_true_eq_false, if_false, h0]
  by_cases hp : mpz_powm a ((n - 1) / 2) n = if mpz_jacobi a n = -1 then n - 1 else 1
  · simp [hp]
  · simp [hp]

/-- Witness for C25 at `n = 15`, `a = 14`. -/
theorem jacobi_zero_branch_unreachable_witness :
    (15 % 2 = 1 ∧ Nat.gcd 14 15 = 1) ∧
      ((mpz_jacobi 14 15 = 1 ∨ mpz_jacobi 14 15 = -1) ∧
        ss_round 15 14 =
          decide (mpz_powm 14 ((15 - 1) / 2) 15 = if mpz_jacobi 14 15 = -1 then 15 - 1 else 1)) :=
  ⟨⟨by decide, by decide⟩, jacobi_zero_branch_unreachable 15 14 (by decide) (by decide)⟩

/-! ## Round counts that are not positive -/

/-- C26: with `k ≤ 0` both oracles answer 1 without a draw: `isPrime` for every `n > 3`
(once the halving loop has its `v2(n - 1)` iterations), `is_probable_prime_ss` for every
odd `n ≥ 3`; the generator state comes back unchanged. -/
theorem zero_rounds_accept (n k : Int) (st : gmp_randstate_t) (hk : k ≤ 0) :
    (3 < n → ∀ fuel, padicValNat 2 (n.toNat - 1) ≤ fuel →
        isPrime fuel n k st = Run.done (1, st)) ∧
      (3 ≤ n → n % 2 = 1 → is_probable_prime_ss n k st = Run.done (1, st)) := by
  have hk0 : k.toNat = 0 := by omega
  constructor
  · intro hn fuel hf
    obtain ⟨d, hd, hds⟩ := odd_part_padic (show 0 < n.toNat - 1 by omega)
    unfold isPrime
    rw [if_neg (by omega), if_neg (by omega), ← hds, odd_part_loop_spec _ fuel d hd hf, hk0]
    rfl
  · intro hn hodd
    unfold is_probable_prime_ss
    rw [if_neg (by omega), if_neg (by omega), if_neg (by omega), hk0]
    rfl

/-- The 2-adic valuation of `560 = 2 ^ 4 * 35`. -/
theorem padicValNat_two_560 : padicValNat 2 560 = 4 := by
  haveI : Fact (Nat.Prime 2) := ⟨Nat.prime_two⟩
  have h : (560 : Nat) = 2 ^ 4 * 35 := by norm_num
  rw [h, padicValNat.mul (by norm_num) (by norm_num), padicValNat.prime_pow,
    padicValNat.eq_zero_of_not_dvd (by norm_num)]

/-- Witness for C26 at the composites 561, 15 and 9 with `k = 0`. -/
theorem zero_rounds_accept_witness :
    ((0 : Int) ≤ 0) ∧
      isPrime 4 561 0 liar_state = Run.done (1, liar_state) ∧
      is_probable_prime_ss 561 0 liar_state = Run.done (1, liar_state) ∧
      is_probable_prime_ss 15 0 liar_state = Run.done (1, liar_state) ∧
      is_probable_prime_ss 9 0 liar_state = Run.done (1, liar_state) :=
  ⟨le_refl 0,
    (zero_rounds_accept 561 0 liar_state (le_refl 0)).1 (by decide) 4
      (le_of_eq padicValNat_two_560),
    (zero_rounds_accept 561 0 liar_state (le_refl 0)).2 (by decide) (by decide),
    (zero_rounds_accept 15 0 liar_state (le_refl 0)).2 (by decide) (by decide),
    (zero_rounds_accept 9 0 liar_state (le_refl 0)).2 (by decide) (by decide)⟩

/-! ## What the small-prime screen reports -/

/-- The loop over the table returns 1 exactly when an entry divides `n`, and 0 otherwise. -/
theorem small_prime_loop_one (n : Int) (l : List Nat) :
    (small_prime_loop n l = 1 ↔ ∃ p ∈ l, (p : Int) ∣ n) ∧
      (small_prime_loop n l = 0 ∨ small_prime_loop n l = 1) := by
  induction l with
  | nil => simp [small_prime_loop]
  | cons p rest ih =>
    unfold small_prime_loop
    by_cases h : n % (p : Int) = 0
    · rw [if_pos h]
      exact ⟨⟨fun _ => ⟨p, List.mem_cons_self _ _, Int.dvd_of_emod_eq_zero h⟩, fun _ => rfl⟩,
        Or.inr rfl⟩
    · rw [if_neg h]
      refine ⟨⟨fun h1 => ?_, fun h1 => ?_⟩, ih.2⟩
      · obtain ⟨q, hq, hd⟩ := ih.1.mp h1
        exact ⟨q, List.mem_cons_of_mem _ hq, hd⟩
      · obtain ⟨q, hq, hd⟩ := h1
        rcases List.mem_cons.mp hq with rfl | hq2
        · exact absurd (Int.emod_eq_zero_of_dvd hd) h
        · exact ih.1.mpr ⟨q, hq2, hd⟩

/-- C27: `divisible_by_small_prime` returns 1 for every prime of its own table, and in
general it returns 1 exactly when `n < 2`, or `n` is even and larger than 2, or a table
prime divides `n`; otherwise it returns 0. -/
theorem screen_reports_table_primes :
    (∀ p ∈ small_primes, divisible_by_small_prime (p : Int) = 1) ∧
      ∀ n : Int, (divisible_by_small_prime n = 1 ↔
          (n < 2 ∨ (n % 2 = 0 ∧ 2 < n) ∨ ∃ p ∈ small_primes, (p : Int) ∣ n)) ∧
        (divisible_by_small_prime n = 0 ∨ divisible_by_small_prime n = 1) := by
  have hgen : ∀ n : Int, (divisible_by_small_prime n = 1 ↔
      (n < 2 ∨ (n % 2 = 0 ∧ 2 < n) ∨ ∃ p ∈ small_primes, (p : Int) ∣ n)) ∧
      (divisible_by_small_prime n = 0 ∨ divisible_by_small_prime n = 1) := by
    intro n
    unfold divisible_by_small_prime
    by_cases h1 : n < 2
    · rw [if_pos h1]
      exact ⟨⟨fun _ => Or.inl h1, fun _ => rfl⟩, Or.inr rfl⟩
    · rw [if_neg h1]
      by_cases h2 : n = 2
      · rw [if_pos h2]
        refine ⟨⟨fun h => absurd h (by decide), fun h => ?_⟩, Or.inl rfl⟩
        exfalso
        rcases h with h | h | ⟨p, hp, hd⟩
        · exact h1 h
        · omega
        · rw [h2] at hd
          have h113 := small_primes_range p hp
          have hle := Int.le_of_dvd (by decide) hd
          have hne : p ≠ 2 := by
            intro hp2
            rw [hp2] at hp
            exact absurd hp (by decide)
          omega
      · rw [if_neg h2]
        by_cases h3 : n % 2 = 0
        · rw [if_pos h3]
          exact ⟨⟨fun _ => Or.inr (Or.inl ⟨h3, by omega⟩), fun _ => rfl⟩, Or.inr rfl⟩
        · rw [if_neg h3]
          obtain ⟨hiff, hval⟩ := small_prime_loop_one n small_primes
          refine ⟨⟨fun h => Or.inr (Or.inr (hiff.mp h)), fun h => ?_⟩, hval⟩
          rcases h with h | h | h
          · exact absurd h h1
          · exact absurd h.1 h3
          · exact hiff.mpr h
  refine ⟨?_, hgen⟩
  intro p hp
  apply (hgen p).1.mpr
  exact Or.inr (Or.inr ⟨p, hp, dvd_refl _⟩)

/-! ## ChaCha20: the known answer of RFC 7539 -/

/-- C29: on the state that `initialize_state` builds from the key and the nonce of `main`
and the counter 1, `chacha20_block` outputs the 16 words of RFC 7539, section 2.3.2. -/
theorem chacha20_block_rfc7539 :
    chacha20_block (initialize_state main_key main_nonce 1) =
      [0xe4e7f110, 0x15593bd1, 0x1fdd0f50, 0xc47120a3,
       0xc7f4d1c7, 0x0368c033, 0x9aaa2204, 0x4e6cd4c3,
       0x466482d2, 0x09aa9f07, 0x05d7c214, 0xa2028bd9,
       0xd19c12b5, 0xb94e16de, 0xe883d0cb, 0x4e3c50a2] := by
  decide!

/-! ## Salsa20: the rounds are reversible -/

theorem salsa_ROTL_lt (a b : Nat) (ha : a < 2 ^ 32) : Salsa20.ROTL a b < 2 ^ 32 := by
  unfold Salsa20.ROTL
  apply Nat.or_lt_two_pow (Nat.mod_lt _ (by norm_num))
  rw [Nat.shiftRight_eq_div_pow]
  exact lt_of_le_of_lt (Nat.div_le_self _ _) ha

theorem salsa_xor_ROTL_lt (w a b : Nat) (hw : w < 2 ^ 32) :
    w ^^^ Salsa20.ROTL (a % 2 ^ 32) b < 2 ^ 32 :=
  Nat.xor_lt_two_pow hw (salsa_ROTL_lt _ _ (Nat.mod_lt _ (by norm_num)))

/-- `QR_inv` undoes `QR`, on all quadruples. -/
theorem QR_inv_QR (a b c d : Nat) :
    Salsa20.QR_inv (Salsa20.QR a b c d).1 (Salsa20.QR a b c d).2.1 (Salsa20.QR a b c d).2.2.1
      (Salsa20.QR a b c d).2.2.2 = (a, b, c, d) := by
  simp only [Salsa20.QR, Salsa20.QR_inv, Nat.xor_cancel_right]

/-- `QR` undoes `QR_inv`, on all quadruples. -/
theorem QR_QR_inv (a b c d : Nat) :
    Salsa20.QR (Salsa20.QR_inv a b c d).1 (Salsa20.QR_inv a b c d).2.1
      (Salsa20.QR_inv a b c d).2.2.1 (Salsa20.QR_inv a b c d).2.2.2 = (a, b, c, d) := by
  simp only [Salsa20.QR, Salsa20.QR_inv, Nat.xor_cancel_right]

theorem QR_lt (a b c d : Nat) (ha : a < 2 ^ 32) (hb : b < 2 ^ 32) (hc : c < 2 ^ 32)
    (hd : d < 2 ^ 32) :
    (Salsa20.QR a b c d).1 < 2 ^ 32 ∧ (Salsa20.QR a b c d).2.1 < 2 ^ 32 ∧
      (Salsa20.QR a b c d).2.2.1 < 2 ^ 32 ∧ (Salsa20.QR a b c d).2.2.2 < 2 ^ 32 := by
  simp only [Salsa20.QR]
  exact ⟨salsa_xor_ROTL_lt _ _ _ ha, salsa_xor_ROTL_lt _ _ _ hb, salsa_xor_ROTL_lt _ _ _ hc,
    salsa_xor_ROTL_lt _ _ _ hd⟩

theorem QR_inv_lt (a b c d : Nat) (ha : a < 2 ^ 32) (hb : b < 2 ^ 32) (hc : c < 2 ^ 32)
    (hd : d < 2 ^ 32) :
    (Salsa20.QR_inv a b c d).1 < 2 ^ 32 ∧ (Salsa20.QR_inv a b c d).2.1 < 2 ^ 32 ∧
      (Salsa20.QR_inv a b c d).2.2.1 < 2 ^ 32 ∧ (Salsa20.QR_inv a b c d).2.2.2 < 2 ^ 32 := by
  simp only [Salsa20.QR_inv]
  exact ⟨salsa_xor_ROTL_lt _ _ _ ha, salsa_xor_ROTL_lt _ _ _ hb, salsa_xor_ROTL_lt _ _ _ hc,
    salsa_xor_ROTL_lt _ _ _ hd⟩

/-- Writing four values to four different words and reading them back. -/
theorem update4_read (x : Fin 16 → Nat) (i j k l : Fin 16) (a b c d : Nat)
    (hij : i ≠ j) (hik : i ≠ k) (hil : i ≠ l) (hjk : j ≠ k) (hjl : j ≠ l) (hkl : k ≠ l) :
    let y := Function.update (Function.update (Function.update (Function.update x i a) j b)
      k c) l d
    y i = a ∧ y j = b ∧ y k = c ∧ y l = d := by
  simp [Function.update_apply, hij, hik, hil, hjk, hjl, hkl]

/-- Writing back the old values of four different words restores the array. -/
theorem update4_restore (x : Fin 16 → Nat) (i j k l : Fin 16) (a b c d : Nat) :
    Function.update (Function.update (Function.update (Function.update
      (Function.update (Function.update (Function.update (Function.update x i a) j b) k c) l d)
      i (x i)) j (x j)) k (x k)) l (x l) = x := by
  funext m
  simp only [Function.update_apply]
  split_ifs <;> simp_all

/-- `qr_inv_at` undoes `qr_at` on four different words. -/
theorem qr_inv_at_qr_at (x : Fin 16 → Nat) (i j k l : Fin 16)
    (hij : i ≠ j) (hik : i ≠ k) (hil : i ≠ l) (hjk : j ≠ k) (hjl : j ≠ l) (hkl : k ≠ l) :
    Salsa20.qr_inv_at (Salsa20.qr_at x i j k l) i j k l = x := by
  obtain ⟨h1, h2, h3, h4⟩ := update4_read x i j k l (Salsa20.QR (x i) (x j) (x k) (x l)).1
    (Salsa20.QR (x i) (x j) (x k) (x l)).2.1 (Salsa20.QR (x i) (x j) (x k) (x l)).2.2.1
    (Salsa20.QR (x i) (x j) (x k) (x l)).2.2.2 hij hik hil hjk hjl hkl
  unfold Salsa20.qr_inv_at
  simp only [Salsa20.qr_at]
  rw [h1, h2, h3, h4, QR_inv_QR]
  exact update4_restore x i j k l _ _ _ _

/-- `qr_at` undoes `qr_inv_at` on four different words. -/
theorem qr_at_qr_inv_at (x : Fin 16 → Nat) (i j k l : Fin 16)
    (hij : i ≠ j) (hik : i ≠ k) (hil : i ≠ l) (hjk : j ≠ k) (hjl : j ≠ l) (hkl : k ≠ l) :
    Salsa20.qr_at (Salsa20.qr_inv_at x i j k l) i j k l = x := by
  obtain ⟨h1, h2, h3, h4⟩ := update4_read x i j k l (Salsa20.QR_inv (x i) (x j) (x k) (x l)).1
    (Salsa20.QR_inv (x i) (x j) (x k) (x l)).2.1 (Salsa20.QR_inv (x i) (x j) (x k) (x l)).2.2.1
    (Salsa20.QR_inv (x i) (x j) (x k) (x l)).2.2.2 hij hik hil hjk hjl hkl
  unfold Salsa20.qr_at
  simp only [Salsa20.qr_inv_at]
  rw [h1, h2, h3, h4, QR_QR_inv]
  exact update4_restore x i j k l _ _ _ _

theorem update4_lt (x : Fin 16 → Nat) (i j k l : Fin 16) (a b c d : Nat)
    (hx : ∀ m, x m < 2 ^ 32) (ha : a < 2 ^ 32) (hb : b < 2 ^ 32) (hc : c < 2 ^ 32)
    (hd : d < 2 ^ 32) (m : Fin 16) :
    Function.update (Function.update (Function.update (Function.update x i a) j b) k c) l d m
      < 2 ^ 32 := by
  simp only [Function.update_apply]
  split_ifs <;> first | exact ha | exact hb | exact hc | exact hd | exact hx m

theorem qr_at_word_states (x : Fin 16 → Nat) (i j k l : Fin 16)
    (hx : x ∈ Salsa20.word_states) : Salsa20.qr_at x i j k l ∈ Salsa20.word_states := by
  intro m
  obtain ⟨h1, h2, h3, h4⟩ := QR_lt (x i) (x j) (x k) (x l) (hx i) (hx j) (hx k) (hx l)
  exact update4_lt x i j k l _ _ _ _ hx h1 h2 h3 h4 m

theorem qr_inv_at_word_states (x : Fin 16 → Nat) (i j k l : Fin 16)
    (hx : x ∈ Salsa20.word_states) : Salsa20.qr_inv_at x i j k l ∈ Salsa20.word_states := by
  intro m
  obtain ⟨h1, h2, h3, h4⟩ := QR_inv_lt (x i) (x j) (x k) (x l) (hx i) (hx j) (hx k) (hx l)
  exact update4_lt x i j k l _ _ _ _ hx h1 h2 h3 h4 m

theorem double_round_inv_double_round (x : Fin 16 → Nat) :
    Salsa20.double_round_inv (Salsa20.double_round x) = x := by
  unfold Salsa20.double_round_inv Salsa20.double_round
  simp only
  rw [qr_inv_at_qr_at _ 15 12 13 14 (by decide) (by decide) (by decide) (by decide) (by decide)
      (by decide),
    qr_inv_at_qr_at _ 10 11 8 9 (by decide) (by decide) (by decide) (by decide) (by decide)
      (by decide),
    qr_inv_at_qr_at _ 5 6 7 4 (by decide) (by decide) (by decide) (by decide) (by decide)
      (by decide),
    qr_inv_at_qr_at _ 0 1 2 3 (by decide) (by decide) (by decide) (by decide) (by decide)
      (by decide),
    qr_inv_at_qr_at _ 15 3 7 11 (by decide) (by decide) (by decide) (by decide) (by decide)
      (by decide),
    qr_inv_at_qr_at _ 10 14 2 6 (by decide) (by decide) (by decide) (by decide) (by decide)
      (by decide),
    qr_inv_at_qr_at _ 5 9 13 1 (by decide) (by decide) (by decide) (by decide) (by decide)
      (by decide),
    qr_inv_at_qr_at _ 0 4 8 12 (by decide) (by decide) (by decide) (by decide) (by decide)
      (by decide)]

theorem double_round_double_round_inv (x : Fin 16 → Nat) :
    Salsa20.double_round (Salsa20.double_round_inv x) = x := by
  unfold Salsa20.double_round_inv Salsa20.double_round
  simp only
  rw [qr_at_qr_inv_at _ 0 4 8 12 (by decide) (by decide) (by decide) (by decide) (by decide)
      (by decide),
    qr_at_qr_inv_at _ 5 9 13 1 (by decide) (by decide) (by decide) (by decide) (by decide)
      (by decide),
    qr_at_qr_inv_at _ 10 14 2 6 (by decide) (by decide) (by decide) (by decide) (by decide)
      (by decide),
    qr_at_qr_inv_at _ 15 3 7 11 (by decide) (by decide) (by decide) (by decide) (by decide)
      (by decide),
    qr_at_qr_inv_at _ 0 1 2 3 (by decide) (by decide) (by decide) (by decide) (by decide)
      (by decide),
    qr_at_qr_inv_at _ 5 6 7 4 (by decide) (by decide) (by decide) (by decide) (by decide)
      (by decide),
    qr_at_qr_inv_at _ 10 11 8 9 (by decide) (by decide) (by decide) (by decide) (by decide)
      (by decide),
    qr_at_qr_inv_at _ 15 12 13 14 (by decide) (by decide) (by decide) (by decide) (by decide)
      (by decide)]

theorem double_round_word_states (x : Fin 16 → Nat) (hx : x ∈ Salsa20.word_states) :
    Salsa20.double_round x ∈ Salsa20.word_states := by
  unfold Salsa20.double_round
  simp only
  repeat apply qr_at_word_states
  exact hx

theorem double_round_inv_word_states (x : Fin 16 → Nat) (hx : x ∈ Salsa20.word_states) :
    Salsa20.double_round_inv x ∈ Salsa20.word_states := by
  unfold Salsa20.double_round_inv
  simp only
  repeat apply qr_inv_at_word_states
  exact hx

/-- The round loop runs its body ten times. -/
theorem salsa20_rounds_eq (x : Fin 16 → Nat) :
    Salsa20.salsa20_rounds x = Salsa20.double_round^[10] x := rfl

theorem iterate_word_states (f : (Fin 16 → Nat) → (Fin 16 → Nat))
    (hf : ∀ x, x ∈ Salsa20.word_states → f x ∈ Salsa20.word_states) (k : Nat) :
    ∀ x, x ∈ Salsa20.word_states → f^[k] x ∈ Salsa20.word_states := by
  induction k with
  | zero => intro x hx; exact hx
  | succ k ih =>
    intro x hx
    rw [Function.iterate_succ_apply]
    exact ih _ (hf x hx)

/-- C30: the mixing that `salsa20_block` applies before the feed-forward, ten iterations
of four column and four row quarter rounds, is a bijection on the 16-word states of 32-bit
words, and `QR` is a bijection on the quadruples of 32-bit words. -/
theorem salsa20_rounds_bijective :
    Set.BijOn Salsa20.salsa20_rounds Salsa20.word_states Salsa20.word_states ∧
      Salsa20.salsa20_rounds = Salsa20.double_round^[10] ∧
      Set.BijOn (fun q : Nat × Nat × Nat × Nat => Salsa20.QR q.1 q.2.1 q.2.2.1 q.2.2.2)
        Salsa20.word_quads Salsa20.word_quads := by
  refine ⟨?_, funext salsa20_rounds_eq, ?_⟩
  · have hl : Function.LeftInverse Salsa20.double_round_inv^[10] Salsa20.double_round^[10] :=
      Function.LeftInverse.iterate double_round_inv_double_round 10
    have hr : Function.RightInverse Salsa20.double_round_inv^[10] Salsa20.double_round^[10] :=
      Function.RightInverse.iterate double_round_double_round_inv 10
    have e : Salsa20.salsa20_rounds = Salsa20.double_round^[10] := funext salsa20_rounds_eq
    rw [e]
    have hinv : Set.InvOn Salsa20.double_round_inv^[10] Salsa20.double_round^[10]
        Salsa20.word_states Salsa20.word_states := ⟨fun x _ => hl x, fun x _ => hr x⟩
    exact hinv.bijOn (fun x hx => iterate_word_states _ double_round_word_states 10 x hx)
      (fun x hx => iterate_word_states _ double_round_inv_word_states 10 x hx)
  · have hinv : Set.InvOn
        (fun q : Nat × Nat × Nat × Nat => Salsa20.QR_inv q.1 q.2.1 q.2.2.1 q.2.2.2)
        (fun q : Nat × Nat × Nat × Nat => Salsa20.QR q.1 q.2.1 q.2.2.1 q.2.2.2)
        Salsa20.word_quads Salsa20.word_quads :=
      ⟨fun q _ => QR_inv_QR q.1 q.2.1 q.2.2.1 q.2.2.2,
        fun q _ => QR_QR_inv q.1 q.2.1 q.2.2.1 q.2.2.2⟩
    exact hinv.bijOn (fun q hq => QR_lt _ _ _ _ hq.1 hq.2.1 hq.2.2.1 hq.2.2.2)
      (fun q hq => QR_inv_lt _ _ _ _ hq.1 hq.2.1 hq.2.2.1 hq.2.2.2)

/-! ## `millerTest` against the specified round -/

/-- When some repeated square of `x` within the remaining doublings is `n - 1`, the
squaring loop returns 1. -/
theorem miller_loop_finds {n d s : Nat} (h2 : 2 < n) (hd : 0 < d) (hds : n - 1 = d * 2 ^ s) :
    ∀ (fuel x temp j i : Nat), temp = d * 2 ^ j → 1 ≤ i → j + i ≤ s → s - j ≤ fuel →
      x ^ 2 ^ i % n = n - 1 → miller_loop fuel x temp n = Run.done 1 := by
  intro fuel
  induction fuel with
  | zero => intro x temp j i ht hi hji hf hx; omega
  | succ fuel ih =>
    intro x temp j i ht hi hji hf hx
    have hne : temp ≠ n - 1 := by
      rw [ht, hds]
      intro h
      have h3 := Nat.eq_of_mul_eq_mul_left hd h
      have := Nat.pow_right_injective (le_refl 2) h3
      omega
    obtain ⟨i2, rfl⟩ : ∃ i2, i = i2 + 1 := ⟨i - 1, by omega⟩
    have hx2 : (x * x % n) ^ 2 ^ i2 % n = n - 1 := by
      rw [← Nat.pow_mod, ← pow_two, ← pow_mul, ← pow_succ']
      exact hx
    unfold miller_loop
    rw [if_neg hne]
    simp only
    by_cases h1 : x * x % n = 1
    · exfalso
      rw [h1, one_pow, Nat.mod_eq_of_lt (by omega)] at hx2
      omega
    · rw [if_neg h1]
      by_cases h3 : x * x % n = n - 1
      · rw [if_pos h3]
      · rw [if_neg h3]
        have hi2 : 1 ≤ i2 := by
          rcases Nat.eq_zero_or_pos i2 with h | h
          · exfalso
            rw [h, pow_zero, pow_one, Nat.mod_mod] at hx2
            exact h3 hx2
          · exact h
        exact ih _ (temp * 2) (j + 1) i2 (by rw [ht, pow_succ, mul_assoc]) hi2 (by omega)
          (by omega) hx2

/-- A number all of whose prime factors are `1` modulo `M` is `1` modulo `M`. -/
theorem dvd_pred_of_prime_factors (M : Nat) : ∀ n : Nat, 0 < n →
    (∀ p : Nat, p.Prime → p ∣ n → M ∣ p - 1) → M ∣ n - 1 := by
  intro n
  induction n using Nat.strong_induction_on with
  | _ n ih =>
    intro hn hall
    rcases Nat.eq_or_lt_of_le (Nat.succ_le_of_lt hn) with h1 | h1
    · rw [← h1]
      exact Nat.dvd_zero M
    · have hp : (Nat.minFac n).Prime := Nat.minFac_prime (by omega)
      obtain ⟨m, hm⟩ := Nat.minFac_dvd n
      have hm0 : 0 < m := by
        rcases Nat.eq_zero_or_pos m with h | h
        · rw [h, Nat.mul_zero] at hm; omega
        · exact h
      have hlt : m < n := by
        have := hp.two_le
        nlinarith
      have h2 := ih m hlt hm0 (fun p hpp hpm => hall p hpp (hpm.trans ⟨Nat.minFac n, by
        rw [Nat.mul_comm]; exact hm⟩))
      have h3 := hall _ hp (Nat.minFac_dvd n)
      have := dvd_mul_pred hp.pos hm0 h3 h2
      rw [← hm] at this
      exact this

/-- For odd `n` with `n - 1 = d * 2 ^ s`, `d` odd, no `(n - 1)`-th power is `-1` modulo
`n`: the last squaring of the loop never produces `n - 1`. -/
theorem top_square_ne_neg_one {n d s : Nat} (hodd : n % 2 = 1) (h1 : 1 < n) (hd : d % 2 = 1)
    (hds : n - 1 = d * 2 ^ s) (a : Nat) : a ^ (d * 2 ^ s) % n ≠ n - 1 := by
  intro h
  haveI : NeZero n := ⟨by omega⟩
  have hz : ((a : Nat) : ZMod n) ^ (d * 2 ^ s) = -1 := by
    rw [← Nat.cast_pow, ← ZMod.natCast_mod]
    exact (natCast_eq_neg_one_iff h1 (Nat.mod_lt _ (by omega))).mpr h
  have hall : ∀ p : Nat, p.Prime → p ∣ n → 2 ^ (s + 1) ∣ p - 1 := by
    intro p hp hpn
    have hp2 : p ≠ 2 := by
      intro h2
      rw [h2] at hpn
      omega
    apply two_pow_dvd_pred hp hp2 ((ZMod.castHom hpn (ZMod p)) (a : ZMod n) ^ d) s
    rw [← pow_mul, ← map_pow, hz, map_neg, map_one]
  have h2 := dvd_pred_of_prime_factors (2 ^ (s + 1)) n (by omega) hall
  rw [hds, pow_succ] at h2
  have h3 : 2 ∣ d := by
    have h4 : 2 ^ s * 2 ∣ 2 ^ s * d := by rw [Nat.mul_comm (2 ^ s) d]; exact h2
    exact Nat.dvd_of_mul_dvd_mul_left (by positivity) h4
  omega

/-- The specified search succeeds exactly when one of the first `k` repeated squares is
`n - 1`. -/
theorem spec_square_search_iff (n : Nat) : ∀ (k x : Nat),
    spec_square_search k x n = true ↔ ∃ i, 1 ≤ i ∧ i ≤ k ∧ x ^ 2 ^ i % n = n - 1 := by
  intro k
  induction k with
  | zero =>
    intro x
    simp only [spec_square_search, Bool.false_eq_true, false_iff]
    rintro ⟨i, h1, h2, -⟩
    omega
  | succ k ih =>
    intro x
    unfold spec_square_search
    by_cases h : x * x % n = n - 1
    · rw [if_pos h]
      simp only [true_iff]
      exact ⟨1, le_refl 1, by omega, by rw [pow_one, pow_two]; exact h⟩
    · rw [if_neg h, ih]
      constructor
      · rintro ⟨i, h1, h2, h3⟩
        refine ⟨i + 1, by omega, by omega, ?_⟩
        rw [pow_succ', pow_mul, Nat.pow_mod, pow_two]
        exact h3
      · rintro ⟨i, h1, h2, h3⟩
        obtain ⟨i2, rfl⟩ : ∃ i2, i = i2 + 1 := ⟨i - 1, by omega⟩
        rw [pow_succ', pow_mul, Nat.pow_mod, pow_two] at h3
        rcases Nat.eq_zero_or_pos i2 with h0 | h0
        · exfalso
          rw [h0, pow_zero, pow_one, Nat.mod_mod] at h3
          exact h h3
        · exact ⟨i2, h0, by omega, h3⟩

/-- When `millerTest` returns 1 through its loop, the repeated square that hit `n - 1` is
one of the first `s`. -/
theorem miller_loop_one_iff {n d s : Nat} (h2 : 2 < n) (hd : 0 < d) (hds : n - 1 = d * 2 ^ s)
    (fuel x : Nat) (hf : s ≤ fuel) (hx : x < n) (hxn : x ≠ n - 1) :
    miller_loop fuel x d n = Run.done 1 ↔ ∃ i, 1 ≤ i ∧ i ≤ s ∧ x ^ 2 ^ i % n = n - 1 := by
  constructor
  · intro h
    obtain ⟨i, hi, hxi⟩ := miller_loop_accepts hds fuel x d 0 (by simp) (Nat.zero_le s) h
    refine ⟨i, ?_, by omega, hxi⟩
    rcases Nat.eq_zero_or_pos i with h0 | h0
    · exfalso
      rw [h0, pow_zero, pow_one, Nat.mod_eq_of_lt hx] at hxi
      exact hxn hxi
    · exact h0
  · rintro ⟨i, h1, h3, hxi⟩
    exact miller_loop_finds h2 hd hds fuel x d 0 i (by simp) h1 (by omega) (by omega) hxi

/-- C21: for odd `n > 3` with `n - 1 = d * 2 ^ s`, `d` odd, and a witness `a ≥ 2`, the
round of `millerTest` (given its `s` loop iterations) returns 1 exactly when
`a ^ d mod n` is `1` or `n - 1` or `a ^ (d * 2 ^ r) mod n = n - 1` for some
`1 ≤ r ≤ s - 1`, and returns 0 otherwise: it gives the verdict of the specified round,
which squares at most `s - 1` times and looks only for `n - 1`. -/
theorem millerTest_refines_spec (n d s fuel a : Nat) (hodd : n % 2 = 1) (h3 : 3 < n)
    (hd : d % 2 = 1) (hds : n - 1 = d * 2 ^ s) (hf : s ≤ fuel) (ha : 2 ≤ a) :
    (miller_round fuel d n a = Run.done 1 ↔
        (a ^ d % n = 1 ∨ a ^ d % n = n - 1 ∨
          ∃ r, 1 ≤ r ∧ r ≤ s - 1 ∧ a ^ (d * 2 ^ r) % n = n - 1)) ∧
      miller_round fuel d n a = Run.done (if spec_miller_round a d s n then 1 else 0) := by
  have hb : miller_base a = a := by
    unfold miller_base
    rw [if_neg (by omega)]
  have hlt : a ^ d % n < n := Nat.mod_lt _ (by omega)
  have hpow : ∀ i, (a ^ d % n) ^ 2 ^ i % n = a ^ (d * 2 ^ i) % n := by
    intro i
    rw [← Nat.pow_mod, pow_mul]
  have hiff : miller_round fuel d n a = Run.done 1 ↔
      (a ^ d % n = 1 ∨ a ^ d % n = n - 1 ∨
        ∃ r, 1 ≤ r ∧ r ≤ s - 1 ∧ a ^ (d * 2 ^ r) % n = n - 1) := by
    unfold miller_round
    simp only [mpz_powm_eq, hb]
    by_cases hx : a ^ d % n = 1 ∨ a ^ d % n = n - 1
    · rw [if_pos hx]
      simp only [true_iff]
      tauto
    · rw [if_neg hx, miller_loop_one_iff (by omega) (by omega) hds fuel _ hf hlt (by tauto)]
      constructor
      · rintro ⟨i, h1, h2, hxi⟩
        rw [hpow] at hxi
        right; right
        refine ⟨i, h1, ?_, hxi⟩
        rcases Nat.eq_or_lt_of_le h2 with he | he
        · exfalso
          rw [he] at hxi
          exact top_square_ne_neg_one hodd (by omega) hd hds a hxi
        · omega
      · rintro (h | h | ⟨r, h1, h2, hr⟩)
        · exact absurd (Or.inl h) hx
        · exact absurd (Or.inr h) hx
        · exact ⟨r, h1, by omega, by rw [hpow]; exact hr⟩
  refine ⟨hiff, ?_⟩
  have hspec : spec_miller_round a d s n = true ↔
      (a ^ d % n = 1 ∨ a ^ d % n = n - 1 ∨
        ∃ r, 1 ≤ r ∧ r ≤ s - 1 ∧ a ^ (d * 2 ^ r) % n = n - 1) := by
    unfold spec_miller_round
    by_cases hx : a ^ d % n = 1 ∨ a ^ d % n = n - 1
    · rw [if_pos hx]
      simp only [true_iff]
      tauto
    · rw [if_neg hx, spec_square_search_iff]
      constructor
      · rintro ⟨i, h1, h2, hxi⟩
        exact Or.inr (Or.inr ⟨i, h1, h2, by rw [← hpow]; exact hxi⟩)
      · rintro (h | h | ⟨r, h1, h2, hr⟩)
        · exact absurd (Or.inl h) hx
        · exact absurd (Or.inr h) hx
        · exact ⟨r, h1, h2, by rw [hpow]; exact hr⟩
  by_cases hs : spec_miller_round a d s n = true
  · rw [if_pos hs]
    exact hiff.mpr (hspec.mp hs)
  · rw [if_neg hs]
    rcases miller_round_total hds fuel a hf with h | h
    · exact h
    · exact absurd (hspec.mpr (hiff.mp h)) hs

/-- Witness for C21 at `n = 25`, `d = 3`, `s = 3`, `a = 7`: `7 ^ 3 mod 25 = 18` and
`18 ^ 2 mod 25 = 24`, so the round returns 1 after one squaring. -/
theorem millerTest_refines_spec_witness :
    (25 % 2 = 1 ∧ 3 < 25 ∧ 3 % 2 = 1 ∧ 25 - 1 = 3 * 2 ^ 3 ∧ 3 ≤ 3 ∧ 2 ≤ 7 ∧
        miller_round 3 3 25 7 = Run.done 1) ∧
      ((miller_round 3 3 25 7 = Run.done 1 ↔
          (7 ^ 3 % 25 = 1 ∨ 7 ^ 3 % 25 = 25 - 1 ∨
            ∃ r, 1 ≤ r ∧ r ≤ 3 - 1 ∧ 7 ^ (3 * 2 ^ r) % 25 = 25 - 1)) ∧
        miller_round 3 3 25 7 = Run.done (if spec_miller_round 7 3 3 25 then 1 else 0)) :=
  ⟨⟨by decide, by decide, by decide, by decide, by decide, by decide, by decide⟩,
    millerTest_refines_spec 25 3 3 3 7 (by decide) (by decide) (by decide) (by decide)
      (by decide) (by decide)⟩

/-! ## The Solovay-Strassen verdict -/

/-- For odd `n`, a round lets the loop continue exactly when the specified condition
holds for its witness. -/
theorem ss_round_iff_spec {n : Nat} (hodd : n % 2 = 1) (a : Nat) :
    ss_round n a = true ↔ spec_ss_round n a := by
  unfold spec_ss_round ss_round
  by_cases hg : Nat.gcd a n = 1
  · have hj := mpz_jacobi_coprime hodd hg
    rw [mpz_jacobi_eq a n hodd] at hj
    simp only [hg, ne_eq, not_true_eq_false, if_false, mpz_powm_eq, mpz_jacobi_eq a n hodd,
      true_and]
    rcases hj with h | h
    · rw [h]
      simp
    · rw [h]
      simp
  · simp [hg]

/-- When every round's condition holds, `k` rounds return 1 and have consumed `k` draws. -/
theorem ss_rounds_all_pass (n : Nat) (h4 : 3 < n) (k : Nat) : ∀ st : gmp_randstate_t,
    (∀ i, i < k → ss_round n (ss_base (st i % (n - 3))) = true) →
      ss_rounds n k st = Run.done (1, rand_skip k st) := by
  induction k with
  | zero => intro st _; rfl
  | succ k ih =>
    intro st h
    unfold ss_rounds mpz_urandomm
    rw [if_neg (by omega)]
    simp only
    rw [h 0 (by omega)]
    simp only [if_true]
    rw [ih (rand_advance st) (fun i hi => h (i + 1) (by omega)), rand_skip_succ]

/-- When round `j` is the first whose condition fails, the rounds return 0 and have
consumed `j + 1` draws. -/
theorem ss_rounds_first_fail (n : Nat) (h4 : 3 < n) (j : Nat) :
    ∀ (k : Nat) (st : gmp_randstate_t), j < k →
      (∀ i, i < j → ss_round n (ss_base (st i % (n - 3))) = true) →
      ss_round n (ss_base (st j % (n - 3))) = false →
      ss_rounds n k st = Run.done (0, rand_skip (j + 1) st) := by
  induction j with
  | zero =>
    intro k st hk _ hfail
    obtain ⟨k2, rfl⟩ : ∃ k2, k = k2 + 1 := ⟨k - 1, by omega⟩
    unfold ss_rounds mpz_urandomm
    rw [if_neg (by omega)]
    simp only
    rw [hfail]
    simp only [Bool.false_eq_true, if_false]
    rfl
  | succ j ih =>
    intro k st hk hpass hfail
    obtain ⟨k2, rfl⟩ : ∃ k2, k = k2 + 1 := ⟨k - 1, by omega⟩
    unfold ss_rounds mpz_urandomm
    rw [if_neg (by omega)]
    simp only
    rw [hpass 0 (by omega)]
    simp only [if_true]
    rw [ih k2 (rand_advance st) (by omega) (fun i hi => hpass (i + 1) (by omega)) hfail,
      rand_skip_succ]

/-- C22: for odd `n ≥ 5`, `k` rounds and the draws `r_i = st i mod (n - 3)`: every witness
`r_i + 2` lies in `[2, n - 2]`; `is_probable_prime_ss` returns 1, after `k` draws, when the
specified condition holds for every witness of the `k` rounds, and only then; and it
returns 0 at the first round `j` whose witness violates the condition, after `j + 1`
draws. -/
theorem ss_verdict_characterisation (n k : Nat) (st : gmp_randstate_t) (hodd : n % 2 = 1)
    (h5 : 5 ≤ n) :
    (∀ i, 2 ≤ ss_base (st i % (n - 3)) ∧ ss_base (st i % (n - 3)) ≤ n - 2) ∧
      ((∀ i, i < k → spec_ss_round n (ss_base (st i % (n - 3)))) →
        is_probable_prime_ss (n : Int) (k : Int) st = Run.done (1, rand_skip k st)) ∧
      (∀ j, j < k → (∀ i, i < j → spec_ss_round n (ss_base (st i % (n - 3)))) →
        ¬ spec_ss_round n (ss_base (st j % (n - 3))) →
        is_probable_prime_ss (n : Int) (k : Int) st = Run.done (0, rand_skip (j + 1) st)) ∧
      ((∃ st2, is_probable_prime_ss (n : Int) (k : Int) st = Run.done (1, st2)) ↔
        ∀ i, i < k → spec_ss_round n (ss_base (st i % (n - 3)))) := by
  have hrun : is_probable_prime_ss (n : Int) (k : Int) st = ss_rounds n k st := by
    unfold is_probable_prime_ss
    rw [if_neg (by omega), if_neg (by omega), if_neg (by omega)]
    rfl
  have hall : (∀ i, i < k → spec_ss_round n (ss_base (st i % (n - 3)))) →
      is_probable_prime_ss (n : Int) (k : Int) st = Run.done (1, rand_skip k st) := by
    intro h
    rw [hrun]
    exact ss_rounds_all_pass n (by omega) k st
      (fun i hi => (ss_round_iff_spec hodd _).mpr (h i hi))
  have hfirst : ∀ j, j < k → (∀ i, i < j → spec_ss_round n (ss_base (st i % (n - 3)))) →
      ¬ spec_ss_round n (ss_base (st j % (n - 3))) →
      is_probable_prime_ss (n : Int) (k : Int) st = Run.done (0, rand_skip (j + 1) st) := by
    intro j hj hpass hfail
    rw [hrun]
    apply ss_rounds_first_fail n (by omega) j k st hj
      (fun i hi => (ss_round_iff_spec hodd _).mpr (hpass i hi))
    rw [← Bool.not_eq_true]
    exact fun h => hfail ((ss_round_iff_spec hodd _).mp h)
  refine ⟨?_, hall, hfirst, ⟨?_, fun h => ⟨_, hall h⟩⟩⟩
  · intro i
    have := Nat.mod_lt (st i) (show 0 < n - 3 by omega)
    unfold ss_base
    omega
  · rintro ⟨st2, h⟩
    by_contra hne
    classical
    have hex : ∃ j, j < k ∧ ¬ spec_ss_round n (ss_base (st j % (n - 3))) := by
      by_contra hno
      apply hne
      intro i hi
      by_contra hc
      exact hno ⟨i, hi, hc⟩
    have hspec := Nat.find_spec hex
    have hmin : ∀ i, i < Nat.find hex → spec_ss_round n (ss_base (st i % (n - 3))) := by
      intro i hi
      by_contra hc
      exact Nat.find_min hex hi ⟨by omega, hc⟩
    rw [hfirst _ hspec.1 hmin hspec.2] at h
    simp at h

/-- Witness for C22 at `n = 15` with two rounds: the first draw gives the witness 3, which
shares a factor with 15, so the oracle returns 0 after one draw. -/
theorem ss_verdict_characterisation_witness :
    (15 % 2 = 1 ∧ 5 ≤ 15 ∧
        is_probable_prime_ss 15 2 liar_state = Run.done (0, rand_skip 1 liar_state)) ∧
      ((∀ i, 2 ≤ ss_base (liar_state i % (15 - 3)) ∧ ss_base (liar_state i % (15 - 3)) ≤ 15 - 2) ∧
        ((∀ i, i < 2 → spec_ss_round 15 (ss_base (liar_state i % (15 - 3)))) →
          is_probable_prime_ss ((15 : Nat) : Int) ((2 : Nat) : Int) liar_state =
            Run.done (1, rand_skip 2 liar_state)) ∧
        (∀ j, j < 2 → (∀ i, i < j → spec_ss_round 15 (ss_base (liar_state i % (15 - 3)))) →
          ¬ spec_ss_round 15 (ss_base (liar_state j % (15 - 3))) →
          is_probable_prime_ss ((15 : Nat) : Int) ((2 : Nat) : Int) liar_state =
            Run.done (0, rand_skip (j + 1) liar_state)) ∧
        ((∃ st2, is_probable_prime_ss ((15 : Nat) : Int) ((2 : Nat) : Int) liar_state =
            Run.done (1, st2)) ↔
          ∀ i, i < 2 → spec_ss_round 15 (ss_base (liar_state i % (15 - 3))))) :=
  ⟨⟨by decide, by decide, rfl⟩,
    ss_verdict_characterisation 15 2 liar_state (by decide) (by decide)⟩

/-! ## inverse_demo: the exponent and its inverse -/

/-- Entered with `g ≠ 1`, the loop that chooses `e` can only exit right after computing
`gcd(e, n) = 1` for a draw `e ≥ 2`. -/
theorem choose_e_exit (n : Nat) : ∀ (fuel g e : Nat) (st st1 : gmp_randstate_t), g ≠ 1 →
    InverseDemo.choose_e n fuel g st = Run.done (e, st1) →
      2 ≤ e ∧ e < n ∧ Nat.gcd e n = 1 := by
  intro fuel
  induction fuel with
  | zero =>
    intro g e st st1 _ h
    simp [InverseDemo.choose_e] at h
  | succ fuel ih =>
    intro g e st st1 hg h
    unfold InverseDemo.choose_e mpz_urandomm at h
    by_cases hn : n = 0
    · simp [hn] at h
    · rw [if_neg hn] at h
      simp only at h
      by_cases hg1 : (if st 0 % n < 2 then g else Nat.gcd (st 0 % n) n) = 1
      · rw [if_neg (by rw [hg1]; exact fun hc => hc rfl)] at h
        simp only [Run.done.injEq, Prod.mk.injEq] at h
        obtain ⟨he, -⟩ := h
        by_cases h2 : st 0 % n < 2
        · rw [if_pos h2] at hg1
          exact absurd hg1 hg
        · rw [if_neg h2] at hg1
          rw [← he]
          exact ⟨by omega, Nat.mod_lt _ (by omega), hg1⟩
      · rw [if_pos hg1] at h
        exact ih _ e _ st1 hg1 h

theorem demo_p_prime : demo_p.Prime :=
  lucas_two_factor 2099707 234 3 (by norm_num) (by decide!) (by decide!) (by decide!)

theorem demo_q_prime : demo_q.Prime :=
  lucas_two_factor 2099767 234 3 (by norm_num) (by decide!) (by decide!) (by decide!)

theorem inverse_demo_draw_p : InverseDemo.draw_prime inverse_demo_state
    = (demo_p, rand_advance inverse_demo_state) := by
  unfold InverseDemo.draw_prime
  have h : mpz_setbit (mpz_setbit (mpz_urandomb inverse_demo_state InverseDemo.PRIME_BITS).1
      (InverseDemo.PRIME_BITS - 1)) 0 = demo_p - 2 := by decide!
  simp only [h]
  rw [mpz_nextprime_sub_two demo_p_prime (by decide!)]
  rfl

theorem inverse_demo_draw_q : InverseDemo.draw_prime (rand_advance inverse_demo_state)
    = (demo_q, rand_advance (rand_advance inverse_demo_state)) := by
  unfold InverseDemo.draw_prime
  have h : mpz_setbit (mpz_setbit
      (mpz_urandomb (rand_advance inverse_demo_state) InverseDemo.PRIME_BITS).1
      (InverseDemo.PRIME_BITS - 1)) 0 = demo_q - 2 := by decide!
  simp only [h]
  rw [mpz_nextprime_sub_two demo_q_prime (by decide!)]
  rfl

/-- The loop for `q` exits on a draw different from `p`. -/
theorem inverse_demo_generate_q_exit (p fuel : Nat) (st : gmp_randstate_t)
    (h : (p == (InverseDemo.draw_prime st).1) = false) :
    InverseDemo.generate_q p (fuel + 1) st = Run.done (InverseDemo.draw_prime st) := by
  unfold InverseDemo.generate_q
  simp only [h, Bool.false_eq_true, if_false]

/-- The loop for `e` exits on a draw `e ≥ 2` coprime to `n`. -/
theorem choose_e_step_exit (n fuel g : Nat) (st : gmp_randstate_t) (hn : n ≠ 0)
    (h2 : ¬ st 0 % n < 2) (hg : Nat.gcd (st 0 % n) n = 1) :
    InverseDemo.choose_e n (fuel + 1) g st = Run.done (st 0 % n, rand_advance st) := by
  unfold InverseDemo.choose_e mpz_urandomm
  rw [if_neg hn]
  simp only [if_neg h2, hg, ne_eq, not_true_eq_false, if_false]

/-- The value of `inverse_demo` on a run whose loops exit and whose inverse exists. -/
theorem inverse_demo_of_steps (fuel p q e d : Nat) (st st0 st1 st2 : gmp_randstate_t)
    (hp : InverseDemo.draw_prime st = (p, st0))
    (hq : InverseDemo.generate_q p fuel st0 = Run.done (q, st1))
    (he : InverseDemo.choose_e (p * q) fuel 0 st1 = Run.done (e, st2))
    (hd : mpz_invert e (p * q) = some d) :
    InverseDemo.inverse_demo fuel st = Run.done 0 := by
  unfold InverseDemo.inverse_demo
  simp only [hp, hq, he, hd]

theorem inverse_demo_generate_q :
    InverseDemo.generate_q demo_p 1 (rand_advance inverse_demo_state)
      = Run.done (demo_q, rand_advance (rand_advance inverse_demo_state)) := by
  rw [inverse_demo_generate_q_exit demo_p 0 _ (by rw [inverse_demo_draw_q]; decide!),
    inverse_demo_draw_q]

theorem inverse_demo_choose_e :
    InverseDemo.choose_e (demo_p * demo_q) 1 0 (rand_advance (rand_advance inverse_demo_state))
      = Run.done (2, rand_advance (rand_advance (rand_advance inverse_demo_state))) := by
  have hd : rand_advance (rand_advance inverse_demo_state) 0 % (demo_p * demo_q) = 2 := by
    decide!
  rw [choose_e_step_exit (demo_p * demo_q) 0 0 _ (by decide!) (by rw [hd]; decide)
    (by rw [hd]; decide!), hd]

/-- A complete run of `inverse_demo`: it draws the primes `demo_p` and `demo_q`, chooses
`e = 2` and returns 0. -/
theorem inverse_demo_run : InverseDemo.inverse_demo 1 inverse_demo_state = Run.done 0 := by
  obtain ⟨d, hd⟩ := @mpz_invert_isSome 2 (demo_p * demo_q) (by decide!) (by decide!)
  exact inverse_demo_of_steps 1 demo_p demo_q 2 d inverse_demo_state _ _ _
    inverse_demo_draw_p inverse_demo_generate_q inverse_demo_choose_e hd

/-- C28: the loop of `inverse_demo` that chooses `e`, entered with `g = 0`, exits only
with `2 ≤ e < n` and `gcd(e, n) = 1`, and then `mpz_invert` returns an inverse `d` with
`e * d mod n = 1`; `inverse_demo` never returns 1 through the branch for a missing
inverse; the loop does exit, for instance for `n = 15` on the draws 0, 3, 1, 7, where
the draws 0 and 1 take `continue` with `g` still different from 1; and a complete run of
`inverse_demo` on two 256-bit primes returns 0. -/
theorem inverse_demo_exponent_loop :
    (∀ (n fuel e : Nat) (st st1 : gmp_randstate_t),
        InverseDemo.choose_e n fuel 0 st = Run.done (e, st1) →
        2 ≤ e ∧ e < n ∧ Nat.gcd e n = 1 ∧ ∃ d, mpz_invert e n = some d ∧ e * d % n = 1) ∧
      (∀ (fuel : Nat) (st : gmp_randstate_t), InverseDemo.inverse_demo fuel st ≠ Run.done 1) ∧
      InverseDemo.choose_e 15 4 0 choose_e_state = Run.done (7, rand_skip 4 choose_e_state) ∧
      InverseDemo.inverse_demo 1 inverse_demo_state = Run.done 0 := by
  have hloop : ∀ (n fuel e : Nat) (st st1 : gmp_randstate_t),
      InverseDemo.choose_e n fuel 0 st = Run.done (e, st1) →
      2 ≤ e ∧ e < n ∧ Nat.gcd e n = 1 ∧ ∃ d, mpz_invert e n = some d ∧ e * d % n = 1 := by
    intro n fuel e st st1 h
    obtain ⟨h2, hlt, hg⟩ := choose_e_exit n fuel 0 e st st1 (by decide) h
    refine ⟨h2, hlt, hg, ?_⟩
    obtain ⟨d, hd⟩ := mpz_invert_isSome (show n ≠ 0 by omega) hg
    refine ⟨d, hd, ?_⟩
    have := (mpz_invert_some hd).2.1
    rw [Nat.mod_eq_of_lt (show 1 < n by omega)] at this
    exact this
  refine ⟨hloop, ?_, rfl, inverse_demo_run⟩
  intro fuel st
  unfold InverseDemo.inverse_demo
  simp only
  cases hq : InverseDemo.generate_q (InverseDemo.draw_prime st).1 fuel
      (InverseDemo.draw_prime st).2 with
  | done r =>
    obtain ⟨q, st1⟩ := r
    simp only
    cases he : InverseDemo.choose_e ((InverseDemo.draw_prime st).1 * q) fuel 0 st1 with
    | done r2 =>
      obtain ⟨e, st2⟩ := r2
      obtain ⟨-, -, -, d, hd, -⟩ := hloop _ _ _ _ _ he
      simp only [hd]
      decide
    | divide_by_zero => simp
    | out_of_fuel => simp
  | divide_by_zero => simp
  | out_of_fuel => simp


/-! ## Quick sort -/

theorem swap_quick_eq_index_swap (arr : Nat → Int) (i j : Nat) :
    SortingBenchmarked.swap_quick arr i j = fun k => arr (Equiv.swap i j k) := by
  funext k
  unfold SortingBenchmarked.swap_quick
  rw [Equiv.swap_apply_def]
  split
  · rfl
  · split <;> rfl

/-- A permutation of the indices that fixes every index outside `[lo, hi]` maps that
interval into itself. -/
theorem perm_maps_interval {σ : Equiv.Perm Nat} {lo hi : Int}
    (hfix : ∀ k : Nat, (k : Int) < lo ∨ hi < (k : Int) → σ k = k) {k : Nat}
    (h1 : lo ≤ (k : Int)) (h2 : (k : Int) ≤ hi) :
    lo ≤ ((σ k : Nat) : Int) ∧ ((σ k : Nat) : Int) ≤ hi := by
  by_contra hc
  have hout : ((σ k : Nat) : Int) < lo ∨ hi < ((σ k : Nat) : Int) := by omega
  have e1 : σ (σ k) = σ k := hfix _ hout
  have e2 : σ k = k := σ.injective e1
  rw [e2] at hout
  omega

/-- The loop of `partition` from index `j` with `steps` iterations left, entered with the
cells in `(i, j)` not below the pivot: it permutes the cells in `(i, j + steps)`, the
cells up to the final `i` are below the pivot and the cells after it are not. -/
theorem partition_loop_spec (pivot : Int) (steps : Nat) :
    ∀ (j i : Int) (c : SortingBenchmarked.Counted), 0 ≤ j → -1 ≤ i → i < j →
      (∀ k : Nat, i < (k : Int) → (k : Int) < j → pivot ≤ c.arr k) →
      i ≤ (SortingBenchmarked.partition_loop pivot steps j i c).1 ∧
      (SortingBenchmarked.partition_loop pivot steps j i c).1 < j + (steps : Int) ∧
      (∃ σ : Equiv.Perm Nat,
        (∀ k : Nat, (k : Int) ≤ i ∨ j + (steps : Int) ≤ (k : Int) → σ k = k) ∧
        (SortingBenchmarked.partition_loop pivot steps j i c).2.arr = fun k => c.arr (σ k)) ∧
      (∀ k : Nat, i < (k : Int) →
        (k : Int) ≤ (SortingBenchmarked.partition_loop pivot steps j i c).1 →
        (SortingBenchmarked.partition_loop pivot steps j i c).2.arr k < pivot) ∧
      (∀ k : Nat, (SortingBenchmarked.partition_loop pivot steps j i c).1 < (k : Int) →
        (k : Int) < j + (steps : Int) →
        pivot ≤ (SortingBenchmarked.partition_loop pivot steps j i c).2.arr k) := by
  induction steps with
  | zero =>
    intro j i c hj hi hij hinv
    unfold SortingBenchmarked.partition_loop
    refine ⟨le_refl i, by simpa using hij, ⟨1, fun k _ => rfl, rfl⟩, ?_, ?_⟩
    · intro k h1 h2
      simp only at h2
      omega
    · intro k h1 h2
      simp only [Nat.cast_zero, add_zero] at h1 h2
      exact hinv k h1 h2
  | succ steps ih =>
    intro j i c hj hi hij hinv
    have hjn : ((j.toNat : Nat) : Int) = j := Int.toNat_of_nonneg hj
    have hin : (((i + 1).toNat : Nat) : Int) = i + 1 := Int.toNat_of_nonneg (by omega)
    unfold SortingBenchmarked.partition_loop
    by_cases hlt : c.arr j.toNat < pivot
    · rw [if_pos hlt]
      have hinv1 : ∀ k : Nat, i + 1 < (k : Int) → (k : Int) < j + 1 →
          pivot ≤ (SortingBenchmarked.Counted.mk
            (SortingBenchmarked.swap_quick c.arr (i + 1).toNat j.toNat)
            (c.comparisons + 1) (c.swaps + 1)).arr k := by
        intro k h1 h2
        show pivot ≤ SortingBenchmarked.swap_quick c.arr (i + 1).toNat j.toNat k
        unfold SortingBenchmarked.swap_quick
        rw [if_neg (by omega)]
        by_cases hk : k = j.toNat
        · rw [if_pos hk]
          exact hinv _ (by omega) (by omega)
        · rw [if_neg hk]
          exact hinv k (by omega) (by omega)
      obtain ⟨r1, r2, ⟨σ, hfix, hσ⟩, r4, r5⟩ := ih (j + 1) (i + 1) _ (by omega) (by omega)
        (by omega) hinv1
      refine ⟨by omega, by push_cast; omega, ?_, ?_, ?_⟩
      · refine ⟨σ.trans (Equiv.swap (i + 1).toNat j.toNat), ?_, ?_⟩
        · intro k hk
          rw [Equiv.trans_apply, hfix k (by push_cast at hk; omega)]
          exact Equiv.swap_apply_of_ne_of_ne (by push_cast at hk; omega)
            (by push_cast at hk; omega)
        · rw [hσ]
          funext k
          show SortingBenchmarked.swap_quick c.arr (i + 1).toNat j.toNat (σ k) = _
          rw [swap_quick_eq_index_swap]
          rfl
      · intro k h1 h2
        by_cases hk : (k : Int) = i + 1
        · rw [hσ]
          show SortingBenchmarked.swap_quick c.arr (i + 1).toNat j.toNat (σ k) < pivot
          rw [hfix k (by omega)]
          unfold SortingBenchmarked.swap_quick
          rw [if_pos (by omega)]
          exact hlt
        · exact r4 k (by omega) h2
      · intro k h1 h2
        exact r5 k h1 (by push_cast at h2; omega)
    · rw [if_neg hlt]
      have hinv1 : ∀ k : Nat, i < (k : Int) → (k : Int) < j + 1 →
          pivot ≤ (SortingBenchmarked.Counted.mk c.arr (c.comparisons + 1) c.swaps).arr k := by
        intro k h1 h2
        show pivot ≤ c.arr k
        by_cases hk : k = j.toNat
        · rw [hk]
          exact not_lt.mp hlt
        · exact hinv k h1 (by omega)
      obtain ⟨r1, r2, ⟨σ, hfix, hσ⟩, r4, r5⟩ := ih (j + 1) i _ (by omega) hi (by omega) hinv1
      refine ⟨r1, by push_cast; omega, ⟨σ, ?_, hσ⟩, r4, ?_⟩
      · intro k hk
        exact hfix k (by push_cast at hk; omega)
      · intro k h1 h2
        exact r5 k h1 (by push_cast at h2; omega)

/-- `partition` on `0 ≤ low ≤ high`: the returned index lies in `[low, high]`, the cells
of `[low, high]` are permuted and no other cell changes, the pivot `arr[high]` ends at the
returned index, the cells before it are smaller and the cells after it are not. -/
theorem partition_spec (c : SortingBenchmarked.Counted) (low high : Int) (hlow : 0 ≤ low)
    (hle : low ≤ high) :
    low ≤ (SortingBenchmarked.partition c low high).1 ∧
      (SortingBenchmarked.partition c low high).1 ≤ high ∧
      (∃ σ : Equiv.Perm Nat, (∀ k : Nat, (k : Int) < low ∨ high < (k : Int) → σ k = k) ∧
        (SortingBenchmarked.partition c low high).2.arr = fun k => c.arr (σ k)) ∧
      (SortingBenchmarked.partition c low high).2.arr
        (SortingBenchmarked.partition c low high).1.toNat = c.arr high.toNat ∧
      (∀ k : Nat, low ≤ (k : Int) → (k : Int) < (SortingBenchmarked.partition c low high).1 →
        (SortingBenchmarked.partition c low high).2.arr k
          < (SortingBenchmarked.partition c low high).2.arr
            (SortingBenchmarked.partition c low high).1.toNat) ∧
      (∀ k : Nat, (SortingBenchmarked.partition c low high).1 < (k : Int) → (k : Int) ≤ high →
        (SortingBenchmarked.partition c low high).2.arr
            (SortingBenchmarked.partition c low high).1.toNat
          ≤ (SortingBenchmarked.partition c low high).2.arr k) := by
  have hsteps : low + (((high - low).toNat : Nat) : Int) = high := by
    rw [Int.toNat_of_nonneg (by omega)]
    omega
  obtain ⟨r1, r2, ⟨σ, hfix, hσ⟩, r4, r5⟩ := partition_loop_spec (c.arr high.toNat)
    (high - low).toNat low (low - 1) c hlow (by omega) (by omega) (fun k h1 h2 => by omega)
  rw [hsteps] at r2 hfix r5
  have hhn : ((high.toNat : Nat) : Int) = high := Int.toNat_of_nonneg (by omega)
  unfold SortingBenchmarked.partition
  simp only
  generalize SortingBenchmarked.partition_loop (c.arr high.toNat) (high - low).toNat low
    (low - 1) c = r at r1 r2 hσ r4 r5
  have hpn : (((r.1 + 1).toNat : Nat) : Int) = r.1 + 1 := Int.toNat_of_nonneg (by omega)
  have hhigh : r.2.arr high.toNat = c.arr high.toNat := by
    rw [hσ]
    show c.arr (σ high.toNat) = _
    rw [hfix high.toNat (by omega)]
  have hpiv : SortingBenchmarked.swap_quick r.2.arr (r.1 + 1).toNat high.toNat (r.1 + 1).toNat
      = c.arr high.toNat := by
    unfold SortingBenchmarked.swap_quick
    rw [if_pos rfl]
    exact hhigh
  refine ⟨by omega, by omega, ?_, hpiv, ?_, ?_⟩
  · refine ⟨(Equiv.swap (r.1 + 1).toNat high.toNat).trans σ, ?_, ?_⟩
    · intro k hk
      rw [Equiv.trans_apply, Equiv.swap_apply_of_ne_of_ne (by omega) (by omega)]
      exact hfix k (by omega)
    · rw [swap_quick_eq_index_swap, hσ]
      rfl
  · intro k h1 h2
    rw [hpiv]
    unfold SortingBenchmarked.swap_quick
    rw [if_neg (by omega), if_neg (by omega)]
    exact r4 k (by omega) (by omega)
  · intro k h1 h2
    rw [hpiv]
    unfold SortingBenchmarked.swap_quick
    rw [if_neg (by omega)]
    by_cases hk : k = high.toNat
    · rw [if_pos hk]
      exact r5 _ (by omega) (by omega)
    · rw [if_neg hk]
      exact r5 k (by omega) (by omega)

/-- `quickSortInstrumented` on `0 ≤ low` with `fuel` for a recursion of depth
`high - low`: it returns, the cells of `[low, high]` are permuted and in non-decreasing
order, and no other cell changes. -/
theorem quickSortInstrumented_spec : ∀ (fuel : Nat) (c : SortingBenchmarked.Counted)
    (low high : Int), 0 ≤ low → high - low ≤ (fuel : Int) →
    ∃ c2, SortingBenchmarked.quickSortInstrumented fuel c low high = Run.done c2 ∧
      (∃ σ : Equiv.Perm Nat, (∀ k : Nat, (k : Int) < low ∨ high < (k : Int) → σ k = k) ∧
        c2.arr = fun k => c.arr (σ k)) ∧
      ∀ a b : Nat, low ≤ (a : Int) → a ≤ b → (b : Int) ≤ high → c2.arr a ≤ c2.arr b := by
  intro fuel
  induction fuel with
  | zero =>
    intro c low high hlow hf
    unfold SortingBenchmarked.quickSortInstrumented
    rw [if_neg (by push_cast at hf; omega)]
    refine ⟨c, rfl, ⟨1, fun k _ => rfl, rfl⟩, ?_⟩
    intro a b h1 h2 h3
    have : a = b := by push_cast at hf; omega
    rw [this]
  | succ fuel ih =>
    intro c low high hlow hf
    unfold SortingBenchmarked.quickSortInstrumented
    by_cases hlh : low < high
    · rw [if_pos hlh]
      obtain ⟨p1, p2, ⟨σp, hfixp, hσp⟩, -, p5, p6⟩ := partition_spec c low high hlow
        (le_of_lt hlh)
      simp only
      generalize SortingBenchmarked.partition c low high = p at p1 p2 hσp p5 p6
      obtain ⟨c1, h1, ⟨σ1, hfix1, hσ1⟩, s1⟩ := ih p.2 low (p.1 - 1) hlow
        (by push_cast at hf; omega)
      obtain ⟨c2, h2, ⟨σ2, hfix2, hσ2⟩, s2⟩ := ih c1 (p.1 + 1) high (by omega)
        (by push_cast at hf; omega)
      rw [h1]
      simp only
      rw [h2]
      have hpn : ((p.1.toNat : Nat) : Int) = p.1 := Int.toNat_of_nonneg (by omega)
      have hlo : ∀ x : Nat, low ≤ (x : Int) → (x : Int) < p.1 →
          c2.arr x = c1.arr x ∧ c1.arr x < p.2.arr p.1.toNat := by
        intro x hx1 hx2
        constructor
        · rw [hσ2]
          show c1.arr (σ2 x) = c1.arr x
          rw [hfix2 x (by omega)]
        · rw [hσ1]
          show p.2.arr (σ1 x) < _
          obtain ⟨m1, m2⟩ := @perm_maps_interval σ1 low (p.1 - 1) hfix1 x hx1 (by omega)
          exact p5 _ m1 (by omega)
      have hmid : ∀ x : Nat, (x : Int) = p.1 → c2.arr x = p.2.arr p.1.toNat := by
        intro x hx
        have hxe : x = p.1.toNat := by omega
        rw [hσ2]
        show c1.arr (σ2 x) = _
        rw [hfix2 x (by omega), hσ1]
        show p.2.arr (σ1 x) = _
        rw [hfix1 x (by omega), hxe]
      have hhi : ∀ x : Nat, p.1 < (x : Int) → (x : Int) ≤ high →
          p.2.arr p.1.toNat ≤ c2.arr x := by
        intro x hx1 hx2
        obtain ⟨m1, m2⟩ := @perm_maps_interval σ2 (p.1 + 1) high hfix2 x (by omega) hx2
        rw [hσ2]
        show _ ≤ c1.arr (σ2 x)
        rw [hσ1]
        show _ ≤ p.2.arr (σ1 (σ2 x))
        rw [hfix1 _ (by omega)]
        exact p6 _ (by omega) m2
      refine ⟨c2, rfl, ⟨(σ2.trans σ1).trans σp, ?_, ?_⟩, ?_⟩
      · intro k hk
        rw [Equiv.trans_apply, Equiv.trans_apply, hfix2 k (by omega), hfix1 k (by omega)]
        exact hfixp k hk
      · rw [hσ2, hσ1, hσp]
        rfl
      · intro a b ha hab hb
        rcases lt_trichotomy (a : Int) p.1 with ha1 | ha1 | ha1
        · rcases lt_trichotomy (b : Int) p.1 with hb1 | hb1 | hb1
          · rw [(hlo a ha ha1).1, (hlo b (by omega) hb1).1]
            exact s1 a b ha hab (by omega)
          · rw [(hlo a ha ha1).1, hmid b hb1]
            exact le_of_lt (hlo a ha ha1).2
          · rw [(hlo a ha ha1).1]
            exact le_trans (le_of_lt (hlo a ha ha1).2) (hhi b hb1 hb)
        · rcases Nat.eq_or_lt_of_le hab with he | hl
          · rw [he]
          · rw [hmid a ha1]
            exact hhi b (by omega) hb
        · exact s2 a b (by omega) hab hb
    · rw [if_neg hlh]
      refine ⟨c, rfl, ⟨1, fun k _ => rfl, rfl⟩, ?_⟩
      intro a b h1 h2 h3
      have : a = b := by omega
      rw [this]

/-- C31: `quickSort(arr, n, comparisons, swaps)`, given `fuel` for a recursion of depth
`n`, returns and leaves the first `n` cells in non-decreasing order and a permutation of
what they held, touching no cell from `n` on; and `partition` on `0 ≤ low ≤ high` returns
an index `pi` in `[low, high]` such that every cell of `[low, pi)` is smaller than cell
`pi`, no cell of `(pi, high]` is smaller than it, and the cells of `[low, high]` are
permuted. -/
theorem quickSort_sorts (arr : Nat → Int) (n : Int) (comparisons swaps : Int) (fuel : Nat)
    (hf : n ≤ (fuel : Int)) :
    (∃ c, SortingBenchmarked.quickSort fuel arr n comparisons swaps = Run.done c ∧
        (∀ a b : Nat, a ≤ b → (b : Int) < n → c.arr a ≤ c.arr b) ∧
        ((List.range n.toNat).map c.arr).Perm ((List.range n.toNat).map arr) ∧
        (∀ k : Nat, n ≤ (k : Int) → c.arr k = arr k)) ∧
      ∀ (c : SortingBenchmarked.Counted) (low high : Int), 0 ≤ low → low ≤ high →
        low ≤ (SortingBenchmarked.partition c low high).1 ∧
        (SortingBenchmarked.partition c low high).1 ≤ high ∧
        (∀ k : Nat, low ≤ (k : Int) → (k : Int) < (SortingBenchmarked.partition c low high).1 →
          (SortingBenchmarked.partition c low high).2.arr k
            < (SortingBenchmarked.partition c low high).2.arr
              (SortingBenchmarked.partition c low high).1.toNat) ∧
        (∀ k : Nat, (SortingBenchmarked.partition c low high).1 < (k : Int) →
          (k : Int) ≤ high →
          (SortingBenchmarked.partition c low high).2.arr
              (SortingBenchmarked.partition c low high).1.toNat
            ≤ (SortingBenchmarked.partition c low high).2.arr k) ∧
        ∃ σ : Equiv.Perm Nat, (∀ k : Nat, (k : Int) < low ∨ high < (k : Int) → σ k = k) ∧
          (SortingBenchmarked.partition c low high).2.arr = fun k => c.arr (σ k) := by
  constructor
  · obtain ⟨c, hc, ⟨σ, hfix, hσ⟩, hs⟩ := quickSortInstrumented_spec fuel
      (SortingBenchmarked.Counted.mk arr comparisons swaps) 0 (n - 1) (le_refl 0) (by omega)
    have hfix2 : ∀ k, n.toNat ≤ k → σ k = k := fun k hk => hfix k (by omega)
    refine ⟨c, hc, fun a b hab hb => hs a b (by omega) hab (by omega), ?_, ?_⟩
    · rw [hσ]
      exact perm_of_index_perm arr σ n.toNat hfix2
    · intro k hk
      rw [hσ]
      show arr (σ k) = arr k
      rw [hfix k (by omega)]
  · intro c low high hlow hle
    obtain ⟨p1, p2, p3, -, p5, p6⟩ := partition_spec c low high hlow hle
    exact ⟨p1, p2, p5, p6, p3⟩

/-- Witness for C31: on the array `{5, 2, 8, 1, 9, 3}` with `n = 6` the run returns and
leaves `{1, 2, 3, 5, 8, 9}`. -/
theorem quickSort_sorts_witness :
    (6 : Int) ≤ ((6 : Nat) : Int) ∧
      (match SortingBenchmarked.quickSort 6 quick_input 6 0 0 with
        | Run.done c => (List.range 6).map c.arr
        | Run.divide_by_zero => []
        | Run.out_of_fuel => []) = [1, 2, 3, 5, 8, 9] ∧
      ∃ c, SortingBenchmarked.quickSort 6 quick_input 6 0 0 = Run.done c ∧
        (∀ a b : Nat, a ≤ b → (b : Int) < 6 → c.arr a ≤ c.arr b) ∧
        ((List.range (6 : Int).toNat).map c.arr).Perm
          ((List.range (6 : Int).toNat).map quick_input) ∧
        (∀ k : Nat, (6 : Int) ≤ (k : Int) → c.arr k = quick_input k) :=
  ⟨by decide, by decide, (quickSort_sorts quick_input 6 0 0 6 (by decide)).1⟩

end Crypto
